import Mathlib

/-!
# dialgen: include resolution, message decoding, type mapping and emission

A shallow embedding of `dialgen/main.go`.  Go strings are Lean `String`s, `[]byte` is
`List UInt8`, `uint32` is a `Nat` reduced modulo `2 ^ 32`, and a Go `error` result is an
`Except String _` (or an `Option String` next to the state that the closure mutated).

Everything that `main.go` imports is a parameter of the embedding:

* `encoding/xml` (the token stream of a decoder, `DecodeElement`, `xml.Unmarshal`),
* `net/http` / `io/ioutil` (`http.Get`, `ioutil.ReadAll`, `ioutil.ReadFile`), `net/url`
  (`url.ParseRequestURI`), `os` (`os.Create`),
* the tables and converters of package `gomavlib` (`MsgTypeXmlToGo`, `MsgNameXmlToGo`,
  `MsgFieldXmlToGo`),
* the iteration order the Go runtime picks for a `range` over a map.
-/

set_option autoImplicit false

namespace Dialgen

/-! ## Data model (`main.go` lines 19-96) -/

structure MavlinkEnumEntry where
  Value : String
  Name : String
  Description : String
deriving DecidableEq, Repr

structure MavlinkEnum where
  Description : String
  Entries : List MavlinkEnumEntry
deriving DecidableEq, Repr

/-- The struct `MavlinkField`; the member `Type` of the source is `Typ` here (`Type` is reserved). -/
structure MavlinkField where
  Extension : Bool
  Typ : String
  Name : String
  Enum : String
  Description : String
deriving DecidableEq, Repr

structure MavlinkMessage where
  Id : Nat
  Name : String
  Description : String
  Fields : List MavlinkField
deriving DecidableEq, Repr

structure MavlinkDefinition where
  Name : String
  Version : Int
  Dialect : Int
  Includes : List String
  Enums : List MavlinkEnum
  Messages : List MavlinkMessage
deriving DecidableEq, Repr

/-- The Go zero value of `MavlinkField`. -/
def MavlinkField.zero : MavlinkField := ⟨false, "", "", "", ""⟩

/-- The Go zero value of `MavlinkMessage`. -/
def MavlinkMessage.zero : MavlinkMessage := ⟨0, "", "", []⟩

/-- The Go zero value of `MavlinkDefinition`. -/
def MavlinkDefinition.zero : MavlinkDefinition := ⟨"", 0, 0, [], [], []⟩

/-! ## `filepath.Split` (Unix) -/

/-- The function `filepath.Split`: the path is cut right after its final `/`; without a `/` the
directory part is empty. -/
def Split (path : String) : String × String :=
  let r := path.data.reverse
  (⟨(r.dropWhile (fun c => c != '/')).reverse⟩, ⟨(r.takeWhile (fun c => c != '/')).reverse⟩)

/-! ## The collaborators of `do` -/

/-- What `http.Get` returns when it succeeds, as far as `dlUrl` looks at it: the status code
and the outcome of `ioutil.ReadAll(res.Body)`. -/
structure Response where
  StatusCode : Nat
  Body : Except String (List UInt8)

/-- Everything `do` calls outside `main.go`. -/
structure World where
  /-- Whether `url.ParseRequestURI addr` succeeds: `true` when it returns no error. -/
  ParseRequestURI : String → Bool
  /-- The function `http.Get`. -/
  Get : String → Except String Response
  /-- The function `ioutil.ReadFile`. -/
  ReadFile : String → Except String (List UInt8)
  /-- The call `xml.Unmarshal(content, &def)` on a zero `MavlinkDefinition`. -/
  Unmarshal : List UInt8 → Except String MavlinkDefinition
  /-- The function `gomavlib.MsgNameXmlToGo`. -/
  MsgNameXmlToGo : String → String
  /-- The function `gomavlib.MsgFieldXmlToGo`. -/
  MsgFieldXmlToGo : String → String
  /-- The table `gomavlib.MsgTypeXmlToGo`, a Go map: `none` for a key that is absent. -/
  MsgTypeXmlToGo : String → Option String
  /-- The order in which `range tags` walks the map in `fieldTypeToGo`, for the field at
  index `j` of the message at index `i` of the document at an address: `false` is
  insertion order, `true` the reverse (the map never holds more than two keys). -/
  rangeOrder : String → Nat → Nat → Bool

/-! ## `dlUrl` (`main.go` lines 302-318) -/

/-- The function `dlUrl`: the body of the response when the request succeeds with status
200 (`http.StatusOK`). -/
def dlUrl (w : World) (desturl : String) : Except String (List UInt8) :=
  match w.Get desturl with
  | .error err => .error err
  | .ok res =>
    if res.StatusCode ≠ 200 then .error ("bad return code: " ++ toString res.StatusCode)
    else
      match res.Body with
      | .error err => .error err
      | .ok byt => .ok byt

/-! ## `fieldTypeToGo` (`main.go` lines 133-177) -/

/-- The part `\\[([0-9]+)\\]$` of the pattern, tried at one position: an opening bracket,
one or more decimal digits (greedy), a closing bracket, end of text.  Returns the digits. -/
def matchLenSuffix : List Char → Option (List Char)
  | '[' :: t =>
    let ds := t.takeWhile Char.isDigit
    if ds ≠ [] ∧ t.dropWhile Char.isDigit = [']'] then some ds else none
  | _ => none

/-- The non-greedy group `(.+?)` followed by the rest of the pattern: `acc` holds, reversed,
the characters the group has taken so far (at least one); the shortest extension after which
the rest of the pattern matches wins.  `.` does not match a line feed. -/
def matchBase (acc : List Char) : List Char → Option (List Char × List Char)
  | [] => none
  | c :: t =>
    match matchLenSuffix (c :: t) with
    | some ds => some (acc.reverse, ds)
    | none => if c = '\n' then none else matchBase (c :: acc) t

/-- The call `regexp.MustCompile("^(.+?)\\[([0-9]+)\\]$").FindStringSubmatch(typ)`: `none` for Go's
`nil`, otherwise `matches[1]` and `matches[2]`. -/
def FindStringSubmatch (typ : String) : Option (String × String) :=
  match typ.data with
  | [] => none
  | c :: t =>
    if c = '\n' then none
    else (matchBase [c] t).map (fun m => (String.mk m.1, String.mk m.2))

/-- The pairs of a Go map with at most two keys in the order a `range` visits them. -/
def rangeMap (order : Bool) (tags : List (String × String)) : List (String × String) :=
  if order then tags.reverse else tags

/-- The function `fieldTypeToGo`.  `MsgTypeXmlToGo` is the table of package `gomavlib`; `order` is the
iteration order of `range tags`.  The map `tags` is the list of its pairs in insertion order
(its two possible keys are distinct). -/
def fieldTypeToGo (MsgTypeXmlToGo : String → Option String) (order : Bool)
    (f : MavlinkField) : String :=
  let typ := f.Typ
  let typ := if typ = "uint8_t_mavlink_version" then "uint8_t" else typ
  -- string or array
  let r : String × List (String × String) × String :=
    match FindStringSubmatch typ with
    | some (m1, m2) =>
      if m1 = "char" then ("", [("mavlen", m2)], "char") else (m2, [], m1)
    | none => ("", [], typ)
  let arrayLen := r.1
  let tags := r.2.1
  let typ := r.2.2
  -- extension
  let tags := if f.Extension = true then tags ++ [("mavext", "true")] else tags
  let typ := (MsgTypeXmlToGo typ).getD ""
  let out := ""
  let out := if arrayLen ≠ "" then out ++ ("[" ++ arrayLen ++ "]") else out
  let out := out ++ typ
  if tags.length > 0 then
    let tmp := (rangeMap order tags).map (fun kv => kv.1 ++ ":\"" ++ kv.2 ++ "\"")
    out ++ (" `" ++ String.intercalate "," tmp ++ "`")
  else out

/-- A table with the two entries the examples need. -/
def demoTable (k : String) : Option String :=
  if k = "float" then some "float32" else if k = "char" then some "string"
  else if k = "uint8_t" then some "uint8" else none


/-! ## The include resolver: the closure `process` of `do` (`main.go` lines 198-270) -/

/-- The conversion of the fields of one message (lines 262-265), `j` being the index of the
first field of the list. -/
def convertFields (w : World) (ord : Nat → Bool) : Nat → List MavlinkField → List MavlinkField
  | _, [] => []
  | j, f :: fs =>
    let f := { f with Name := w.MsgFieldXmlToGo f.Name }
    let f := { f with Typ := fieldTypeToGo w.MsgTypeXmlToGo (ord j) f }
    f :: convertFields w ord (j + 1) fs

/-- The conversion of the messages of one document (lines 260-266), `i` being the index of
the first message of the list. -/
def convertMessages (w : World) (ord : Nat → Nat → Bool) :
    Nat → List MavlinkMessage → List MavlinkMessage
  | _, [] => []
  | i, msg :: msgs =>
    { msg with Name := w.MsgNameXmlToGo msg.Name, Fields := convertFields w (ord i) 0 msg.Fields }
      :: convertMessages w ord (i + 1) msgs

/-- The variables the closure `process` captures and mutates, and three logs of what it did:
`fetched` and `parsed` record every call of `dlUrl`/`ReadFile` and of `xml.Unmarshal` by
address, `appended` the address whose document each entry of `defs` is. -/
structure RunState where
  processed : List String
  defs : List MavlinkDefinition
  fetched : List String
  parsed : List String
  appended : List String
deriving DecidableEq, Repr

/-- The state `do` starts `process` in. -/
def RunState.init : RunState := ⟨[], [], [], [], []⟩

/-- The child address of an include (lines 249-252). -/
def childAddr (isRemote : Bool) (defAddr inc : String) : String :=
  if isRemote = true then (Split defAddr).1 ++ inc else inc

/-- The loop `for _, inc := range def.Includes` (lines 248-257) over a visitor. -/
def forIncludes (visit : String → RunState → Option (RunState × Option String)) :
    List String → RunState → Option (RunState × Option String)
  | [], s => some (s, none)
  | inc :: rest, s =>
    match visit inc s with
    | none => none
    | some (s1, some err) => some (s1, some err)
    | some (s1, none) => forIncludes visit rest s1

/-- The inner closure of lines 217-232 that gets the content of a definition. -/
def getContent (w : World) (isRemote : Bool) (defAddr : String) : Except String (List UInt8) :=
  if isRemote = true then
    match dlUrl w defAddr with
    | .error err => .error ("unable to download: " ++ err)
    | .ok byt => .ok byt
  else
    match w.ReadFile defAddr with
    | .error err => .error ("unable to open: " ++ err)
    | .ok byt => .ok byt

/-- The closure `process` (lines 207-270).  The recursion of the source is unbounded; here
it is cut at depth `fuel`, and `none` means that the depth was not enough.  Otherwise the
result is the state left behind and the error returned (`none` for `nil`). -/
def process (w : World) (isRemote : Bool) :
    Nat → String → RunState → Option (RunState × Option String)
  | 0, _, _ => none
  | fuel + 1, defAddr, s =>
    -- skip already processed
    if defAddr ∈ s.processed then some (s, none)
    else
      let s := { s with processed := s.processed ++ [defAddr] }
      -- get definition content
      let s := { s with fetched := s.fetched ++ [defAddr] }
      match getContent w isRemote defAddr with
      | .error err => some (s, some err)
      | .ok content =>
        -- parse definition
        let s := { s with parsed := s.parsed ++ [defAddr] }
        match w.Unmarshal content with
        | .error err => some (s, some ("unable to decode: " ++ err))
        | .ok d =>
          let d := { d with Name := (Split defAddr).2 }
          -- process includes
          match forIncludes (fun inc s => process w isRemote fuel (childAddr isRemote defAddr inc) s)
              d.Includes s with
          | none => none
          | some (s, some err) => some (s, some err)
          | some (s, none) =>
            -- convert strings to go format
            let d := { d with Messages := convertMessages w (w.rangeOrder defAddr) 0 d.Messages }
            some ({ s with defs := s.defs ++ [d], appended := s.appended ++ [defAddr] }, none)

/-! ## `MavlinkMessage.UnmarshalXML` (`main.go` lines 46-87) -/

/-- An attribute of a start element: `a.Name.Local` and `a.Value`. -/
structure Attr where
  Local : String
  Value : String
deriving DecidableEq, Repr

/-- What `d.Token()` returns, as far as the type switch of line 64 tells tokens apart. -/
inductive Token where
  | StartElement (Local : String) (Attr : List Attr)
  | Other
deriving DecidableEq, Repr

/-- One iteration of the loop of line 59 as the decoder serves it: the token returned by
`d.Token()` and, for a start element the loop hands to `d.DecodeElement`, what reading the
content of that element gives (an error, or its text).  A decoded element is one step: its
content is consumed by `DecodeElement` and never reaches the loop.  The end of the list is
the `nil` token. -/
structure Step where
  tok : Token
  decode : Except String String

/-- The two errors of package `strconv`: `ErrSyntax` and `ErrRange`. -/
inductive NumError where
  | Syntax
  | Range
deriving DecidableEq, Repr

/-- The loop of `strconv.ParseUint(s, 10, 64)` over the bytes of `s`, `n` being the value
read so far: the first byte that is no decimal digit is a syntax error (value 0), the first
digit that takes the value past `2 ^ 64 - 1` a range error (value `2 ^ 64 - 1`). -/
def parseUintLoop : Nat → List Char → Nat × Option NumError
  | n, [] => (n, none)
  | n, c :: cs =>
    if c.isDigit = false then (0, some .Syntax)
    else if n * 10 + (c.toNat - 48) > 2 ^ 64 - 1 then (2 ^ 64 - 1, some .Range)
    else parseUintLoop (n * 10 + (c.toNat - 48)) cs

/-- The function `strconv.Atoi` on a platform with 64-bit `int` (`strconv.ParseInt(s, 10, 0)`; the fast
path for short strings agrees with it): an optional sign, then `ParseUint`; a syntax error
gives 0, a value out of the range of `int` is clamped. -/
def Atoi (s : String) : Int × Option NumError :=
  let cs := s.data
  let neg := cs.head? = some '-'
  let ds := if cs.head? = some '-' ∨ cs.head? = some '+' then cs.tail else cs
  if ds = [] then (0, some .Syntax)
  else
    match parseUintLoop 0 ds with
    | (_, some .Syntax) => (0, some .Syntax)
    | (un, _) =>
      if ¬ neg ∧ un ≥ 2 ^ 63 then ((2 ^ 63 - 1 : Int), some .Range)
      else if neg ∧ un > 2 ^ 63 then (-(2 ^ 63 : Int), some .Range)
      else if neg then (-(un : Int), none)
      else ((un : Int), none)

/-- The conversion `uint32(v)` of an `int`. -/
def toUint32 (v : Int) : Nat := (v % 2 ^ 32).toNat

/-- The loop over `start.Attr` (lines 48-56). -/
def unmarshalAttrs (m : MavlinkMessage) : List Attr → MavlinkMessage
  | [] => m
  | a :: rest =>
    let m :=
      if a.Local = "id" then { m with Id := toUint32 (Atoi a.Value).1 }
      else if a.Local = "name" then { m with Name := a.Value }
      else m
    unmarshalAttrs m rest

/-- The attributes `d.DecodeElement(&field, &se)` assigns to the members tagged `attr`. -/
def decodeFieldAttrs (f : MavlinkField) : List Attr → MavlinkField
  | [] => f
  | a :: rest =>
    let f :=
      if a.Local = "type" then { f with Typ := a.Value }
      else if a.Local = "name" then { f with Name := a.Value }
      else if a.Local = "enum" then { f with Enum := a.Value }
      else f
    decodeFieldAttrs f rest

/-- The field of lines 77-78 after a successful `d.DecodeElement(&field, &se)`: created with
`Extension: inExtensions`, then filled from the attributes and the inner XML. -/
def decodedField (inExtensions : Bool) (attr : List Attr) (inner : String) : MavlinkField :=
  let field : MavlinkField := { MavlinkField.zero with Extension := inExtensions }
  { decodeFieldAttrs field attr with Description := inner }

/-- The loop of lines 59-85 with its local `inExtensions`. -/
def unmarshalBody (inExtensions : Bool) (m : MavlinkMessage) :
    List Step → Except String MavlinkMessage
  | [] => .ok m
  | ⟨.StartElement name attr, dec⟩ :: rest =>
    if name = "description" then
      match dec with
      | .error err => .error err
      | .ok text => unmarshalBody inExtensions { m with Description := text } rest
    else if name = "extensions" then unmarshalBody true m rest
    else if name = "field" then
      match dec with
      | .error err => .error err
      | .ok inner =>
        let field := decodedField inExtensions attr inner
        unmarshalBody inExtensions { m with Fields := m.Fields ++ [field] } rest
    else unmarshalBody inExtensions m rest
  | ⟨.Other, _⟩ :: rest => unmarshalBody inExtensions m rest

/-- The method `(m *MavlinkMessage).UnmarshalXML(d, start)`: `m` is the receiver, `start` the
attributes of the start element, `body` what the decoder serves. -/
def UnmarshalXML (m : MavlinkMessage) (start : List Attr) (body : List Step) :
    Except String MavlinkMessage :=
  unmarshalBody false (unmarshalAttrs m start) body

/-- Whether a step is a start element with the given local name. -/
def Step.isStart (name : String) (st : Step) : Bool :=
  match st.tok with
  | .StartElement n _ => decide (n = name)
  | .Other => false

/-- The attributes of a step that is a start element. -/
def Step.attrs (st : Step) : List Attr :=
  match st.tok with
  | .StartElement _ a => a
  | .Other => []

/-- How the fields `new` that the loop appends relate to the body it walks, `ext` being the
flag on entry: there is one new field per `field` element; the `field` element with `k`
`field` elements before it is decoded into the `k`-th new field with the flag as it stands
there (set on entry, or by an `extensions` element before it); and every new field is the
field of such an element. -/
def FieldsSpec (ext : Bool) (body : List Step) (new : List MavlinkField) : Prop :=
  new.length = (body.filter (Step.isStart "field")).length ∧
  (∀ pre st post, body = pre ++ st :: post → st.isStart "field" = true →
    ∃ inner, st.decode = .ok inner ∧
      new[(pre.filter (Step.isStart "field")).length]? =
        some (decodedField (ext || pre.any (Step.isStart "extensions")) st.attrs inner)) ∧
  (∀ f ∈ new, ∃ pre st post inner, body = pre ++ st :: post ∧ st.isStart "field" = true ∧
    st.decode = .ok inner ∧
    f = decodedField (ext || pre.any (Step.isStart "extensions")) st.attrs inner)

/-! ## The template `tpl` (`main.go` lines 98-131) -/

/-- The pieces of text the template emits. -/
inductive Chunk where
  | header (name : String)
  | defComment (defName : String)
  | typeOpen (msgName : String)
  | member (name : String) (typ : String)
  | typeClose
  | getId (msgName : String) (id : Nat)
  | registryOpen
  | registryComment (defName : String)
  | registryEntry (msgName : String)
  | registryClose
deriving DecidableEq, Repr

/-- The text of a piece, with the white space the trim markers leave. -/
def Chunk.render : Chunk → String
  | .header name =>
    "\n// autogenerated with dialgen. do not edit.\n\npackage " ++ name
      ++ "\n\nimport (\n\t\"github.com/gswly/gomavlib\"\n)\n"
  | .defComment defName => "\n// " ++ defName ++ "\n"
  | .typeOpen msgName => "\ntype Message" ++ msgName ++ " struct \x7b"
  | .member name typ => "\n    " ++ name ++ " " ++ typ
  | .typeClose => "\n\x7d\n"
  | .getId msgName id =>
    "\nfunc (*Message" ++ msgName ++ ") GetId() uint32 \x7b\n    return " ++ toString id
      ++ "\n\x7d\n"
  | .registryOpen => "\n\nvar Dialect = []gomavlib.Message\x7b"
  | .registryComment defName => "\n    // " ++ defName
  | .registryEntry msgName => "\n    &Message" ++ msgName ++ "\x7b\x7d,"
  | .registryClose => "\n\x7d\n"

/-- The pieces of one message: the record type with one member per field, then `GetId`
(template lines 111-119). -/
def messageChunks (m : MavlinkMessage) : List Chunk :=
  [Chunk.typeOpen m.Name] ++ m.Fields.map (fun f => Chunk.member f.Name f.Typ)
    ++ [Chunk.typeClose, Chunk.getId m.Name m.Id]

/-- The pieces of the first `range .Defs` (template lines 107-121). -/
def declChunks (defs : List MavlinkDefinition) : List Chunk :=
  defs.flatMap fun d => Chunk.defComment d.Name :: d.Messages.flatMap messageChunks

/-- The pieces of the second `range .Defs`, inside `var Dialect` (template lines 124-129). -/
def registryChunks (defs : List MavlinkDefinition) : List Chunk :=
  defs.flatMap fun d =>
    Chunk.registryComment d.Name :: d.Messages.map (fun m => Chunk.registryEntry m.Name)

/-- The pieces `tpl.Execute` emits for the data `Name`, `Defs`. -/
def tplChunks (name : String) (defs : List MavlinkDefinition) : List Chunk :=
  [Chunk.header name] ++ declChunks defs ++ [Chunk.registryOpen] ++ registryChunks defs
    ++ [Chunk.registryClose]

/-- The bytes `tpl.Execute` writes. -/
def tplExecute (name : String) (defs : List MavlinkDefinition) : String :=
  String.join ((tplChunks name defs).map Chunk.render)

/-- The record types declared by the output, in order. -/
def declaredTypes (cs : List Chunk) : List String :=
  cs.filterMap fun c => match c with
    | .typeOpen n => some n
    | _ => none

/-- The entries of the registry of the output, in order. -/
def registryEntries (cs : List Chunk) : List String :=
  cs.filterMap fun c => match c with
    | .registryEntry n => some n
    | _ => none

/-- The members of the record types of the output, in order. -/
def members (cs : List Chunk) : List (String × String) :=
  cs.filterMap fun c => match c with
    | .member n t => some (n, t)
    | _ => none

/-! ## `do` (`main.go` lines 193-300) -/

/-- The function `strings.HasSuffix`. -/
def HasSuffix (s suffix : String) : Bool := suffix.data.isSuffixOf s.data

/-- The function `strings.TrimSuffix`. -/
def TrimSuffix (s suffix : String) : String :=
  if HasSuffix s suffix then ⟨s.data.take (s.data.length - suffix.data.length)⟩ else s

/-- What a run of `do` leaves behind: the error returned, the addresses fetched, and the
content of the output file when it was created and written. -/
structure DoResult where
  err : Option String
  fetched : List String
  output : Option String
deriving DecidableEq, Repr

/-- The function `do(outfile, mainDefAddr)`; `Create outfile` is the error of `os.Create`, if any.
`none` when `fuel` does not cover the depth of the recursion of `process`. -/
def do_ (w : World) (Create : String → Option String) (fuel : Nat)
    (outfile mainDefAddr : String) : Option DoResult :=
  if HasSuffix outfile ".go" = false then
    some ⟨some "output file must end with .go", [], none⟩
  else
    let isRemote := w.ParseRequestURI mainDefAddr
    match process w isRemote fuel mainDefAddr RunState.init with
    | none => none
    | some (s, some err) => some ⟨some err, s.fetched, none⟩
    | some (s, none) =>
      match Create outfile with
      | some err => some ⟨some err, s.fetched, none⟩
      | none =>
        some ⟨none, s.fetched, some (tplExecute (TrimSuffix (Split mainDefAddr).2 ".xml") s.defs)⟩

/-! ## What the resolver is measured against -/

/-- The document at an address as `xml.Unmarshal` returns it, when the address can be
fetched and parsed. -/
def parseAt (w : World) (isRemote : Bool) (a : String) : Option MavlinkDefinition :=
  match getContent w isRemote a with
  | .error _ => none
  | .ok content =>
    match w.Unmarshal content with
    | .error _ => none
    | .ok d => some d

/-- The document of an address as it is appended to `defs`: named after the last segment of
the address, with names and types converted. -/
def docAt (w : World) (isRemote : Bool) (a : String) : Option MavlinkDefinition :=
  (parseAt w isRemote a).map fun d =>
    { d with Name := (Split a).2,
             Messages := convertMessages w (w.rangeOrder a) 0 d.Messages }

/-- The include graph: `Includes w isRemote p c` when the document at `p` has an include
whose child address is `c`. -/
def Includes (w : World) (isRemote : Bool) (p c : String) : Prop :=
  ∃ d, parseAt w isRemote p = some d ∧ ∃ inc ∈ d.Includes, c = childAddr isRemote p inc

/-- The addresses reachable from `a` along includes (`a` itself among them). -/
def Reach (w : World) (isRemote : Bool) (a b : String) : Prop :=
  Relation.ReflTransGen (Includes w isRemote) a b

/-- The order of a post-order output: walking `out` from the left with `seen` before it,
every include of an entry is among the entries before it, unless the include leads back to
the entry (`back c x`). -/
def PostOrdered (inc back : String → String → Prop) : List String → List String → Prop
  | _, [] => True
  | seen, x :: rest =>
    (∀ c, inc x c → c ∈ seen ∨ back c x) ∧ PostOrdered inc back (seen ++ [x]) rest

/-- How a state `s2` extends a state `s`: the addresses `pre` were marked, fetched and
parsed (in this order), their documents were appended in the order `post`. -/
structure Grows (w : World) (r : Bool) (s s2 : RunState) (pre post : List String) : Prop where
  processed : s2.processed = s.processed ++ pre
  fetched : s2.fetched = s.fetched ++ pre
  parsed : s2.parsed = s.parsed ++ pre
  appended : s2.appended = s.appended ++ post
  defs : s2.defs.map some = s.defs.map some ++ post.map (docAt w r)
  perm : pre.Perm post
  nodup : pre.Nodup
  fresh : ∀ x ∈ pre, x ∉ s.processed
  closed : ∀ x ∈ pre, ∀ c, Includes w r x c → c ∈ s2.processed

/-- The addresses marked but not yet appended all lead to `a`. -/
def StackLeadsTo (w : World) (r : Bool) (s : RunState) (a : String) : Prop :=
  ∀ q ∈ s.processed, q ∉ s.appended → Reach w r q a

/-- What a successful `process a` from `s` to `s2` has done. -/
def Visited (w : World) (r : Bool) (a : String) (s s2 : RunState) : Prop :=
  ∃ pre post, Grows w r s s2 pre post ∧ a ∈ s2.processed ∧ (∀ x ∈ pre, Reach w r a x) ∧
    (StackLeadsTo w r s a → PostOrdered (Includes w r) (Reach w r) s.appended post)

/-- What a successful loop over the includes `incs` of `p` from `s` to `s2` has done. -/
def Looped (w : World) (r : Bool) (p : String) (incs : List String) (s s2 : RunState) : Prop :=
  ∃ pre post, Grows w r s s2 pre post ∧ (∀ inc ∈ incs, childAddr r p inc ∈ s2.processed) ∧
    (∀ x ∈ pre, ∃ inc ∈ incs, Reach w r (childAddr r p inc) x) ∧
    (StackLeadsTo w r s p → (∀ inc ∈ incs, Includes w r p (childAddr r p inc)) →
      PostOrdered (Includes w r) (Reach w r) s.appended post)

/-! ## Concrete inputs -/

/-- A document that only has includes. -/
def includeDoc (incs : List String) : MavlinkDefinition :=
  { MavlinkDefinition.zero with Includes := incs }

/-- A world whose addresses are the keys of `g`: the content of the `i`-th address is the
single byte `i`, which decodes to the `i`-th document; every other address fails to fetch
(status 404, or no such file).
Names are left as they are and the table is `demoTable`. -/
def graphWorld (remote : Bool) (g : List (String × MavlinkDefinition)) : World where
  ParseRequestURI := fun _ => remote
  Get := fun a =>
    if (g.map Prod.fst).indexOf a < g.length then
      .ok ⟨200, .ok [UInt8.ofNat ((g.map Prod.fst).indexOf a)]⟩
    else .ok ⟨404, .ok []⟩
  ReadFile := fun a =>
    if (g.map Prod.fst).indexOf a < g.length then .ok [UInt8.ofNat ((g.map Prod.fst).indexOf a)]
    else .error ("open " ++ a ++ ": no such file or directory")
  Unmarshal := fun content =>
    match content with
    | [b] =>
      match g.get? b.toNat with
      | some kd => .ok kd.2
      | none => .error "EOF"
    | _ => .error "EOF"
  MsgNameXmlToGo := fun n => n
  MsgFieldXmlToGo := fun n => n
  MsgTypeXmlToGo := demoTable
  rangeOrder := fun _ _ _ => false

/-- A diamond: `A` includes `B` and `C`, both of which include `D`. -/
def diamond : World :=
  graphWorld false [("A", includeDoc ["B", "C"]), ("B", includeDoc ["D"]),
    ("C", includeDoc ["D"]), ("D", includeDoc [])]

/-- The state a run on `diamond` from `A` ends in. -/
def diamondEnd : RunState :=
  { processed := ["A", "B", "D", "C"],
    defs := [{ includeDoc [] with Name := "D" }, { includeDoc ["D"] with Name := "B" },
      { includeDoc ["D"] with Name := "C" }, { includeDoc ["B", "C"] with Name := "A" }],
    fetched := ["A", "B", "D", "C"],
    parsed := ["A", "B", "D", "C"],
    appended := ["D", "B", "C", "A"] }

/-- A chain: `A` includes `B`, which includes `C`. -/
def chain : World :=
  graphWorld false [("A", includeDoc ["B"]), ("B", includeDoc ["C"]), ("C", includeDoc [])]

/-- The state a run on `chain` from `A` ends in. -/
def chainEnd : RunState :=
  { processed := ["A", "B", "C"],
    defs := [{ includeDoc [] with Name := "C" }, { includeDoc ["C"] with Name := "B" },
      { includeDoc ["B"] with Name := "A" }],
    fetched := ["A", "B", "C"],
    parsed := ["A", "B", "C"],
    appended := ["C", "B", "A"] }

/-- A cycle: `A` includes `B`, which includes `A`. -/
def cycle : World :=
  graphWorld false [("A", includeDoc ["B"]), ("B", includeDoc ["A"])]

/-- The state a run on `cycle` from `A` ends in. -/
def cycleEnd : RunState :=
  { processed := ["A", "B"],
    defs := [{ includeDoc ["A"] with Name := "B" }, { includeDoc ["B"] with Name := "A" }],
    fetched := ["A", "B"],
    parsed := ["A", "B"],
    appended := ["B", "A"] }

/-- A remote root that includes a sibling by a relative name. -/
def remoteChain : World :=
  graphWorld true [("http://h/d/a.xml", includeDoc ["b.xml"]), ("http://h/d/b.xml", includeDoc [])]

/-- The state a run on `remoteChain` from `http://h/d/a.xml` ends in. -/
def remoteChainEnd : RunState :=
  { processed := ["http://h/d/a.xml", "http://h/d/b.xml"],
    defs := [{ includeDoc [] with Name := "b.xml" }, { includeDoc ["b.xml"] with Name := "a.xml" }],
    fetched := ["http://h/d/a.xml", "http://h/d/b.xml"],
    parsed := ["http://h/d/a.xml", "http://h/d/b.xml"],
    appended := ["http://h/d/b.xml", "http://h/d/a.xml"] }

/-- A start element step that decodes to empty content. -/
def startStep (name : String) (attr : List Attr) : Step := ⟨.StartElement name attr, .ok ""⟩

/-- The body of a message with a field `a`, the marker, and a field `b`, with the tokens
between them. -/
def markedBody : List Step :=
  [⟨.Other, .ok ""⟩, startStep "field" [⟨"type", "uint8_t"⟩, ⟨"name", "a"⟩], ⟨.Other, .ok ""⟩,
    startStep "extensions" [], ⟨.Other, .ok ""⟩,
    startStep "field" [⟨"type", "char[20]"⟩, ⟨"name", "b"⟩], ⟨.Other, .ok ""⟩]

/-- The message `markedBody` decodes to under the attributes `id="7" name="M"`. -/
def markedMessage : MavlinkMessage :=
  { Id := 7, Name := "M", Description := "",
    Fields := [⟨false, "uint8_t", "a", "", ""⟩, ⟨true, "char[20]", "b", "", ""⟩] }

/-- One field after the conversion of lines 263-264, under the iteration order `order`. -/
def convertField (w : World) (order : Bool) (f : MavlinkField) : MavlinkField :=
  { f with Name := w.MsgFieldXmlToGo f.Name,
           Typ := fieldTypeToGo w.MsgTypeXmlToGo order { f with Name := w.MsgFieldXmlToGo f.Name } }

/-- A message with one field before the marker and one after, as a document declares it. -/
def markedDoc : List MavlinkMessage := [markedMessage]

/-- The base type name of a raw type string: the alias is normalized, then a trailing
`[N]` is removed. -/
def baseTypeName (typ : String) : String :=
  let typ := if typ = "uint8_t_mavlink_version" then "uint8_t" else typ
  match FindStringSubmatch typ with
  | some (m1, _) => m1
  | none => typ

/-- The world with another table in place of `gomavlib.MsgTypeXmlToGo`. -/
def World.withTable (w : World) (table : String → Option String) : World :=
  { w with MsgTypeXmlToGo := table }

/-- A run state without its documents: what the control flow of `process` can depend on. -/
def RunState.skeleton (s : RunState) : RunState := { s with defs := [] }

/-- The skeleton of the state and the error of an outcome of `process`. -/
def outcomeSkeleton (x : Option (RunState × Option String)) : Option (RunState × Option String) :=
  x.map fun y => (y.1.skeleton, y.2)

/-- A document with one message whose two fields have types the table does not know. -/
def unknownDoc : MavlinkDefinition :=
  { MavlinkDefinition.zero with
    Messages := [{ Id := 1, Name := "M", Description := "",
                   Fields := [⟨false, "nope", "x", "", ""⟩, ⟨false, "nope[3]", "y", "", ""⟩] }] }

/-- A world whose only document is `unknownDoc`, at the address `A`. -/
def unknownWorld : World := graphWorld false [("A", unknownDoc)]

/-- The documents a run on `unknownWorld` resolves. -/
def unknownDefs : List MavlinkDefinition :=
  [{ unknownDoc with
     Name := "A",
     Messages := [{ Id := 1, Name := "M", Description := "",
                    Fields := [⟨false, "", "x", "", ""⟩, ⟨false, "[3]", "y", "", ""⟩] }] }]

/-! ## What error propagation is measured against -/

/-- The address can be fetched and parsed. -/
def Loads (w : World) (r : Bool) (a : String) : Prop := ∃ d, parseAt w r a = some d

/-- The fetch or the parse of the address fails, and `err` is the error `process` returns
for it: the error of `getContent`, or `unable to decode:` and the error of `xml.Unmarshal`. -/
def FailsWith (w : World) (r : Bool) (a err : String) : Prop :=
  getContent w r a = .error err ∨
    ∃ content e, getContent w r a = .ok content ∧ w.Unmarshal content = .error e ∧
      err = "unable to decode: " ++ e

/-- How a visit that fetched the addresses `pre`, in this order, ended: without error every
one of them loads; with the error `err` the last one fails with `err` and all before it
load. -/
def Ended (w : World) (r : Bool) (pre : List String) : Option String → Prop
  | none => ∀ x ∈ pre, Loads w r x
  | some err => ∃ front last, pre = front ++ [last] ∧ (∀ x ∈ front, Loads w r x) ∧
      FailsWith w r last err

/-- The number of addresses of `L` not yet marked in `s`. -/
def unvisited (L : List String) (s : RunState) : Nat :=
  (L.filter (fun x => decide (x ∉ s.processed))).length

/-- A remote world that answers every address with the same document, which includes
`x/a.xml`. -/
def endlessWorld : World where
  ParseRequestURI := fun _ => true
  Get := fun _ => .ok ⟨200, .ok []⟩
  ReadFile := fun a => .error ("open " ++ a ++ ": no such file or directory")
  Unmarshal := fun _ => .ok (includeDoc ["x/a.xml"])
  MsgNameXmlToGo := fun n => n
  MsgFieldXmlToGo := fun n => n
  MsgTypeXmlToGo := demoTable
  rangeOrder := fun _ _ _ => false

/-- A world in which `A` includes `B` and `C`, and `B` cannot be fetched. -/
def brokenWorld : World :=
  graphWorld false [("A", includeDoc ["B", "C"]), ("C", includeDoc [])]

/-- The state a run on `brokenWorld` from `A` stops in: `B` was fetched last, `C` never. -/
def brokenEnd : RunState :=
  { processed := ["A", "B"], defs := [], fetched := ["A", "B"], parsed := ["A"],
    appended := [] }

/-- A document that includes itself. -/
def selfWorld : World := graphWorld false [("A", includeDoc ["A"])]

/-! ## What the type mapping is measured against -/

/-- The locals of `fieldTypeToGo` that come from the raw type string alone: `arrayLen`,
the map `tags` as it stands before the extension flag is looked at (line 157), and `typ`
after the lookup of line 162. -/
def typeParts (MsgTypeXmlToGo : String → Option String) (raw : String) :
    String × List (String × String) × String :=
  let typ := if raw = "uint8_t_mavlink_version" then "uint8_t" else raw
  let r : String × List (String × String) × String :=
    match FindStringSubmatch typ with
    | some (m1, m2) =>
      if m1 = "char" then ("", [("mavlen", m2)], "char") else (m2, [], m1)
    | none => ("", [], typ)
  (r.1, r.2.1, (MsgTypeXmlToGo r.2.2).getD "")

/-- The assembly of the result from the locals (lines 164-176). -/
def assemble (order : Bool) (arrayLen typ : String) (tags : List (String × String)) : String :=
  let out := ""
  let out := if arrayLen ≠ "" then out ++ ("[" ++ arrayLen ++ "]") else out
  let out := out ++ typ
  if tags.length > 0 then
    let tmp := (rangeMap order tags).map (fun kv => kv.1 ++ ":\"" ++ kv.2 ++ "\"")
    out ++ (" `" ++ String.intercalate "," tmp ++ "`")
  else out

/-- A bounded string that is an extension field. -/
def extString : MavlinkField := ⟨true, "char[20]", "s", "", ""⟩

/-! ## What the conversion of the message id is measured against -/

/-- The decimal value of a string of digits. -/
def decValue (ds : List Char) : Nat := ds.foldl (fun n c => n * 10 + (c.toNat - 48)) 0

/-- The characters of a string after its sign, if it has one. -/
def afterSign (s : String) : List Char :=
  if s.data.head? = some '-' ∨ s.data.head? = some '+' then s.data.tail else s.data

/-- Whether a string is a decimal integer: an optional sign, then one or more decimal
digits. -/
def isDecimalInt (s : String) : Bool :=
  decide (afterSign s ≠ []) && (afterSign s).all Char.isDigit

/-- The integer a decimal integer denotes. -/
def decimalValue (s : String) : Int :=
  if s.data.head? = some '-' then -(decValue (afterSign s) : Int) else (decValue (afterSign s) : Int)

/-- The message of the scenario: `id="42000" name="ICAROUS_HEARTBEAT"` with one field. -/
def heartbeatBody : List Step :=
  [startStep "field" [⟨"type", "uint8_t"⟩, ⟨"name", "status"⟩]]

/-- The message `heartbeatBody` decodes to. -/
def heartbeatMessage : MavlinkMessage :=
  { Id := 42000, Name := "ICAROUS_HEARTBEAT", Description := "",
    Fields := [⟨false, "uint8_t", "status", "", ""⟩] }

/-! ## What the emitted text is measured against -/

/-- The line of a member of a record type in the output. -/
def memberLine (f : MavlinkField) : String := "\n    " ++ f.Name ++ " " ++ f.Typ

/-- The text of the output for one message: its record type and its accessor. -/
def recordText (m : MavlinkMessage) : String :=
  "\ntype Message" ++ m.Name ++ " struct \x7b" ++ String.join (m.Fields.map memberLine)
    ++ "\n\x7d\n"
    ++ ("\nfunc (*Message" ++ m.Name ++ ") GetId() uint32 \x7b\n    return " ++ toString m.Id
      ++ "\n\x7d\n")

/-- The text of the declarations of one document. -/
def docText (d : MavlinkDefinition) : String :=
  "\n// " ++ d.Name ++ "\n" ++ String.join (d.Messages.map recordText)

/-- The line of a message in the registry. -/
def entryLine (m : MavlinkMessage) : String := "\n    &Message" ++ m.Name ++ "\x7b\x7d,"

/-- The text of the registry for one document. -/
def registryDocText (d : MavlinkDefinition) : String :=
  "\n    // " ++ d.Name ++ String.join (d.Messages.map entryLine)

/-- A world whose only document, `icarous.xml`, declares the message of the scenario. -/
def heartbeatWorld : World :=
  graphWorld false
    [("icarous.xml", { MavlinkDefinition.zero with Messages := [heartbeatMessage] })]

/-- A world whose only document, `A`, declares `markedMessage`. -/
def markedWorld : World :=
  graphWorld false [("A", { MavlinkDefinition.zero with Messages := markedDoc })]

/-- The text `do` writes on `markedWorld`. -/
def markedOutput : String :=
  "\n// autogenerated with dialgen. do not edit.\n\npackage A\n\nimport (\n\t\"github.com/gswly/gomavlib\"\n)\n\n// A\n\ntype MessageM struct \x7b\n    a uint8\n    b string `mavlen:\"20\",mavext:\"true\"`\n\x7d\n\nfunc (*MessageM) GetId() uint32 \x7b\n    return 7\n\x7d\n\n\nvar Dialect = []gomavlib.Message\x7b\n    // A\n    &MessageM\x7b\x7d,\n\x7d\n"

/-- The text `do` writes on `heartbeatWorld`. -/
def heartbeatOutput : String :=
  "\n// autogenerated with dialgen. do not edit.\n\npackage icarous\n\nimport (\n\t\"github.com/gswly/gomavlib\"\n)\n\n// icarous.xml\n\ntype MessageICAROUS_HEARTBEAT struct \x7b\n    status uint8\n\x7d\n\nfunc (*MessageICAROUS_HEARTBEAT) GetId() uint32 \x7b\n    return 42000\n\x7d\n\n\nvar Dialect = []gomavlib.Message\x7b\n    // icarous.xml\n    &MessageICAROUS_HEARTBEAT\x7b\x7d,\n\x7d\n"

/-! ## The resolver: what a successful visit leaves behind -/

theorem Grows.refl (w : World) (r : Bool) (s : RunState) : Grows w r s s [] [] := by
  constructor <;> simp

theorem Grows.trans {w : World} {r : Bool} {s s1 s2 : RunState} {pre1 post1 pre2 post2 : List String}
    (h1 : Grows w r s s1 pre1 post1) (h2 : Grows w r s1 s2 pre2 post2) :
    Grows w r s s2 (pre1 ++ pre2) (post1 ++ post2) := by
  constructor
  · rw [h2.processed, h1.processed, List.append_assoc]
  · rw [h2.fetched, h1.fetched, List.append_assoc]
  · rw [h2.parsed, h1.parsed, List.append_assoc]
  · rw [h2.appended, h1.appended, List.append_assoc]
  · rw [h2.defs, h1.defs, List.map_append, List.append_assoc]
  · exact h1.perm.append h2.perm
  · rw [List.nodup_append]
    refine ⟨h1.nodup, h2.nodup, ?_⟩
    intro x hx1 hx2
    exact h2.fresh x hx2 (by rw [h1.processed]; exact List.mem_append_right _ hx1)
  · intro x hx
    rcases List.mem_append.1 hx with hx | hx
    · exact h1.fresh x hx
    · intro hmem
      exact h2.fresh x hx (by rw [h1.processed]; exact List.mem_append_left _ hmem)
  · intro x hx c hc
    rcases List.mem_append.1 hx with hx | hx
    · have := h1.closed x hx c hc
      rw [h2.processed]
      exact List.mem_append_left _ this
    · exact h2.closed x hx c hc

theorem Grows.stack {w : World} {r : Bool} {s s2 : RunState} {pre post : List String}
    (h : Grows w r s s2 pre post) (q : String) (hq : q ∈ s2.processed)
    (hn : q ∉ s2.appended) : q ∈ s.processed ∧ q ∉ s.appended := by
  rw [h.processed] at hq
  rw [h.appended] at hn
  rcases List.mem_append.1 hq with hq | hq
  · exact ⟨hq, fun hmem => hn (List.mem_append_left _ hmem)⟩
  · exact absurd (List.mem_append_right _ (h.perm.subset hq)) hn

theorem PostOrdered.append (inc back : String → String → Prop) :
    ∀ (post1 post2 seen : List String),
      PostOrdered inc back seen (post1 ++ post2) ↔
        PostOrdered inc back seen post1 ∧ PostOrdered inc back (seen ++ post1) post2
  | [], post2, seen => by simp [PostOrdered]
  | x :: post1, post2, seen => by
    have ih := PostOrdered.append inc back post1 post2 (seen ++ [x])
    have e : seen ++ [x] ++ post1 = seen ++ x :: post1 := by simp
    rw [e] at ih
    show (_ ∧ PostOrdered inc back (seen ++ [x]) (post1 ++ post2)) ↔
      (_ ∧ PostOrdered inc back (seen ++ [x]) post1) ∧ _
    rw [ih, and_assoc]


theorem forIncludes_ok_nil (visit : String → RunState → Option (RunState × Option String))
    (s s2 : RunState) (h : forIncludes visit [] s = some (s2, none)) : s2 = s := by
  simp [forIncludes] at h
  exact h.symm

theorem forIncludes_ok_cons (visit : String → RunState → Option (RunState × Option String))
    (inc : String) (rest : List String) (s s2 : RunState)
    (h : forIncludes visit (inc :: rest) s = some (s2, none)) :
    ∃ s1, visit inc s = some (s1, none) ∧ forIncludes visit rest s1 = some (s2, none) := by
  simp only [forIncludes] at h
  split at h
  · simp at h
  · simp at h
  · rename_i s1 hv
    exact ⟨s1, hv, h⟩

theorem process_ok_succ (w : World) (r : Bool) (fuel : Nat) (a : String) (s s2 : RunState)
    (h : process w r (fuel + 1) a s = some (s2, none)) :
    (a ∈ s.processed ∧ s2 = s) ∨
    (a ∉ s.processed ∧ ∃ d s1, parseAt w r a = some d ∧
      forIncludes (fun inc s => process w r fuel (childAddr r a inc) s) d.Includes
        { s with processed := s.processed ++ [a], fetched := s.fetched ++ [a],
                 parsed := s.parsed ++ [a] } = some (s1, none) ∧
      s2 = { s1 with
        defs := s1.defs ++ [{ d with Name := (Split a).2,
                                     Messages := convertMessages w (w.rangeOrder a) 0 d.Messages }],
        appended := s1.appended ++ [a] }) := by
  simp only [process] at h
  split at h
  · left
    rename_i hmem
    simp at h
    exact ⟨hmem, h.symm⟩
  · right
    rename_i hmem
    refine ⟨hmem, ?_⟩
    split at h
    · simp at h
    · rename_i content hc
      split at h
      · simp at h
      · rename_i d hd
        split at h
        · simp at h
        · simp at h
        · rename_i s1 hf
          refine ⟨d, s1, ?_, hf, ?_⟩
          · simp [parseAt, hc, hd]
          · simp at h
            exact h.symm

theorem forIncludes_looped (w : World) (r : Bool) (fuel : Nat) (p : String)
    (ih : ∀ a s s2, process w r fuel a s = some (s2, none) → Visited w r a s s2) :
    ∀ (incs : List String) (s s2 : RunState),
      forIncludes (fun inc s => process w r fuel (childAddr r p inc) s) incs s = some (s2, none) →
        Looped w r p incs s s2
  | [], s, s2, h => by
    have e := forIncludes_ok_nil _ s s2 h
    subst e
    exact ⟨[], [], Grows.refl w r s2, by simp, by simp, fun _ _ => trivial⟩
  | inc :: rest, s, s2, h => by
    obtain ⟨s1, hv, hrest⟩ := forIncludes_ok_cons _ inc rest s s2 h
    obtain ⟨pre1, post1, g1, hmem1, hreach1, hord1⟩ := ih _ s s1 hv
    obtain ⟨pre2, post2, g2, hmem2, hreach2, hord2⟩ :=
      forIncludes_looped w r fuel p ih rest s1 s2 hrest
    refine ⟨pre1 ++ pre2, post1 ++ post2, g1.trans g2, ?_, ?_, ?_⟩
    · intro i hi
      rcases List.mem_cons.1 hi with hi | hi
      · subst hi
        rw [g2.processed]
        exact List.mem_append_left _ hmem1
      · exact hmem2 i hi
    · intro x hx
      rcases List.mem_append.1 hx with hx | hx
      · exact ⟨inc, List.mem_cons_self _ _, hreach1 x hx⟩
      · obtain ⟨i, hi, hr⟩ := hreach2 x hx
        exact ⟨i, List.mem_cons_of_mem _ hi, hr⟩
    · intro hstack hedge
      rw [PostOrdered.append]
      constructor
      · apply hord1
        intro q hq hn
        exact Relation.ReflTransGen.tail (hstack q hq hn) (hedge inc (List.mem_cons_self _ _))
      · rw [← g1.appended]
        apply hord2
        · intro q hq hn
          obtain ⟨hq1, hn1⟩ := g1.stack q hq hn
          exact hstack q hq1 hn1
        · intro i hi
          exact hedge i (List.mem_cons_of_mem _ hi)

theorem process_visited (w : World) (r : Bool) :
    ∀ (fuel : Nat) (a : String) (s s2 : RunState),
      process w r fuel a s = some (s2, none) → Visited w r a s s2
  | 0, a, s, s2, h => by simp [process] at h
  | fuel + 1, a, s, s2, h => by
    rcases process_ok_succ w r fuel a s s2 h with ⟨hmem, hs⟩ | ⟨hnew, d, s1, hparse, hloop, hs⟩
    · subst hs
      exact ⟨[], [], Grows.refl w r s2, hmem, by simp, fun _ => trivial⟩
    · obtain ⟨pre, post, g, hmem, hreach, hord⟩ :=
        forIncludes_looped w r fuel a (process_visited w r fuel) d.Includes _ s1 hloop
      have hedge : ∀ inc ∈ d.Includes, Includes w r a (childAddr r a inc) :=
        fun inc hi => ⟨d, hparse, inc, hi, rfl⟩
      have hp : s2.processed = s.processed ++ a :: pre := by
        rw [hs]; simp [g.processed]
      have happ : s2.appended = s.appended ++ (post ++ [a]) := by
        rw [hs]; simp [g.appended]
      have hstack0 : StackLeadsTo w r s a → StackLeadsTo w r
          { s with processed := s.processed ++ [a], fetched := s.fetched ++ [a],
                   parsed := s.parsed ++ [a] } a := by
        intro hstack q hq hn
        simp only [List.mem_append, List.mem_singleton] at hq
        rcases hq with hq | hq
        · exact hstack q hq hn
        · subst hq
          exact Relation.ReflTransGen.refl
      refine ⟨a :: pre, post ++ [a], ?_, ?_, ?_, ?_⟩
      · constructor
        · exact hp
        · rw [hs]; simp [g.fetched]
        · rw [hs]; simp [g.parsed]
        · exact happ
        · rw [hs]; simp [g.defs, docAt, hparse]
        · exact (List.Perm.cons a g.perm).trans (List.perm_append_singleton a post).symm
        · rw [List.nodup_cons]
          refine ⟨fun hx => g.fresh a hx (by simp), g.nodup⟩
        · intro x hx
          rcases List.mem_cons.1 hx with hx | hx
          · subst hx; exact hnew
          · intro hxs
            exact g.fresh x hx (by simp [hxs])
        · intro x hx c hc
          have e : s2.processed = s1.processed := by rw [hs]
          rw [e]
          rcases List.mem_cons.1 hx with hx | hx
          · subst hx
            obtain ⟨d2, hparse2, inc, hi, hc2⟩ := hc
            rw [hparse] at hparse2
            cases hparse2
            subst hc2
            exact hmem inc hi
          · exact g.closed x hx c hc
      · rw [hp]
        simp
      · intro x hx
        rcases List.mem_cons.1 hx with hx | hx
        · subst hx
          exact Relation.ReflTransGen.refl
        · obtain ⟨inc, hi, hr⟩ := hreach x hx
          exact Relation.ReflTransGen.head (hedge inc hi) hr
      · intro hstack
        rw [PostOrdered.append]
        refine ⟨hord (hstack0 hstack) hedge, ?_, trivial⟩
        intro c hc
        obtain ⟨d2, hparse2, inc, hi, hc2⟩ := hc
        rw [hparse] at hparse2
        cases hparse2
        subst hc2
        have hc1 := hmem inc hi
        by_cases hcapp : childAddr r a inc ∈ s1.appended
        · left
          rw [g.appended] at hcapp
          exact hcapp
        · right
          obtain ⟨hq, hn⟩ := g.stack _ hc1 hcapp
          exact hstack0 hstack _ hq hn

/-- A successful run from the initial state, summed up. -/
theorem process_init_summary (w : World) (r : Bool) (fuel : Nat) (root : String) (s : RunState)
    (h : process w r fuel root RunState.init = some (s, none)) :
    s.parsed = s.fetched ∧ s.fetched.Nodup ∧ s.fetched.Perm s.appended ∧
      (∀ a, a ∈ s.fetched ↔ Reach w r root a) ∧
      s.defs.map some = s.appended.map (docAt w r) ∧
      PostOrdered (Includes w r) (Reach w r) [] s.appended := by
  obtain ⟨pre, post, g, hmem, hreach, hord⟩ := process_visited w r fuel root _ s h
  have hp : s.processed = pre := by simpa [RunState.init] using g.processed
  have hf : s.fetched = pre := by simpa [RunState.init] using g.fetched
  have hpa : s.parsed = pre := by simpa [RunState.init] using g.parsed
  have ha : s.appended = post := by simpa [RunState.init] using g.appended
  have hd : s.defs.map some = post.map (docAt w r) := by simpa [RunState.init] using g.defs
  refine ⟨by rw [hpa, hf], by rw [hf]; exact g.nodup, by rw [hf, ha]; exact g.perm, ?_,
    by rw [hd, ha], ?_⟩
  · intro a
    rw [hf]
    constructor
    · exact hreach a
    · intro hr
      induction hr with
      | refl => rw [← hp]; exact hmem
      | tail _ hbc ih => rw [← hp]; exact g.closed _ ih _ hbc
  · rw [ha]
    apply hord
    intro q hq
    simp [RunState.init] at hq

/-! ## The resolver: more fuel does not change an outcome -/

theorem forIncludes_mono (visit visit2 : String → RunState → Option (RunState × Option String))
    (hv : ∀ inc s x, visit inc s = some x → visit2 inc s = some x) :
    ∀ (incs : List String) (s : RunState) (y : RunState × Option String),
      forIncludes visit incs s = some y → forIncludes visit2 incs s = some y
  | [], s, y, h => by simpa [forIncludes] using h
  | inc :: rest, s, y, h => by
    simp only [forIncludes] at h ⊢
    cases hx : visit inc s with
    | none => simp [hx] at h
    | some x =>
      obtain ⟨s1, e1⟩ := x
      rw [hv inc s _ hx]
      rw [hx] at h
      cases e1 with
      | some err => simpa using h
      | none => exact forIncludes_mono visit visit2 hv rest s1 y h

/-- An outcome reached with some fuel is the outcome with any larger fuel. -/
theorem process_fuel_succ (w : World) (r : Bool) :
    ∀ (fuel : Nat) (a : String) (s : RunState) (x : RunState × Option String),
      process w r fuel a s = some x → process w r (fuel + 1) a s = some x
  | 0, a, s, x, h => by simp [process] at h
  | fuel + 1, a, s, x, h => by
    rw [process] at h ⊢
    by_cases hmem : a ∈ s.processed
    · simpa [hmem] using h
    · simp only [if_neg hmem] at h ⊢
      cases hc : getContent w r a with
      | error err => simpa [hc] using h
      | ok content =>
        simp only [hc] at h ⊢
        cases hd : w.Unmarshal content with
        | error err => simpa [hd] using h
        | ok d =>
          simp only [hd] at h ⊢
          cases hf : forIncludes (fun inc s => process w r fuel (childAddr r a inc) s) d.Includes
              { s with processed := s.processed ++ [a], fetched := s.fetched ++ [a],
                       parsed := s.parsed ++ [a] } with
          | none => simp [hf] at h
          | some y =>
            have hf2 := forIncludes_mono
              (fun inc s => process w r fuel (childAddr r a inc) s)
              (fun inc s => process w r (fuel + 1) (childAddr r a inc) s)
              (fun inc t z hz => process_fuel_succ w r fuel (childAddr r a inc) t z hz)
              d.Includes _ y hf
            rw [hf] at h
            rw [hf2]
            exact h

theorem process_fuel_mono (w : World) (r : Bool) (fuel : Nat) (a : String) (s : RunState)
    (x : RunState × Option String) (h : process w r fuel a s = some x) :
    ∀ k : Nat, process w r (fuel + k) a s = some x
  | 0 => h
  | k + 1 => process_fuel_succ w r (fuel + k) a s x (process_fuel_mono w r fuel a s x h k)

/-! ## The resolver: what any finished visit has fetched -/

theorem forIncludes_fetched (w : World) (r : Bool) (fuel : Nat) (p : String)
    (ih : ∀ a s s2 e, process w r fuel a s = some (s2, e) →
      ∃ pre, s2.fetched = s.fetched ++ pre ∧
        ∀ x ∈ pre, x = a ∨ ∃ q ∈ pre, Includes w r q x) :
    ∀ (incs : List String) (s s2 : RunState) (e : Option String),
      (∀ inc ∈ incs, Includes w r p (childAddr r p inc)) →
      forIncludes (fun inc s => process w r fuel (childAddr r p inc) s) incs s = some (s2, e) →
        ∃ pre, s2.fetched = s.fetched ++ pre ∧
          ∀ x ∈ pre, Includes w r p x ∨ ∃ q ∈ pre, Includes w r q x
  | [], s, s2, e, _, h => by
    simp only [forIncludes, Option.some.injEq, Prod.mk.injEq] at h
    exact ⟨[], by simp [← h.1], by simp⟩
  | inc :: rest, s, s2, e, hedge, h => by
    simp only [forIncludes] at h
    have hstep : ∀ s1 e1, process w r fuel (childAddr r p inc) s = some (s1, e1) →
        ∃ pre, s1.fetched = s.fetched ++ pre ∧
          ∀ x ∈ pre, Includes w r p x ∨ ∃ q ∈ pre, Includes w r q x := by
      intro s1 e1 hv
      obtain ⟨pre, hf, hr⟩ := ih _ s s1 e1 hv
      refine ⟨pre, hf, fun x hx => ?_⟩
      rcases hr x hx with hx | hx
      · left
        rw [hx]
        exact hedge inc (List.mem_cons_self _ _)
      · exact Or.inr hx
    split at h
    · simp at h
    · rename_i s1 err hv
      simp only [Option.some.injEq, Prod.mk.injEq] at h
      obtain ⟨pre, hf, hr⟩ := hstep s1 _ hv
      exact ⟨pre, by rw [← h.1]; exact hf, hr⟩
    · rename_i s1 hv
      obtain ⟨pre1, hf1, hr1⟩ := hstep s1 _ hv
      obtain ⟨pre2, hf2, hr2⟩ := forIncludes_fetched w r fuel p ih rest s1 s2 e
        (fun i hi => hedge i (List.mem_cons_of_mem _ hi)) h
      refine ⟨pre1 ++ pre2, by rw [hf2, hf1, List.append_assoc], ?_⟩
      intro x hx
      rcases List.mem_append.1 hx with hx | hx
      · rcases hr1 x hx with hx | ⟨q, hq, hqx⟩
        · exact Or.inl hx
        · exact Or.inr ⟨q, List.mem_append_left _ hq, hqx⟩
      · rcases hr2 x hx with hx | ⟨q, hq, hqx⟩
        · exact Or.inl hx
        · exact Or.inr ⟨q, List.mem_append_right _ hq, hqx⟩

theorem process_fetched (w : World) (r : Bool) :
    ∀ (fuel : Nat) (a : String) (s s2 : RunState) (e : Option String),
      process w r fuel a s = some (s2, e) →
        ∃ pre, s2.fetched = s.fetched ++ pre ∧
          ∀ x ∈ pre, x = a ∨ ∃ q ∈ pre, Includes w r q x
  | 0, a, s, s2, e, h => by simp [process] at h
  | fuel + 1, a, s, s2, e, h => by
    simp only [process] at h
    split at h
    · simp only [Option.some.injEq, Prod.mk.injEq] at h
      exact ⟨[], by simp [← h.1], by simp⟩
    · split at h
      · simp only [Option.some.injEq, Prod.mk.injEq] at h
        exact ⟨[a], by simp [← h.1], by simp⟩
      · rename_i content hc
        split at h
        · simp only [Option.some.injEq, Prod.mk.injEq] at h
          exact ⟨[a], by simp [← h.1], by simp⟩
        · rename_i d hd
          have hparse : parseAt w r a = some d := by simp [parseAt, hc, hd]
          have hedge : ∀ inc ∈ d.Includes, Includes w r a (childAddr r a inc) :=
            fun inc hi => ⟨d, hparse, inc, hi, rfl⟩
          have hloop := forIncludes_fetched w r fuel a (process_fetched w r fuel) d.Includes
          have hcons : ∀ pre : List String,
              (∀ x ∈ pre, Includes w r a x ∨ ∃ q ∈ pre, Includes w r q x) →
              ∀ x ∈ a :: pre, x = a ∨ ∃ q ∈ a :: pre, Includes w r q x := by
            intro pre hr x hx
            rcases List.mem_cons.1 hx with hx | hx
            · exact Or.inl hx
            · rcases hr x hx with hx | ⟨q, hq, hqx⟩
              · exact Or.inr ⟨a, List.mem_cons_self _ _, hx⟩
              · exact Or.inr ⟨q, List.mem_cons_of_mem _ hq, hqx⟩
          split at h
          · simp at h
          · rename_i s1 err hf
            simp only [Option.some.injEq, Prod.mk.injEq] at h
            obtain ⟨pre, hfe, hr⟩ := hloop _ s1 _ hedge hf
            exact ⟨a :: pre, by rw [← h.1, hfe]; simp, hcons pre hr⟩
          · rename_i s1 hf
            simp only [Option.some.injEq, Prod.mk.injEq] at h
            obtain ⟨pre, hfe, hr⟩ := hloop _ s1 _ hedge hf
            exact ⟨a :: pre, by rw [← h.1]; simp [hfe], hcons pre hr⟩

/-! ## `filepath.Split` -/

theorem Split_slash (dir name : String) (h : '/' ∉ name.data) :
    Split (dir ++ "/" ++ name) = (dir ++ "/", name) := by
  have h1 : ∀ l : List Char, '/' ∉ l → ∀ rest : List Char,
      (l ++ '/' :: rest).takeWhile (fun c => c != '/') = l ∧
      (l ++ '/' :: rest).dropWhile (fun c => c != '/') = '/' :: rest := by
    intro l
    induction l with
    | nil => intro _ rest; simp
    | cons c l ih =>
      intro hc rest
      simp only [List.mem_cons, not_or] at hc
      have hne : (c != '/') = true := by simpa using fun e => hc.1 e.symm
      simp [List.takeWhile, List.dropWhile, hne, ih hc.2 rest]
  have h2 := h1 name.data.reverse (by simpa using h) dir.data.reverse
  simp only [Split, String.data_append, List.reverse_append]
  have e : ("/" : String).data = ['/'] := rfl
  simp only [e, List.reverse_cons, List.reverse_nil, List.nil_append, List.singleton_append]
  rw [h2.1, h2.2]
  simp [String.ext_iff]

theorem Split_no_slash (name : String) (h : '/' ∉ name.data) : Split name = ("", name) := by
  have h1 : ∀ l : List Char, '/' ∉ l →
      l.takeWhile (fun c => c != '/') = l ∧ l.dropWhile (fun c => c != '/') = [] := by
    intro l
    induction l with
    | nil => intro _; simp
    | cons c l ih =>
      intro hc
      simp only [List.mem_cons, not_or] at hc
      have hne : (c != '/') = true := by simpa using fun e => hc.1 e.symm
      simp [List.takeWhile, List.dropWhile, hne, ih hc.2]
  have h2 := h1 name.data.reverse (by simpa using h)
  simp only [Split]
  rw [h2.1, h2.2]
  simp [String.ext_iff]

/-! ## The claims about the resolver -/

/-- C1: when resolution from `root` succeeds, every address reachable from `root` along
includes (by however many paths) is fetched exactly once, parsed exactly once and appended
exactly once; no other address is fetched; and `defs` is, entry by entry, the document of
the address appended at that position, so exactly one document per reachable address. -/
theorem process_each_address_once (w : World) (r : Bool) (fuel : Nat) (root : String)
    (s : RunState) (h : process w r fuel root RunState.init = some (s, none)) :
    (∀ a, Reach w r root a →
      s.fetched.count a = 1 ∧ s.parsed.count a = 1 ∧ s.appended.count a = 1) ∧
    (∀ a, ¬ Reach w r root a → a ∉ s.fetched ∧ a ∉ s.parsed ∧ a ∉ s.appended) ∧
    s.defs.length = s.appended.length ∧
    s.defs.map some = s.appended.map (docAt w r) := by
  obtain ⟨hpa, hnd, hperm, hreach, hdefs, _⟩ := process_init_summary w r fuel root s h
  have hlen : s.defs.length = s.appended.length := by
    have := congrArg List.length hdefs
    simpa using this
  refine ⟨?_, ?_, hlen, hdefs⟩
  · intro a ha
    have hf : a ∈ s.fetched := (hreach a).2 ha
    refine ⟨List.count_eq_one_of_mem hnd hf, ?_, ?_⟩
    · rw [hpa]; exact List.count_eq_one_of_mem hnd hf
    · exact List.count_eq_one_of_mem (hperm.nodup_iff.1 hnd) (hperm.subset hf)
  · intro a ha
    have hf : a ∉ s.fetched := fun hmem => ha ((hreach a).1 hmem)
    refine ⟨hf, by rw [hpa]; exact hf, fun hmem => hf (hperm.symm.subset hmem)⟩

/-- Witness of C1 on the diamond `A → B, C → D`. -/
theorem process_each_address_once_witness :
    process diamond false 3 "A" RunState.init = some (diamondEnd, none) ∧
    ((∀ a, Reach diamond false "A" a →
      diamondEnd.fetched.count a = 1 ∧ diamondEnd.parsed.count a = 1 ∧
        diamondEnd.appended.count a = 1) ∧
    (∀ a, ¬ Reach diamond false "A" a →
      a ∉ diamondEnd.fetched ∧ a ∉ diamondEnd.parsed ∧ a ∉ diamondEnd.appended) ∧
    diamondEnd.defs.length = diamondEnd.appended.length ∧
    diamondEnd.defs.map some = diamondEnd.appended.map (docAt diamond false)) :=
  ⟨by decide, process_each_address_once diamond false 3 "A" diamondEnd (by decide)⟩

/-- C2, refuted as stated: on the cycle `A → B → A` resolution succeeds with the output
`B, A`, in which `B` stands before the document of its include `A`. -/
theorem postorder_fails_on_cycle :
    ¬ ∀ (w : World) (r : Bool) (fuel : Nat) (root : String) (s : RunState),
      process w r fuel root RunState.init = some (s, none) →
        ∀ l1 x l2, s.appended = l1 ++ x :: l2 → ∀ c, Includes w r x c → c ∈ l1 := by
  intro hall
  have h := hall cycle false 3 "A" cycleEnd (by decide) [] "B" ["A"] rfl "A"
    ⟨includeDoc ["A"], by decide, "A", by simp [includeDoc, MavlinkDefinition.zero], by decide⟩
  simp at h

/-- C2, amended: when resolution succeeds, `defs` holds the documents of the addresses in
the order `appended`, and every entry stands after the entries of all of its includes,
except an include that leads back to the entry itself (an include cycle, which the set
`processed` cuts). -/
theorem output_postorder_up_to_cycles (w : World) (r : Bool) (fuel : Nat) (root : String)
    (s : RunState) (h : process w r fuel root RunState.init = some (s, none)) :
    s.defs.map some = s.appended.map (docAt w r) ∧
    ∀ l1 x l2, s.appended = l1 ++ x :: l2 →
      ∀ c, Includes w r x c → c ∈ l1 ∨ Reach w r c x := by
  obtain ⟨_, _, _, _, hdefs, hord⟩ := process_init_summary w r fuel root s h
  refine ⟨hdefs, ?_⟩
  intro l1 x l2 hsplit c hc
  rw [hsplit, PostOrdered.append] at hord
  have := hord.2.1 c hc
  simpa using this

/-- Witness of the amended C2 on the chain `A → B → C`: the output order is `C, B, A`. -/
theorem output_postorder_up_to_cycles_witness :
    process chain false 3 "A" RunState.init = some (chainEnd, none) ∧
    chainEnd.appended = ["C", "B", "A"] ∧
    (chainEnd.defs.map some = chainEnd.appended.map (docAt chain false) ∧
    ∀ l1 x l2, chainEnd.appended = l1 ++ x :: l2 →
      ∀ c, Includes chain false x c → c ∈ l1 ∨ Reach chain false c x) :=
  ⟨by decide, by decide, output_postorder_up_to_cycles chain false 3 "A" chainEnd (by decide)⟩

/-- C10: whether the run is remote is `url.ParseRequestURI` of the root address, for every
visited document.  In any finished run every fetched address is the root or the child
address of an include of a fetched document: the directory part of the parent followed by
the include string when the root is remote, the include string itself when it is local.
When the run succeeds every such child address is fetched.  The directory part is the
parent up to and including its final `/` (empty without one). -/
theorem child_address_rule (w : World) (fuel : Nat) (root : String) (s : RunState)
    (e : Option String)
    (h : process w (w.ParseRequestURI root) fuel root RunState.init = some (s, e)) :
    (∀ a ∈ s.fetched, a = root ∨ ∃ p ∈ s.fetched, ∃ d,
      parseAt w (w.ParseRequestURI root) p = some d ∧ ∃ inc ∈ d.Includes,
        a = if w.ParseRequestURI root = true then (Split p).1 ++ inc else inc) ∧
    (e = none → ∀ p ∈ s.fetched, ∀ d, parseAt w (w.ParseRequestURI root) p = some d →
      ∀ inc ∈ d.Includes,
        (if w.ParseRequestURI root = true then (Split p).1 ++ inc else inc) ∈ s.fetched) ∧
    (∀ dir name : String, '/' ∉ name.data → Split (dir ++ "/" ++ name) = (dir ++ "/", name)) ∧
    (∀ name : String, '/' ∉ name.data → Split name = ("", name)) := by
  refine ⟨?_, ?_, Split_slash, Split_no_slash⟩
  · obtain ⟨pre, hf, hr⟩ := process_fetched w _ fuel root _ s e h
    have hf2 : s.fetched = pre := by simpa [RunState.init] using hf
    rw [hf2]
    intro a ha
    rcases hr a ha with ha | ⟨q, hq, d, hd, inc, hi, hc⟩
    · exact Or.inl ha
    · exact Or.inr ⟨q, hq, d, hd, inc, hi, hc⟩
  · intro he
    subst he
    obtain ⟨_, _, _, hreach, _, _⟩ := process_init_summary w _ fuel root s h
    intro p hp d hd inc hi
    rw [hreach] at hp ⊢
    exact Relation.ReflTransGen.tail hp ⟨d, hd, inc, hi, rfl⟩

/-- Witness of C10 on a remote root `http://h/d/a.xml` that includes `b.xml`. -/
theorem child_address_rule_witness :
    process remoteChain (remoteChain.ParseRequestURI "http://h/d/a.xml") 2 "http://h/d/a.xml"
      RunState.init = some (remoteChainEnd, none) ∧
    remoteChainEnd.fetched = ["http://h/d/a.xml", "http://h/d/b.xml"] ∧
    (∀ a ∈ remoteChainEnd.fetched, a = "http://h/d/a.xml" ∨ ∃ p ∈ remoteChainEnd.fetched, ∃ d,
      parseAt remoteChain (remoteChain.ParseRequestURI "http://h/d/a.xml") p = some d ∧
        ∃ inc ∈ d.Includes,
          a = if remoteChain.ParseRequestURI "http://h/d/a.xml" = true
            then (Split p).1 ++ inc else inc) :=
  ⟨by decide, by decide,
    (child_address_rule remoteChain 2 "http://h/d/a.xml" remoteChainEnd none (by decide)).1⟩

/-! ## `UnmarshalXML`: the extension flag -/

theorem decodeFieldAttrs_Extension (attr : List Attr) :
    ∀ f : MavlinkField, (decodeFieldAttrs f attr).Extension = f.Extension := by
  induction attr with
  | nil => intro f; rfl
  | cons a rest ih =>
    intro f
    simp only [decodeFieldAttrs]
    rw [ih]
    split_ifs <;> rfl

theorem FieldsSpec.nil (ext : Bool) : FieldsSpec ext [] [] := by
  refine ⟨by simp, ?_, by simp⟩
  intro pre st post hb
  simp at hb

theorem FieldsSpec.skip (ext : Bool) (hd : Step) (rest : List Step) (new : List MavlinkField)
    (h1 : hd.isStart "field" = false)
    (h : FieldsSpec (ext || hd.isStart "extensions") rest new) :
    FieldsSpec ext (hd :: rest) new := by
  obtain ⟨hl, hsplit, honto⟩ := h
  refine ⟨by simpa [h1] using hl, ?_, ?_⟩
  · intro pre st post hb hst
    cases pre with
    | nil =>
      simp only [List.nil_append, List.cons.injEq] at hb
      rw [← hb.1, h1] at hst
      cases hst
    | cons p pre =>
      simp only [List.cons_append, List.cons.injEq] at hb
      obtain ⟨inner, hdec, hget⟩ := hsplit pre st post hb.2 hst
      refine ⟨inner, hdec, ?_⟩
      rw [← hb.1]
      simpa [h1, Bool.or_assoc] using hget
  · intro f hf
    obtain ⟨pre, st, post, inner, hb, hst, hdec, hfe⟩ := honto f hf
    refine ⟨hd :: pre, st, post, inner, by simp [hb], hst, hdec, ?_⟩
    simpa [Bool.or_assoc] using hfe

theorem FieldsSpec.field (ext : Bool) (hd : Step) (rest : List Step) (new : List MavlinkField)
    (inner : String) (h1 : hd.isStart "field" = true) (h2 : hd.isStart "extensions" = false)
    (hdec : hd.decode = .ok inner) (h : FieldsSpec ext rest new) :
    FieldsSpec ext (hd :: rest) (decodedField ext hd.attrs inner :: new) := by
  obtain ⟨hl, hsplit, honto⟩ := h
  refine ⟨by simp [h1, hl], ?_, ?_⟩
  · intro pre st post hb hst
    cases pre with
    | nil =>
      simp only [List.nil_append, List.cons.injEq] at hb
      rw [← hb.1]
      exact ⟨inner, hdec, by simp⟩
    | cons p pre =>
      simp only [List.cons_append, List.cons.injEq] at hb
      obtain ⟨inner2, hdec2, hget⟩ := hsplit pre st post hb.2 hst
      refine ⟨inner2, hdec2, ?_⟩
      rw [← hb.1]
      simpa [h1, h2] using hget
  · intro f hf
    rcases List.mem_cons.1 hf with hf | hf
    · exact ⟨[], hd, rest, inner, rfl, h1, hdec, by simp [hf]⟩
    · obtain ⟨pre, st, post, inner2, hb, hst, hdec2, hfe⟩ := honto f hf
      refine ⟨hd :: pre, st, post, inner2, by simp [hb], hst, hdec2, ?_⟩
      simpa [h2] using hfe

/-- The loop appends fields that meet `FieldsSpec`. -/
theorem unmarshalBody_fields :
    ∀ (body : List Step) (ext : Bool) (m m2 : MavlinkMessage),
      unmarshalBody ext m body = .ok m2 →
      ∃ new, m2.Fields = m.Fields ++ new ∧ FieldsSpec ext body new
  | [], ext, m, m2, h => by
    simp only [unmarshalBody, Except.ok.injEq] at h
    subst h
    exact ⟨[], by simp, FieldsSpec.nil ext⟩
  | ⟨.Other, dec⟩ :: rest, ext, m, m2, h => by
    simp only [unmarshalBody] at h
    obtain ⟨new, hf, hspec⟩ := unmarshalBody_fields rest ext m m2 h
    exact ⟨new, hf, FieldsSpec.skip ext _ rest new rfl (by simpa [Step.isStart] using hspec)⟩
  | ⟨.StartElement name attr, dec⟩ :: rest, ext, m, m2, h => by
    simp only [unmarshalBody] at h
    by_cases hd : name = "description"
    · rw [if_pos hd] at h
      cases dec with
      | error err => simp at h
      | ok text =>
        simp only at h
        obtain ⟨new, hf, hspec⟩ := unmarshalBody_fields rest ext _ m2 h
        exact ⟨new, hf, FieldsSpec.skip ext _ rest new (by simp [Step.isStart, hd])
          (by simpa [Step.isStart, hd] using hspec)⟩
    · rw [if_neg hd] at h
      by_cases he : name = "extensions"
      · rw [if_pos he] at h
        obtain ⟨new, hf, hspec⟩ := unmarshalBody_fields rest true m m2 h
        exact ⟨new, hf, FieldsSpec.skip ext _ rest new (by simp [Step.isStart, he])
          (by simpa [Step.isStart, he] using hspec)⟩
      · rw [if_neg he] at h
        by_cases hfld : name = "field"
        · rw [if_pos hfld] at h
          cases dec with
          | error err => simp at h
          | ok inner =>
            simp only at h
            obtain ⟨new, hf, hspec⟩ := unmarshalBody_fields rest ext _ m2 h
            exact ⟨decodedField ext attr inner :: new, by simpa using hf,
              FieldsSpec.field ext _ rest new inner (by simp [Step.isStart, hfld])
                (by simp [Step.isStart, he]) rfl hspec⟩
        · rw [if_neg hfld] at h
          obtain ⟨new, hf, hspec⟩ := unmarshalBody_fields rest ext m m2 h
          exact ⟨new, hf, FieldsSpec.skip ext _ rest new (by simp [Step.isStart, hfld])
            (by simpa [Step.isStart, he] using hspec)⟩

theorem decodedField_Extension (ext : Bool) (attr : List Attr) (inner : String) :
    (decodedField ext attr inner).Extension = ext := by
  simp [decodedField, decodeFieldAttrs_Extension]

theorem unmarshalAttrs_Fields (start : List Attr) :
    ∀ m : MavlinkMessage, (unmarshalAttrs m start).Fields = m.Fields := by
  induction start with
  | nil => intro m; rfl
  | cons a rest ih =>
    intro m
    simp only [unmarshalAttrs]
    rw [ih]
    split_ifs <;> rfl

/-- C3: when `UnmarshalXML` succeeds, the fields it appends are, in order, the `field`
elements of the body (one each), and the field of a `field` element has `Extension = true`
if and only if an `extensions` element stands before that element in the body; so every
new field has `Extension = false` when the body has no `extensions` element. -/
theorem UnmarshalXML_extension_iff (m0 : MavlinkMessage) (start : List Attr) (body : List Step)
    (m : MavlinkMessage) (h : UnmarshalXML m0 start body = .ok m) :
    ∃ new, m.Fields = m0.Fields ++ new ∧
      new.length = (body.filter (Step.isStart "field")).length ∧
      (∀ pre st post, body = pre ++ st :: post → st.isStart "field" = true →
        ∃ f, new[(pre.filter (Step.isStart "field")).length]? = some f ∧
          (f.Extension = true ↔ ∃ t ∈ pre, t.isStart "extensions" = true)) ∧
      ((∀ t ∈ body, t.isStart "extensions" = false) → ∀ f ∈ new, f.Extension = false) := by
  obtain ⟨new, hf, hl, hsplit, honto⟩ := unmarshalBody_fields body false _ m h
  rw [unmarshalAttrs_Fields] at hf
  refine ⟨new, hf, hl, ?_, ?_⟩
  · intro pre st post hb hst
    obtain ⟨inner, _, hget⟩ := hsplit pre st post hb hst
    refine ⟨_, hget, ?_⟩
    rw [decodedField_Extension]
    simp
  · intro hno f hmem
    obtain ⟨pre, st, post, inner, hb, _, _, hfe⟩ := honto f hmem
    rw [hfe, decodedField_Extension]
    simp only [Bool.false_or, List.any_eq_false]
    intro t ht
    rw [hno t (by rw [hb]; exact List.mem_append_left _ ht)]
    simp

/-- Witness of C3: a field, the marker, a field. -/
theorem UnmarshalXML_extension_iff_witness :
    UnmarshalXML MavlinkMessage.zero [⟨"id", "7"⟩, ⟨"name", "M"⟩] markedBody = .ok markedMessage ∧
    ∃ new, markedMessage.Fields = MavlinkMessage.zero.Fields ++ new ∧
      new.length = (markedBody.filter (Step.isStart "field")).length ∧
      (∀ pre st post, markedBody = pre ++ st :: post → st.isStart "field" = true →
        ∃ f, new[(pre.filter (Step.isStart "field")).length]? = some f ∧
          (f.Extension = true ↔ ∃ t ∈ pre, t.isStart "extensions" = true)) ∧
      ((∀ t ∈ markedBody, t.isStart "extensions" = false) → ∀ f ∈ new, f.Extension = false) :=
  ⟨rfl, UnmarshalXML_extension_iff MavlinkMessage.zero [⟨"id", "7"⟩, ⟨"name", "M"⟩] markedBody
    markedMessage rfl⟩

/-! ## The pattern of `fieldTypeToGo` -/

theorem takeWhile_digits (ds rest : List Char) (hd : ∀ c ∈ ds, c.isDigit = true) :
    (ds ++ ']' :: rest).takeWhile Char.isDigit = ds ∧
    (ds ++ ']' :: rest).dropWhile Char.isDigit = ']' :: rest := by
  induction ds with
  | nil =>
    have h : Char.isDigit ']' = false := by decide
    simp [List.takeWhile, List.dropWhile, h]
  | cons c ds ih =>
    have hc : c.isDigit = true := hd c (List.mem_cons_self _ _)
    have := ih (fun x hx => hd x (List.mem_cons_of_mem _ hx))
    simp [List.takeWhile, List.dropWhile, hc, this]

theorem matchLenSuffix_digits (ds : List Char) (hne : ds ≠ [])
    (hd : ∀ c ∈ ds, c.isDigit = true) : matchLenSuffix ('[' :: (ds ++ [']'])) = some ds := by
  have h := takeWhile_digits ds [] hd
  simp only [matchLenSuffix]
  rw [h.1, h.2]
  simp [hne]

theorem mem_dropWhile_bracket (x rest : List Char) :
    '[' ∈ (x ++ '[' :: rest).dropWhile Char.isDigit := by
  induction x with
  | nil =>
    have h : Char.isDigit '[' = false := by decide
    simp [List.dropWhile, h]
  | cons c x ih =>
    simp only [List.cons_append, List.dropWhile]
    split
    · exact ih
    · simp

theorem matchLenSuffix_early (c : Char) (x rest : List Char) :
    matchLenSuffix (c :: (x ++ '[' :: rest)) = none := by
  by_cases hc : c = '['
  · subst hc
    simp only [matchLenSuffix]
    rw [if_neg]
    intro h
    have := mem_dropWhile_bracket x rest
    rw [h.2] at this
    simp at this
  · unfold matchLenSuffix
    split
    · rename_i t heq
      simp only [List.cons.injEq] at heq
      exact absurd heq.1 hc
    · rfl

theorem matchBase_cons (acc : List Char) (c : Char) (t : List Char) :
    matchBase acc (c :: t) =
      match matchLenSuffix (c :: t) with
      | some ds => some (acc.reverse, ds)
      | none => if c = '\n' then none else matchBase (c :: acc) t := by
  rw [matchBase]

theorem matchBase_suffix (ds : List Char) (hne : ds ≠ []) (hd : ∀ c ∈ ds, c.isDigit = true) :
    ∀ (x acc : List Char), '\n' ∉ x →
      matchBase acc (x ++ '[' :: (ds ++ [']'])) = some (acc.reverse ++ x, ds)
  | [], acc, _ => by
    simp only [List.nil_append, matchBase]
    rw [matchLenSuffix_digits ds hne hd]
    simp
  | c :: x, acc, hx => by
    simp only [List.mem_cons, not_or] at hx
    rw [List.cons_append, matchBase_cons, matchLenSuffix_early]
    simp only
    rw [if_neg (fun h => hx.1 h.symm), matchBase_suffix ds hne hd x (c :: acc) hx.2]
    simp

/-- The pattern matches `base[N]` with `matches[1] = base` and `matches[2] = N`, for a
non-empty `base` without a line feed and a non-empty string of decimal digits `N`. -/
theorem FindStringSubmatch_suffix (base N : String) (hb : base ≠ "") (hnl : '\n' ∉ base.data)
    (hN : N ≠ "") (hd : ∀ c ∈ N.data, c.isDigit = true) :
    FindStringSubmatch (base ++ "[" ++ N ++ "]") = some (base, N) := by
  have hne : N.data ≠ [] := fun h => hN (String.ext h)
  have hdata : (base ++ "[" ++ N ++ "]").data = base.data ++ '[' :: (N.data ++ [']']) := by
    simp [String.data_append]
  unfold FindStringSubmatch
  rw [hdata]
  cases hbd : base.data with
  | nil => exact absurd (String.ext hbd) hb
  | cons c x =>
    rw [hbd] at hnl
    simp only [List.mem_cons, not_or] at hnl
    simp only [List.cons_append]
    rw [if_neg (fun h => hnl.1 h.symm), matchBase_suffix N.data hne hd x [c] hnl.2]
    simp [← hbd]

/-! ## `fieldTypeToGo` on strings and arrays -/

theorem suffix_ne_alias (base N : String) :
    base ++ "[" ++ N ++ "]" ≠ "uint8_t_mavlink_version" := by
  intro h
  have h2 := congrArg (fun s : String => s.data.reverse.head?) h
  have e : ("uint8_t_mavlink_version" : String).data.reverse.head? = some 'n' := by decide
  simp only [e] at h2
  simp [String.data_append] at h2

/-- C4: for a field of raw type `char[N]`, `N` a non-empty string of decimal digits,
`fieldTypeToGo` returns the table entry of `char` with no `[N]` in front of it, followed by the
tag `mavlen:"N"` (and, for an extension field, the tag `mavext:"true"` before or after it, in
the order the map is walked). -/
theorem fieldTypeToGo_char_string (table : String → Option String) (order : Bool)
    (f : MavlinkField) (N : String) (hN : N ≠ "") (hd : ∀ c ∈ N.data, c.isDigit = true)
    (hT : f.Typ = "char[" ++ N ++ "]") :
    fieldTypeToGo table order f =
      (table "char").getD "" ++ (" `" ++
        (if f.Extension = true then
          (if order = true then "mavext:\"true\"" ++ "," ++ ("mavlen:\"" ++ N ++ "\"")
           else "mavlen:\"" ++ N ++ "\"" ++ "," ++ "mavext:\"true\"")
         else "mavlen:\"" ++ N ++ "\"") ++ "`") := by
  have e : ("char[" : String) = "char" ++ "[" := by decide
  rw [e] at hT
  have hm := FindStringSubmatch_suffix "char" N (by decide) (by decide) hN hd
  have hne := suffix_ne_alias "char" N
  unfold fieldTypeToGo
  rw [hT]
  simp only [if_neg hne, hm]
  cases hext : f.Extension <;> cases order <;>
    simp [rangeMap, String.intercalate, String.intercalate.go]

/-- Witness of C4: `char[20]` maps to the entry of `char` tagged with the length 20. -/
theorem fieldTypeToGo_char_string_witness :
    fieldTypeToGo demoTable false ⟨false, "char[20]", "s", "", ""⟩ = "string `mavlen:\"20\"`" ∧
    fieldTypeToGo demoTable false ⟨false, "char[20]", "s", "", ""⟩ =
      (demoTable "char").getD "" ++ (" `" ++
        (if (⟨false, "char[20]", "s", "", ""⟩ : MavlinkField).Extension = true then
          (if false = true then "mavext:\"true\"" ++ "," ++ ("mavlen:\"" ++ "20" ++ "\"")
           else "mavlen:\"" ++ "20" ++ "\"" ++ "," ++ "mavext:\"true\"")
         else "mavlen:\"" ++ "20" ++ "\"") ++ "`") :=
  ⟨by decide, fieldTypeToGo_char_string demoTable false ⟨false, "char[20]", "s", "", ""⟩ "20"
    (by decide) (by decide) (by decide)⟩

/-- The result on `T[N]` for a base `T` other than `char`, whatever the table holds for `T`. -/
theorem fieldTypeToGo_array_getD (table : String → Option String) (order : Bool)
    (f : MavlinkField) (T N : String) (hT0 : T ≠ "") (hnl : '\n' ∉ T.data) (hchar : T ≠ "char")
    (hN : N ≠ "") (hd : ∀ c ∈ N.data, c.isDigit = true) (hT : f.Typ = T ++ "[" ++ N ++ "]") :
    fieldTypeToGo table order f =
      "[" ++ N ++ "]" ++ (table T).getD "" ++
        (if f.Extension = true then " `mavext:\"true\"`" else "") := by
  have hm := FindStringSubmatch_suffix T N hT0 hnl hN hd
  have hne := suffix_ne_alias T N
  unfold fieldTypeToGo
  rw [hT]
  simp only [if_neg hne, hm, if_neg hchar]
  cases hext : f.Extension <;> cases order <;>
    simp [rangeMap, String.intercalate, String.intercalate.go, hN]

/-- C5: for a field of raw type `T[N]`, `T` a name of the table other than `char` (a name:
not empty, no line feed), `N` a non-empty string of decimal digits, `fieldTypeToGo` returns
`[N]` followed by the table entry of `T`, with no `mavlen` tag (an extension field has the
tag `mavext:"true"` after it). -/
theorem fieldTypeToGo_fixed_array (table : String → Option String) (order : Bool)
    (f : MavlinkField) (T N v : String) (hT0 : T ≠ "") (hnl : '\n' ∉ T.data)
    (hchar : T ≠ "char") (hv : table T = some v)
    (hN : N ≠ "") (hd : ∀ c ∈ N.data, c.isDigit = true) (hT : f.Typ = T ++ "[" ++ N ++ "]") :
    fieldTypeToGo table order f =
      "[" ++ N ++ "]" ++ v ++ (if f.Extension = true then " `mavext:\"true\"`" else "") := by
  rw [fieldTypeToGo_array_getD table order f T N hT0 hnl hchar hN hd hT, hv]
  rfl

/-- Witness of C5: `float[5]` maps to `[5]` followed by the entry of `float`. -/
theorem fieldTypeToGo_fixed_array_witness :
    fieldTypeToGo demoTable false ⟨false, "float[5]", "x", "", ""⟩ = "[5]float32" ∧
    fieldTypeToGo demoTable false ⟨false, "float[5]", "x", "", ""⟩ =
      "[" ++ "5" ++ "]" ++ "float32" ++
        (if (⟨false, "float[5]", "x", "", ""⟩ : MavlinkField).Extension = true
          then " `mavext:\"true\"`" else "") :=
  ⟨by decide, fieldTypeToGo_fixed_array demoTable false ⟨false, "float[5]", "x", "", ""⟩
    "float" "5" "float32" (by decide) (by decide) (by decide) (by decide) (by decide)
    (by decide) (by decide)⟩

/-! ## `UnmarshalXML`: attributes and errors -/

theorem unmarshalBody_cons (ext : Bool) (m : MavlinkMessage) (st : Step) (rest : List Step) :
    unmarshalBody ext m (st :: rest) =
      if st.isStart "description" = true then
        match st.decode with
        | .error err => .error err
        | .ok text => unmarshalBody ext { m with Description := text } rest
      else if st.isStart "extensions" = true then unmarshalBody true m rest
      else if st.isStart "field" = true then
        match st.decode with
        | .error err => .error err
        | .ok inner =>
          unmarshalBody ext { m with Fields := m.Fields ++ [decodedField ext st.attrs inner] } rest
      else unmarshalBody ext m rest := by
  obtain ⟨tok, dec⟩ := st
  cases tok with
  | Other => simp [unmarshalBody, Step.isStart]
  | StartElement name attr =>
    simp only [unmarshalBody, Step.isStart, Step.attrs, decide_eq_true_eq]

theorem unmarshalBody_Id_Name :
    ∀ (body : List Step) (ext : Bool) (m m2 : MavlinkMessage),
      unmarshalBody ext m body = .ok m2 → m2.Id = m.Id ∧ m2.Name = m.Name
  | [], ext, m, m2, h => by
    simp only [unmarshalBody, Except.ok.injEq] at h
    subst h
    exact ⟨rfl, rfl⟩
  | st :: rest, ext, m, m2, h => by
    rw [unmarshalBody_cons] at h
    split_ifs at h
    · cases hdec : st.decode with
      | error err => simp [hdec] at h
      | ok text =>
        simp only [hdec] at h
        have := unmarshalBody_Id_Name rest ext _ m2 h
        exact this
    · exact unmarshalBody_Id_Name rest true m m2 h
    · cases hdec : st.decode with
      | error err => simp [hdec] at h
      | ok inner =>
        simp only [hdec] at h
        have := unmarshalBody_Id_Name rest ext _ m2 h
        exact this
    · exact unmarshalBody_Id_Name rest ext m m2 h

theorem unmarshalBody_error_indep :
    ∀ (body : List Step) (ext : Bool) (m m2 : MavlinkMessage) (e : String),
      unmarshalBody ext m body = .error e → unmarshalBody ext m2 body = .error e
  | [], ext, m, m2, e, h => by simp [unmarshalBody] at h
  | st :: rest, ext, m, m2, e, h => by
    rw [unmarshalBody_cons] at h ⊢
    split_ifs at h ⊢
    · cases hdec : st.decode with
      | error err => simpa [hdec] using h
      | ok text =>
        simp only [hdec] at h ⊢
        exact unmarshalBody_error_indep rest ext _ _ e h
    · exact unmarshalBody_error_indep rest true m m2 e h
    · cases hdec : st.decode with
      | error err => simpa [hdec] using h
      | ok inner =>
        simp only [hdec] at h ⊢
        exact unmarshalBody_error_indep rest ext _ _ e h
    · exact unmarshalBody_error_indep rest ext m m2 e h

theorem unmarshalAttrs_Id (start : List Attr) (h : ∀ a ∈ start, a.Local ≠ "id") :
    ∀ m : MavlinkMessage, (unmarshalAttrs m start).Id = m.Id := by
  induction start with
  | nil => intro m; rfl
  | cons a rest ih =>
    intro m
    simp only [unmarshalAttrs]
    rw [ih (fun x hx => h x (List.mem_cons_of_mem _ hx)),
      if_neg (h a (List.mem_cons_self _ _))]
    split_ifs <;> rfl

theorem unmarshalAttrs_Name (start : List Attr) (h : ∀ a ∈ start, a.Local ≠ "name") :
    ∀ m : MavlinkMessage, (unmarshalAttrs m start).Name = m.Name := by
  induction start with
  | nil => intro m; rfl
  | cons a rest ih =>
    intro m
    simp only [unmarshalAttrs]
    rw [ih (fun x hx => h x (List.mem_cons_of_mem _ hx)),
      if_neg (h a (List.mem_cons_self _ _))]
    split_ifs <;> rfl

/-- C7, refuted as stated: a start element with neither `id` nor `name` and an empty body
is decoded without error. -/
theorem missing_attribute_is_no_error :
    ¬ ∀ (m0 : MavlinkMessage) (start : List Attr) (body : List Step),
      ((∀ a ∈ start, a.Local ≠ "id") ∨ (∀ a ∈ start, a.Local ≠ "name")) →
        ∃ err, UnmarshalXML m0 start body = .error err := by
  intro hall
  obtain ⟨err, h⟩ := hall MavlinkMessage.zero [] [] (Or.inl (by simp))
  simp [UnmarshalXML, unmarshalBody, unmarshalAttrs] at h

theorem isStart_unique (st : Step) (n1 n2 : String) (h1 : st.isStart n1 = true)
    (h2 : st.isStart n2 = true) : n1 = n2 := by
  obtain ⟨tok, dec⟩ := st
  cases tok with
  | Other => simp [Step.isStart] at h1
  | StartElement name attr =>
    simp only [Step.isStart, decide_eq_true_eq] at h1 h2
    rw [← h1, ← h2]

/-- The loop fails with `e` exactly when `DecodeElement` fails with `e` on a `description`
or `field` element, all such elements before it having been decoded. -/
theorem unmarshalBody_error_iff :
    ∀ (body : List Step) (ext : Bool) (m : MavlinkMessage) (e : String),
      unmarshalBody ext m body = .error e ↔
        ∃ pre st post, body = pre ++ st :: post ∧
          (st.isStart "description" = true ∨ st.isStart "field" = true) ∧
          st.decode = .error e ∧
          ∀ t ∈ pre, (t.isStart "description" = true ∨ t.isStart "field" = true) →
            ∃ text, t.decode = .ok text
  | [], ext, m, e => by
    simp [unmarshalBody]
  | st :: rest, ext, m, e => by
    have hcons :
        ((∃ pre st2 post, rest = pre ++ st2 :: post ∧
          (st2.isStart "description" = true ∨ st2.isStart "field" = true) ∧
          st2.decode = .error e ∧
          ∀ t ∈ pre, (t.isStart "description" = true ∨ t.isStart "field" = true) →
            ∃ text, t.decode = .ok text) →
        ∃ pre st2 post, st :: rest = pre ++ st2 :: post ∧
          (st2.isStart "description" = true ∨ st2.isStart "field" = true) ∧
          st2.decode = .error e ∧
          ∀ t ∈ pre, (t.isStart "description" = true ∨ t.isStart "field" = true) →
            ∃ text, t.decode = .ok text) ∨ ¬ (((st.isStart "description" = true ∨
              st.isStart "field" = true) → ∃ text, st.decode = .ok text)) := by
      by_cases hst : (st.isStart "description" = true ∨ st.isStart "field" = true) →
          ∃ text, st.decode = .ok text
      · left
        rintro ⟨pre, st2, post, hb, hk, hd, hpre⟩
        refine ⟨st :: pre, st2, post, by rw [hb]; rfl, hk, hd, ?_⟩
        intro t ht
        rcases List.mem_cons.1 ht with ht | ht
        · rw [ht]; exact hst
        · exact hpre t ht
      · exact Or.inr hst
    have hback : (∃ pre st2 post, st :: rest = pre ++ st2 :: post ∧
          (st2.isStart "description" = true ∨ st2.isStart "field" = true) ∧
          st2.decode = .error e ∧
          ∀ t ∈ pre, (t.isStart "description" = true ∨ t.isStart "field" = true) →
            ∃ text, t.decode = .ok text) →
        ((st.isStart "description" = true ∨ st.isStart "field" = true) ∧
          st.decode = .error e) ∨
        ((((st.isStart "description" = true ∨ st.isStart "field" = true) →
            ∃ text, st.decode = .ok text)) ∧
          ∃ pre st2 post, rest = pre ++ st2 :: post ∧
            (st2.isStart "description" = true ∨ st2.isStart "field" = true) ∧
            st2.decode = .error e ∧
            ∀ t ∈ pre, (t.isStart "description" = true ∨ t.isStart "field" = true) →
              ∃ text, t.decode = .ok text) := by
      rintro ⟨pre, st2, post, hb, hk, hd, hpre⟩
      cases pre with
      | nil =>
        simp only [List.nil_append, List.cons.injEq] at hb
        left
        rw [hb.1]
        exact ⟨hk, hd⟩
      | cons p pre =>
        simp only [List.cons_append, List.cons.injEq] at hb
        right
        refine ⟨?_, pre, st2, post, hb.2, hk, hd, fun t ht => hpre t (List.mem_cons_of_mem _ ht)⟩
        rw [hb.1]
        exact hpre p (List.mem_cons_self _ _)
    have ih := unmarshalBody_error_iff rest
    rw [unmarshalBody_cons]
    by_cases hd : st.isStart "description" = true
    · rw [if_pos hd]
      cases hdec : st.decode with
      | error err =>
        simp only [Except.error.injEq]
        constructor
        · intro he
          exact ⟨[], st, rest, rfl, Or.inl hd, by rw [hdec, he], by simp⟩
        · intro h
          rcases hback h with ⟨_, h2⟩ | ⟨h2, _⟩
          · rw [hdec] at h2
            exact Except.error.inj h2
          · obtain ⟨text, ht⟩ := h2 (Or.inl hd)
            rw [hdec] at ht
            cases ht
      | ok text =>
        simp only
        rw [ih]
        constructor
        · intro h
          rcases hcons with hc | hc
          · exact hc h
          · exact absurd (fun _ => ⟨text, hdec⟩) hc
        · intro h
          rcases hback h with ⟨_, h2⟩ | ⟨_, h2⟩
          · rw [hdec] at h2
            cases h2
          · exact h2
    · rw [if_neg hd]
      by_cases he : st.isStart "extensions" = true
      · rw [if_pos he, ih]
        have hnf : st.isStart "field" ≠ true := fun hf => by
          have := isStart_unique st _ _ he hf
          revert this
          decide
        constructor
        · intro h
          rcases hcons with hc | hc
          · exact hc h
          · exact absurd (fun hk => by
              rcases hk with hk | hk
              · exact absurd hk hd
              · exact absurd hk hnf) hc
        · intro h
          rcases hback h with ⟨h1, _⟩ | ⟨_, h2⟩
          · rcases h1 with hk | hk
            · exact absurd hk hd
            · exact absurd hk hnf
          · exact h2
      · rw [if_neg he]
        by_cases hf : st.isStart "field" = true
        · rw [if_pos hf]
          cases hdec : st.decode with
          | error err =>
            simp only [Except.error.injEq]
            constructor
            · intro he2
              exact ⟨[], st, rest, rfl, Or.inr hf, by rw [hdec, he2], by simp⟩
            · intro h
              rcases hback h with ⟨_, h2⟩ | ⟨h2, _⟩
              · rw [hdec] at h2
                exact Except.error.inj h2
              · obtain ⟨text, ht⟩ := h2 (Or.inr hf)
                rw [hdec] at ht
                cases ht
          | ok inner =>
            simp only
            rw [ih]
            constructor
            · intro h
              rcases hcons with hc | hc
              · exact hc h
              · exact absurd (fun _ => ⟨inner, hdec⟩) hc
            · intro h
              rcases hback h with ⟨_, h2⟩ | ⟨_, h2⟩
              · rw [hdec] at h2
                cases h2
              · exact h2
        · rw [if_neg hf, ih]
          constructor
          · intro h
            rcases hcons with hc | hc
            · exact hc h
            · exact absurd (fun hk => by
                rcases hk with hk | hk
                · exact absurd hk hd
                · exact absurd hk hf) hc
          · intro h
            rcases hback h with ⟨h1, _⟩ | ⟨_, h2⟩
            · rcases h1 with hk | hk
              · exact absurd hk hd
              · exact absurd hk hf
            · exact h2

/-- C7, amended: a start element that lacks `id` or `name` is not an error.  `UnmarshalXML`
returns the error `e` exactly when `DecodeElement` fails with `e` on a `description` or
`field` element of the body, all such elements before it having been decoded: whatever the
start element and the receiver are.  When it succeeds on a start element without `id`, `Id`
is the receiver's (0 for a fresh message), and without `name`, `Name` is the receiver's
(empty). -/
theorem UnmarshalXML_missing_attribute (m0 : MavlinkMessage) (start : List Attr)
    (body : List Step) :
    (∀ e : String, UnmarshalXML m0 start body = .error e ↔
      ∃ pre st post, body = pre ++ st :: post ∧
        (st.isStart "description" = true ∨ st.isStart "field" = true) ∧
        st.decode = .error e ∧
        ∀ t ∈ pre, (t.isStart "description" = true ∨ t.isStart "field" = true) →
          ∃ text, t.decode = .ok text) ∧
    (∀ (m1 : MavlinkMessage) (start1 : List Attr) (e : String),
      UnmarshalXML m0 start body = .error e ↔ UnmarshalXML m1 start1 body = .error e) ∧
    (∀ m, UnmarshalXML m0 start body = .ok m →
      ((∀ a ∈ start, a.Local ≠ "id") → m.Id = m0.Id) ∧
      ((∀ a ∈ start, a.Local ≠ "name") → m.Name = m0.Name)) := by
  refine ⟨fun e => unmarshalBody_error_iff body false _ e, ?_, ?_⟩
  · intro m1 start1 e
    exact ⟨unmarshalBody_error_indep body false _ _ e, unmarshalBody_error_indep body false _ _ e⟩
  · intro m hm
    obtain ⟨hid, hname⟩ := unmarshalBody_Id_Name body false _ m hm
    exact ⟨fun hno => by rw [hid, unmarshalAttrs_Id start hno],
      fun hno => by rw [hname, unmarshalAttrs_Name start hno]⟩

/-- Witness of the amended C7: `markedBody` under a start element without attributes is
decoded, with `Id = 0` and an empty `Name`. -/
theorem UnmarshalXML_missing_attribute_witness :
    UnmarshalXML MavlinkMessage.zero [] markedBody =
      .ok { markedMessage with Id := 0, Name := "" } ∧
    ({ markedMessage with Id := 0, Name := "" } : MavlinkMessage).Id = MavlinkMessage.zero.Id ∧
    ({ markedMessage with Id := 0, Name := "" } : MavlinkMessage).Name =
      MavlinkMessage.zero.Name :=
  ⟨rfl,
    ((UnmarshalXML_missing_attribute MavlinkMessage.zero [] markedBody).2.2 _ rfl).1 (by simp),
    ((UnmarshalXML_missing_attribute MavlinkMessage.zero [] markedBody).2.2 _ rfl).2 (by simp)⟩

/-! ## The template -/

theorem declaredTypes_append (a b : List Chunk) :
    declaredTypes (a ++ b) = declaredTypes a ++ declaredTypes b := by
  simp [declaredTypes]

theorem registryEntries_append (a b : List Chunk) :
    registryEntries (a ++ b) = registryEntries a ++ registryEntries b := by
  simp [registryEntries]

theorem members_append (a b : List Chunk) : members (a ++ b) = members a ++ members b := by
  simp [members]

theorem members_messageChunks (m : MavlinkMessage) :
    members (messageChunks m) = m.Fields.map (fun f => (f.Name, f.Typ)) := by
  simp only [messageChunks, members_append]
  have h1 : members [Chunk.typeOpen m.Name] = [] := rfl
  have h2 : members [Chunk.typeClose, Chunk.getId m.Name m.Id] = [] := rfl
  have h3 : ∀ fs : List MavlinkField,
      members (fs.map (fun f => Chunk.member f.Name f.Typ)) = fs.map (fun f => (f.Name, f.Typ)) := by
    intro fs
    induction fs with
    | nil => rfl
    | cons f fs ih =>
      simp only [List.map_cons]
      rw [← ih]
      rfl
  rw [h1, h2, h3]
  simp

theorem declaredTypes_messageChunks (m : MavlinkMessage) :
    declaredTypes (messageChunks m) = [m.Name] := by
  simp only [messageChunks, declaredTypes_append]
  have h3 : ∀ fs : List MavlinkField,
      declaredTypes (fs.map (fun f => Chunk.member f.Name f.Typ)) = [] := by
    intro fs
    induction fs with
    | nil => rfl
    | cons f fs ih =>
      simp only [List.map_cons]
      rw [← ih]
      rfl
  rw [h3]
  rfl

theorem registryEntries_messageChunks (m : MavlinkMessage) :
    registryEntries (messageChunks m) = [] := by
  simp only [messageChunks, registryEntries_append]
  have h3 : ∀ fs : List MavlinkField,
      registryEntries (fs.map (fun f => Chunk.member f.Name f.Typ)) = [] := by
    intro fs
    induction fs with
    | nil => rfl
    | cons f fs ih =>
      simp only [List.map_cons]
      rw [← ih]
      rfl
  rw [h3]
  rfl

theorem declaredTypes_messages (ms : List MavlinkMessage) :
    declaredTypes (ms.flatMap messageChunks) = ms.map (fun m => m.Name) ∧
    registryEntries (ms.flatMap messageChunks) = [] := by
  induction ms with
  | nil => exact ⟨rfl, rfl⟩
  | cons m ms ih =>
    simp only [List.flatMap_cons, declaredTypes_append, registryEntries_append,
      declaredTypes_messageChunks, registryEntries_messageChunks, ih.1, ih.2]
    simp

theorem registryEntries_messages (ms : List MavlinkMessage) :
    registryEntries (ms.map (fun m => Chunk.registryEntry m.Name)) = ms.map (fun m => m.Name) ∧
    declaredTypes (ms.map (fun m => Chunk.registryEntry m.Name)) = [] := by
  induction ms with
  | nil => exact ⟨rfl, rfl⟩
  | cons m ms ih =>
    simp only [List.map_cons]
    constructor
    · rw [← ih.1]; rfl
    · rw [← ih.2]; rfl

theorem declChunks_names (defs : List MavlinkDefinition) :
    declaredTypes (declChunks defs) = defs.flatMap (fun d => d.Messages.map (fun m => m.Name)) ∧
    registryEntries (declChunks defs) = [] := by
  induction defs with
  | nil => exact ⟨rfl, rfl⟩
  | cons d defs ih =>
    have e : declChunks (d :: defs) =
        [Chunk.defComment d.Name] ++ d.Messages.flatMap messageChunks ++ declChunks defs := by
      simp [declChunks]
    rw [e]
    simp only [declaredTypes_append, registryEntries_append, (declaredTypes_messages d.Messages).1,
      (declaredTypes_messages d.Messages).2, ih.1, ih.2, List.flatMap_cons]
    exact ⟨rfl, rfl⟩

theorem registryChunks_names (defs : List MavlinkDefinition) :
    registryEntries (registryChunks defs) =
      defs.flatMap (fun d => d.Messages.map (fun m => m.Name)) ∧
    declaredTypes (registryChunks defs) = [] := by
  induction defs with
  | nil => exact ⟨rfl, rfl⟩
  | cons d defs ih =>
    have e : registryChunks (d :: defs) =
        [Chunk.registryComment d.Name] ++ d.Messages.map (fun m => Chunk.registryEntry m.Name)
          ++ registryChunks defs := by
      simp [registryChunks]
    rw [e]
    simp only [declaredTypes_append, registryEntries_append,
      (registryEntries_messages d.Messages).1, (registryEntries_messages d.Messages).2,
      ih.1, ih.2, List.flatMap_cons]
    exact ⟨rfl, rfl⟩

/-- The registry entries among the pieces of the output are the message names of the
documents, document by document, as many as there are messages, and the same sequence as the
record types among the pieces. -/
theorem tplChunks_names (name : String) (defs : List MavlinkDefinition) :
    registryEntries (tplChunks name defs) =
      defs.flatMap (fun d => d.Messages.map (fun m => m.Name)) ∧
    (registryEntries (tplChunks name defs)).length = (defs.map (fun d => d.Messages.length)).sum ∧
    registryEntries (tplChunks name defs) = declaredTypes (tplChunks name defs) := by
  have hr : registryEntries (tplChunks name defs) =
      defs.flatMap (fun d => d.Messages.map (fun m => m.Name)) := by
    simp only [tplChunks, registryEntries_append, (declChunks_names defs).2,
      (registryChunks_names defs).1]
    simp [registryEntries]
  have hd : declaredTypes (tplChunks name defs) =
      defs.flatMap (fun d => d.Messages.map (fun m => m.Name)) := by
    simp only [tplChunks, declaredTypes_append, (declChunks_names defs).1,
      (registryChunks_names defs).2]
    simp [declaredTypes]
  have hlen : ∀ ds : List MavlinkDefinition,
      (ds.flatMap (fun d => d.Messages.map (fun m => m.Name))).length =
        (ds.map (fun d => d.Messages.length)).sum := by
    intro ds
    induction ds with
    | nil => rfl
    | cons d ds ih =>
      rw [List.flatMap_cons, List.length_append, ih]
      simp
  exact ⟨hr, by rw [hr, hlen], by rw [hr, hd]⟩

/-! ## Field order from the decoder to the record type -/

theorem convertFields_length (w : World) (ord : Nat → Bool) :
    ∀ (fs : List MavlinkField) (j : Nat), (convertFields w ord j fs).length = fs.length
  | [], _ => rfl
  | f :: fs, j => by simp [convertFields, convertFields_length w ord fs (j + 1)]

theorem convertFields_getElem? (w : World) (ord : Nat → Bool) :
    ∀ (fs : List MavlinkField) (j k : Nat),
      (convertFields w ord j fs)[k]? = fs[k]?.map (convertField w (ord (j + k)))
  | [], _, _ => by simp [convertFields]
  | f :: fs, j, 0 => by simp [convertFields, convertField]
  | f :: fs, j, k + 1 => by
    simp only [convertFields, List.getElem?_cons_succ]
    rw [convertFields_getElem? w ord fs (j + 1) k]
    have e : j + 1 + k = j + (k + 1) := by omega
    rw [e]

theorem convertMessages_length (w : World) (ord : Nat → Nat → Bool) :
    ∀ (ms : List MavlinkMessage) (i : Nat), (convertMessages w ord i ms).length = ms.length
  | [], _ => rfl
  | m :: ms, i => by simp [convertMessages, convertMessages_length w ord ms (i + 1)]

theorem convertMessages_getElem? (w : World) (ord : Nat → Nat → Bool) :
    ∀ (ms : List MavlinkMessage) (i k : Nat),
      (convertMessages w ord i ms)[k]? = ms[k]?.map (fun m =>
        { m with Name := w.MsgNameXmlToGo m.Name,
                 Fields := convertFields w (ord (i + k)) 0 m.Fields })
  | [], _, _ => by simp [convertMessages]
  | m :: ms, i, 0 => by simp [convertMessages]
  | m :: ms, i, k + 1 => by
    simp only [convertMessages, List.getElem?_cons_succ]
    rw [convertMessages_getElem? w ord ms (i + 1) k]
    have e : i + 1 + k = i + (k + 1) := by omega
    rw [e]

/-! ## Types the table does not know -/

theorem skeleton_fields (s s2 : RunState) (h : s.skeleton = s2.skeleton) :
    s.processed = s2.processed ∧ s.fetched = s2.fetched ∧ s.parsed = s2.parsed ∧
      s.appended = s2.appended := by
  simp only [RunState.skeleton, RunState.mk.injEq] at h
  exact ⟨h.1, h.2.2.1, h.2.2.2.1, h.2.2.2.2⟩

theorem forIncludes_skeleton (visit visit2 : String → RunState → Option (RunState × Option String))
    (hv : ∀ inc s s2, s.skeleton = s2.skeleton →
      outcomeSkeleton (visit inc s) = outcomeSkeleton (visit2 inc s2)) :
    ∀ (incs : List String) (s s2 : RunState), s.skeleton = s2.skeleton →
      outcomeSkeleton (forIncludes visit incs s) = outcomeSkeleton (forIncludes visit2 incs s2)
  | [], s, s2, hs => by simp [forIncludes, outcomeSkeleton, hs]
  | inc :: rest, s, s2, hs => by
    have h1 := hv inc s s2 hs
    simp only [forIncludes]
    cases hx : visit inc s with
    | none =>
      cases hy : visit2 inc s2 with
      | none => rfl
      | some y => simp [hx, hy, outcomeSkeleton] at h1
    | some x =>
      cases hy : visit2 inc s2 with
      | none => simp [hx, hy, outcomeSkeleton] at h1
      | some y =>
        obtain ⟨s1, e1⟩ := x
        obtain ⟨t1, e2⟩ := y
        simp only [hx, hy, outcomeSkeleton, Option.map_some', Option.some.injEq,
          Prod.mk.injEq] at h1
        obtain ⟨hsk, he⟩ := h1
        subst he
        cases e1 with
        | some err => simp [outcomeSkeleton, hsk]
        | none => exact forIncludes_skeleton visit visit2 hv rest s1 t1 hsk

/-- The control flow of `process` does not depend on the table (nor on the documents
collected so far): with another table the outcome has the same error and the same state up
to `defs`. -/
theorem process_skeleton (w : World) (table : String → Option String) (r : Bool) :
    ∀ (fuel : Nat) (a : String) (s s2 : RunState), s.skeleton = s2.skeleton →
      outcomeSkeleton (process w r fuel a s) =
        outcomeSkeleton (process (w.withTable table) r fuel a s2)
  | 0, a, s, s2, _ => by simp [process, outcomeSkeleton]
  | fuel + 1, a, s, s2, hs => by
    obtain ⟨hp, hf, hpa, hap⟩ := skeleton_fields s s2 hs
    have hg : getContent (w.withTable table) r a = getContent w r a := rfl
    have hu : (w.withTable table).Unmarshal = w.Unmarshal := rfl
    simp only [process, hg, hu]
    by_cases hmem : a ∈ s.processed
    · rw [if_pos hmem, if_pos (hp ▸ hmem)]
      simp [outcomeSkeleton, hs]
    · rw [if_neg hmem, if_neg (hp ▸ hmem)]
      cases hc : getContent w r a with
      | error err => simp [outcomeSkeleton, RunState.skeleton, hp, hf, hpa, hap]
      | ok content =>
        simp only
        cases hd : w.Unmarshal content with
        | error err => simp [outcomeSkeleton, RunState.skeleton, hp, hf, hpa, hap]
        | ok d =>
          simp only
          have hloop := forIncludes_skeleton
            (fun inc s => process w r fuel (childAddr r a inc) s)
            (fun inc s => process (w.withTable table) r fuel (childAddr r a inc) s)
            (fun inc t t2 ht => process_skeleton w table r fuel (childAddr r a inc) t t2 ht)
            d.Includes
            { s with processed := s.processed ++ [a], fetched := s.fetched ++ [a],
                     parsed := s.parsed ++ [a] }
            { s2 with processed := s2.processed ++ [a], fetched := s2.fetched ++ [a],
                      parsed := s2.parsed ++ [a] }
            (by simp [RunState.skeleton, hp, hf, hpa, hap])
          revert hloop
          generalize forIncludes (fun inc s => process w r fuel (childAddr r a inc) s) d.Includes
            { s with processed := s.processed ++ [a], fetched := s.fetched ++ [a],
                     parsed := s.parsed ++ [a] } = x
          generalize forIncludes
            (fun inc s => process (w.withTable table) r fuel (childAddr r a inc) s) d.Includes
            { s2 with processed := s2.processed ++ [a], fetched := s2.fetched ++ [a],
                      parsed := s2.parsed ++ [a] } = y
          intro hloop
          cases x with
          | none =>
            cases y with
            | none => rfl
            | some y => simp [outcomeSkeleton] at hloop
          | some x =>
            cases y with
            | none => simp [outcomeSkeleton] at hloop
            | some y =>
              obtain ⟨s1, e1⟩ := x
              obtain ⟨t1, e2⟩ := y
              simp only [outcomeSkeleton, Option.map_some', Option.some.injEq,
                Prod.mk.injEq] at hloop
              obtain ⟨hsk, he⟩ := hloop
              subst he
              cases e1 with
              | some err => simp [outcomeSkeleton, hsk]
              | none =>
                simp only [outcomeSkeleton, Option.map_some', Option.some.injEq, Prod.mk.injEq,
                  and_true]
                have h3 := hsk
                simp only [RunState.skeleton] at h3 ⊢
                simp only [RunState.mk.injEq] at h3 ⊢
                simp [h3.1, h3.2.2.1, h3.2.2.2.1, h3.2.2.2.2]

/-- C6, refuted as stated: the document of `unknownWorld` has fields whose base type
`nope` is not a key of the table, and `do` returns no error on it. -/
theorem unknown_type_is_no_error :
    ¬ ∀ (w : World) (Create : String → Option String) (fuel : Nat) (outfile root : String)
        (d : MavlinkDefinition) (msg : MavlinkMessage) (f : MavlinkField) (res : DoResult),
      parseAt w (w.ParseRequestURI root) root = some d → msg ∈ d.Messages → f ∈ msg.Fields →
      w.MsgTypeXmlToGo (baseTypeName f.Typ) = none →
      do_ w Create fuel outfile root = some res → res.err ≠ none := by
  intro hall
  have h := hall unknownWorld (fun _ => none) 1 "out.go" "A" unknownDoc
    { Id := 1, Name := "M", Description := "",
      Fields := [⟨false, "nope", "x", "", ""⟩, ⟨false, "nope[3]", "y", "", ""⟩] }
    ⟨false, "nope[3]", "y", "", ""⟩ ⟨none, ["A"], some (tplExecute "A" unknownDefs)⟩
    (by decide) (by decide) (by decide) (by decide) rfl
  exact h rfl

/-- C6, amended: `fieldTypeToGo` has no error result.  For a field whose base type name is
not a key of the table it returns what it returns under the empty table: the mapped type is
the empty string, the `[N]` of an array and the tags are kept (so a scalar field that is no
extension maps to the empty string); and `process` ends with the same error, or none, and
the same addresses fetched under every table. -/
theorem fieldTypeToGo_unknown_type (w : World) (order : Bool) (f : MavlinkField)
    (h : w.MsgTypeXmlToGo (baseTypeName f.Typ) = none) :
    fieldTypeToGo w.MsgTypeXmlToGo order f = fieldTypeToGo (fun _ => none) order f ∧
    (FindStringSubmatch f.Typ = none → f.Typ ≠ "uint8_t_mavlink_version" →
      f.Extension = false → fieldTypeToGo w.MsgTypeXmlToGo order f = "") ∧
    (∀ (table : String → Option String) (r : Bool) (fuel : Nat) (a : String),
      outcomeSkeleton (process w r fuel a RunState.init) =
        outcomeSkeleton (process (w.withTable table) r fuel a RunState.init)) := by
  refine ⟨?_, ?_, fun table r fuel a => process_skeleton w table r fuel a _ _ rfl⟩
  · have key : ∀ typ : String,
        w.MsgTypeXmlToGo (match FindStringSubmatch typ with
          | some (m1, _) => m1
          | none => typ) = none →
        (w.MsgTypeXmlToGo (match FindStringSubmatch typ with
          | some (m1, m2) => if m1 = "char" then ("", [("mavlen", m2)], "char") else (m2, [], m1)
          | none => (("", [], typ) : String × List (String × String) × String)).2.2).getD "" =
          "" := by
      intro typ hk
      cases hm : FindStringSubmatch typ with
      | none =>
        simp only [hm] at hk ⊢
        rw [hk]
        rfl
      | some m =>
        obtain ⟨m1, m2⟩ := m
        simp only [hm] at hk ⊢
        by_cases hc : m1 = "char"
        · subst hc
          simp only [if_true]
          rw [hk]
          rfl
        · simp only [if_neg hc]
          rw [hk]
          rfl
    unfold baseTypeName at h
    unfold fieldTypeToGo
    simp only [key _ h]
    rfl
  · intro hm hne hext
    unfold fieldTypeToGo
    unfold baseTypeName at h
    simp only [if_neg hne, hm] at h ⊢
    rw [h, hext]
    cases order <;> decide

/-- Witness of the amended C6: under `demoTable` the type `nope` maps to the empty
string and `nope[3]` to `[3]`. -/
theorem fieldTypeToGo_unknown_type_witness :
    unknownWorld.MsgTypeXmlToGo (baseTypeName "nope[3]") = none ∧
    fieldTypeToGo unknownWorld.MsgTypeXmlToGo false ⟨false, "nope", "x", "", ""⟩ = "" ∧
    fieldTypeToGo unknownWorld.MsgTypeXmlToGo false ⟨false, "nope[3]", "y", "", ""⟩ = "[3]" ∧
    fieldTypeToGo unknownWorld.MsgTypeXmlToGo false ⟨false, "nope[3]", "y", "", ""⟩ =
      fieldTypeToGo (fun _ => none) false ⟨false, "nope[3]", "y", "", ""⟩ :=
  ⟨by decide, by decide, by decide,
    (fieldTypeToGo_unknown_type unknownWorld false ⟨false, "nope[3]", "y", "", ""⟩
      (by decide)).1⟩

/-! ## The resolver: how a finished visit ended -/

theorem Ended_cons (w : World) (r : Bool) (a : String) (pre : List String) (e : Option String)
    (ha : Loads w r a) (h : Ended w r pre e) (hne : e = none ∨ pre ≠ []) :
    Ended w r (a :: pre) e := by
  cases e with
  | none =>
    intro x hx
    rcases List.mem_cons.1 hx with hx | hx
    · rw [hx]; exact ha
    · exact h x hx
  | some err =>
    obtain ⟨front, last, hp, hfront, hlast⟩ := h
    refine ⟨a :: front, last, by rw [hp]; rfl, ?_, hlast⟩
    intro x hx
    rcases List.mem_cons.1 hx with hx | hx
    · rw [hx]; exact ha
    · exact hfront x hx

theorem Ended_append (w : World) (r : Bool) (pre1 pre2 : List String) (e : Option String)
    (h1 : Ended w r pre1 none) (h2 : Ended w r pre2 e) (hne : e = none ∨ pre2 ≠ []) :
    Ended w r (pre1 ++ pre2) e := by
  induction pre1 with
  | nil => simpa using h2
  | cons a pre1 ih =>
    have ha : Loads w r a := h1 a (List.mem_cons_self _ _)
    have h1' : Ended w r pre1 none := fun x hx => h1 x (List.mem_cons_of_mem _ hx)
    refine Ended_cons w r a (pre1 ++ pre2) e ha (ih h1') ?_
    rcases hne with hne | hne
    · exact Or.inl hne
    · exact Or.inr (by simp [hne])

theorem forIncludes_outcome (w : World) (r : Bool) (fuel : Nat) (p : String)
    (ih : ∀ a s s2 e, process w r fuel a s = some (s2, e) →
      ∃ pre, s2.fetched = s.fetched ++ pre ∧ (∀ x ∈ pre, Reach w r a x) ∧ Ended w r pre e ∧
        (e = none ∨ pre ≠ [])) :
    ∀ (incs : List String) (s s2 : RunState) (e : Option String),
      (∀ inc ∈ incs, Includes w r p (childAddr r p inc)) →
      forIncludes (fun inc s => process w r fuel (childAddr r p inc) s) incs s = some (s2, e) →
        ∃ pre, s2.fetched = s.fetched ++ pre ∧ (∀ x ∈ pre, Reach w r p x) ∧ Ended w r pre e ∧
          (e = none ∨ pre ≠ [])
  | [], s, s2, e, _, h => by
    simp only [forIncludes, Option.some.injEq, Prod.mk.injEq] at h
    refine ⟨[], by simp [← h.1], by simp, ?_, Or.inl h.2.symm⟩
    rw [← h.2]
    intro x hx
    simp at hx
  | inc :: rest, s, s2, e, hedge, h => by
    simp only [forIncludes] at h
    have hstep : ∀ s1 e1, process w r fuel (childAddr r p inc) s = some (s1, e1) →
        ∃ pre, s1.fetched = s.fetched ++ pre ∧ (∀ x ∈ pre, Reach w r p x) ∧ Ended w r pre e1 ∧
          (e1 = none ∨ pre ≠ []) := by
      intro s1 e1 hv
      obtain ⟨pre, hf, hr, hend, hne⟩ := ih _ s s1 e1 hv
      exact ⟨pre, hf, fun x hx =>
        Relation.ReflTransGen.head (hedge inc (List.mem_cons_self _ _)) (hr x hx), hend, hne⟩
    split at h
    · simp at h
    · rename_i s1 err hv
      simp only [Option.some.injEq, Prod.mk.injEq] at h
      obtain ⟨pre, hf, hr, hend, hne⟩ := hstep s1 _ hv
      exact ⟨pre, by rw [← h.1]; exact hf, hr, by rw [← h.2]; exact hend, by rw [← h.2]; exact hne⟩
    · rename_i s1 hv
      obtain ⟨pre1, hf1, hr1, hend1, _⟩ := hstep s1 _ hv
      obtain ⟨pre2, hf2, hr2, hend2, hne2⟩ := forIncludes_outcome w r fuel p ih rest s1 s2 e
        (fun i hi => hedge i (List.mem_cons_of_mem _ hi)) h
      refine ⟨pre1 ++ pre2, by rw [hf2, hf1, List.append_assoc], ?_,
        Ended_append w r pre1 pre2 e hend1 hend2 hne2, ?_⟩
      · intro x hx
        rcases List.mem_append.1 hx with hx | hx
        · exact hr1 x hx
        · exact hr2 x hx
      · rcases hne2 with hne2 | hne2
        · exact Or.inl hne2
        · exact Or.inr (by simp [hne2])

/-- A finished visit of `a` has fetched addresses reachable from `a` only, and it ended with
an error exactly on the last address it fetched, which fails with that error. -/
theorem process_outcome (w : World) (r : Bool) :
    ∀ (fuel : Nat) (a : String) (s s2 : RunState) (e : Option String),
      process w r fuel a s = some (s2, e) →
        ∃ pre, s2.fetched = s.fetched ++ pre ∧ (∀ x ∈ pre, Reach w r a x) ∧ Ended w r pre e ∧
          (e = none ∨ pre ≠ [])
  | 0, a, s, s2, e, h => by simp [process] at h
  | fuel + 1, a, s, s2, e, h => by
    have hself : ∀ x ∈ [a], Reach w r a x := by
      intro x hx
      rw [List.mem_singleton.1 hx]
      exact Relation.ReflTransGen.refl
    simp only [process] at h
    split at h
    · simp only [Option.some.injEq, Prod.mk.injEq] at h
      refine ⟨[], by simp [← h.1], by simp, ?_, Or.inl h.2.symm⟩
      rw [← h.2]
      intro x hx
      simp at hx
    · split at h
      · rename_i err hc
        simp only [Option.some.injEq, Prod.mk.injEq] at h
        refine ⟨[a], by simp [← h.1], hself, ?_, Or.inr (by simp)⟩
        rw [← h.2]
        exact ⟨[], a, rfl, by simp, Or.inl hc⟩
      · rename_i content hc
        split at h
        · rename_i err hd
          simp only [Option.some.injEq, Prod.mk.injEq] at h
          refine ⟨[a], by simp [← h.1], hself, ?_, Or.inr (by simp)⟩
          rw [← h.2]
          exact ⟨[], a, rfl, by simp, Or.inr ⟨content, err, hc, hd, rfl⟩⟩
        · rename_i d hd
          have hparse : parseAt w r a = some d := by simp [parseAt, hc, hd]
          have hedge : ∀ inc ∈ d.Includes, Includes w r a (childAddr r a inc) :=
            fun inc hi => ⟨d, hparse, inc, hi, rfl⟩
          have hloop := forIncludes_outcome w r fuel a (process_outcome w r fuel) d.Includes
          have hcons : ∀ pre : List String, (∀ x ∈ pre, Reach w r a x) →
              ∀ x ∈ a :: pre, Reach w r a x := by
            intro pre hr x hx
            rcases List.mem_cons.1 hx with hx | hx
            · rw [hx]; exact Relation.ReflTransGen.refl
            · exact hr x hx
          split at h
          · simp at h
          · rename_i s1 err hf
            simp only [Option.some.injEq, Prod.mk.injEq] at h
            obtain ⟨pre, hfe, hr, hend, hne⟩ := hloop _ s1 _ hedge hf
            refine ⟨a :: pre, by rw [← h.1, hfe]; simp, hcons pre hr, ?_, Or.inr (by simp)⟩
            rw [← h.2]
            exact Ended_cons w r a pre _ ⟨d, hparse⟩ hend hne
          · rename_i s1 hf
            simp only [Option.some.injEq, Prod.mk.injEq] at h
            obtain ⟨pre, hfe, hr, hend, hne⟩ := hloop _ s1 _ hedge hf
            refine ⟨a :: pre, by rw [← h.1]; simp [hfe], hcons pre hr, ?_, Or.inl h.2.symm⟩
            rw [← h.2]
            exact Ended_cons w r a pre _ ⟨d, hparse⟩ hend (Or.inl rfl)


/-! ## The resolver: termination on a finite include graph -/

theorem filter_length_le_of_imp (p q : String → Bool) (h : ∀ x, q x = true → p x = true) :
    ∀ L : List String, (L.filter q).length ≤ (L.filter p).length
  | [] => by simp
  | x :: L => by
    have ih := filter_length_le_of_imp p q h L
    rw [List.filter_cons, List.filter_cons]
    cases hq : q x with
    | false =>
      cases hp : p x with
      | false => simpa using ih
      | true => simp only [Bool.false_eq_true, if_false, if_true, List.length_cons]; omega
    | true =>
      rw [h x hq]
      simpa using ih

theorem filter_length_lt_of_imp (p q : String → Bool) (h : ∀ x, q x = true → p x = true)
    (a : String) (hpa : p a = true) (hqa : q a = false) :
    ∀ L : List String, a ∈ L → (L.filter q).length < (L.filter p).length
  | [], ha => by simp at ha
  | x :: L, ha => by
    have hle := filter_length_le_of_imp p q h L
    rw [List.filter_cons, List.filter_cons]
    by_cases hxa : x = a
    · subst hxa
      rw [hpa, hqa]
      simp only [Bool.false_eq_true, if_false, if_true, List.length_cons]
      omega
    · have ha2 : a ∈ L := by
        rcases List.mem_cons.1 ha with h2 | h2
        · exact absurd h2.symm hxa
        · exact h2
      have ih := filter_length_lt_of_imp p q h a hpa hqa L ha2
      cases hq : q x with
      | false =>
        cases hp : p x with
        | false => simpa using ih
        | true => simp only [Bool.false_eq_true, if_false, if_true, List.length_cons]; omega
      | true =>
        rw [h x hq]
        simpa using ih

theorem unvisited_le_of_subset (L P P2 : List String) (h : ∀ p ∈ P, p ∈ P2) :
    (L.filter (fun x => decide (x ∉ P2))).length ≤ (L.filter (fun x => decide (x ∉ P))).length := by
  apply filter_length_le_of_imp
  intro x hx
  simp only [decide_eq_true_eq] at hx ⊢
  exact fun hp => hx (h x hp)

theorem unvisited_lt_of_mark (L P : List String) (a : String) (ha : a ∈ L) (hn : a ∉ P) :
    (L.filter (fun x => decide (x ∉ P ++ [a]))).length <
      (L.filter (fun x => decide (x ∉ P))).length := by
  apply filter_length_lt_of_imp _ _ _ a _ _ L ha
  · intro x hx
    simp only [decide_eq_true_eq] at hx ⊢
    exact fun hp => hx (List.mem_append_left _ hp)
  · simpa using hn
  · simp

theorem forIncludes_terminates (L : List String)
    (visit : String → RunState → Option (RunState × Option String)) (k : Nat) :
    ∀ (incs : List String) (s : RunState),
      (∀ inc ∈ incs, ∀ t, unvisited L t ≤ k →
        ∃ x, visit inc t = some x ∧ ∀ p ∈ t.processed, p ∈ x.1.processed) →
      unvisited L s ≤ k →
      ∃ y, forIncludes visit incs s = some y ∧ ∀ p ∈ s.processed, p ∈ y.1.processed
  | [], s, _, _ => ⟨(s, none), rfl, fun _ hp => hp⟩
  | inc :: rest, s, hv, hs => by
    obtain ⟨x, hx, hsub⟩ := hv inc (List.mem_cons_self _ _) s hs
    obtain ⟨s1, e1⟩ := x
    simp only [forIncludes, hx]
    cases e1 with
    | some err => exact ⟨(s1, some err), rfl, hsub⟩
    | none =>
      have hs1 : unvisited L s1 ≤ k :=
        Nat.le_trans (unvisited_le_of_subset L s.processed s1.processed hsub) hs
      obtain ⟨y, hy, hsub2⟩ := forIncludes_terminates L visit k rest s1
        (fun i hi => hv i (List.mem_cons_of_mem _ hi)) hs1
      exact ⟨y, hy, fun p hp => hsub2 p (hsub p hp)⟩

/-- When the addresses reachable from `root` all lie in the list `L`, a visit of a
reachable address from a state with at most `k` addresses of `L` unmarked finishes within
depth `k + 1`. -/
theorem process_terminates_aux (w : World) (r : Bool) (root : String) (L : List String)
    (hfin : ∀ a, Reach w r root a → a ∈ L) :
    ∀ (k : Nat) (a : String) (s : RunState), Reach w r root a → unvisited L s ≤ k →
      ∃ x, process w r (k + 1) a s = some x ∧ ∀ p ∈ s.processed, p ∈ x.1.processed
  | k, a, s, ha, hk => by
    rw [process]
    by_cases hmem : a ∈ s.processed
    · exact ⟨(s, none), by simp [hmem], fun _ hp => hp⟩
    · simp only [if_neg hmem]
      have hlt := unvisited_lt_of_mark L s.processed a (hfin a ha) hmem
      have hsub1 : ∀ p ∈ s.processed, p ∈ s.processed ++ [a] :=
        fun p hp => List.mem_append_left _ hp
      cases hc : getContent w r a with
      | error err => exact ⟨_, rfl, hsub1⟩
      | ok content =>
        simp only
        cases hd : w.Unmarshal content with
        | error err => exact ⟨_, rfl, hsub1⟩
        | ok d =>
          simp only
          have hparse : parseAt w r a = some d := by simp [parseAt, hc, hd]
          cases k with
          | zero =>
            simp only [unvisited] at hk
            omega
          | succ k =>
            have hloop := forIncludes_terminates L
              (fun inc s => process w r (k + 1) (childAddr r a inc) s) k
              d.Includes
              { s with processed := s.processed ++ [a], fetched := s.fetched ++ [a],
                       parsed := s.parsed ++ [a] }
              (fun inc hi t ht => process_terminates_aux w r root L hfin k (childAddr r a inc) t
                (Relation.ReflTransGen.tail ha ⟨d, hparse, inc, hi, rfl⟩) ht)
              (by simp only [unvisited] at hk ⊢; omega)
            obtain ⟨y, hy, hsub⟩ := hloop
            obtain ⟨s1, e1⟩ := y
            rw [hy]
            cases e1 with
            | some err => exact ⟨_, rfl, fun p hp => hsub p (hsub1 p hp)⟩
            | none => exact ⟨_, rfl, fun p hp => hsub p (hsub1 p hp)⟩


theorem process_terminates_init (w : World) (r : Bool) (root : String) (L : List String)
    (hfin : ∀ a, Reach w r root a → a ∈ L) :
    ∃ x, ∀ k, process w r (L.length + 1 + k) root RunState.init = some x := by
  obtain ⟨x, hx, _⟩ := process_terminates_aux w r root L hfin L.length root RunState.init
    Relation.ReflTransGen.refl (List.length_filter_le _ _)
  exact ⟨x, fun k => process_fuel_mono w r _ root _ x hx k⟩

/-! ## The resolver on an endless include chain -/

theorem endless_getContent (a : String) : getContent endlessWorld true a = .ok [] := rfl

theorem endless_loads (a : String) : Loads endlessWorld true a :=
  ⟨includeDoc ["x/a.xml"], rfl⟩

theorem endless_child (d : String) :
    childAddr true (d ++ "/" ++ "a.xml") "x/a.xml" = (d ++ "/x") ++ "/" ++ "a.xml" := by
  simp only [childAddr, if_true]
  rw [Split_slash d "a.xml" (by decide)]
  apply String.ext
  simp [String.data_append]

/-- On `endlessWorld` no depth is enough: every address visited is new. -/
theorem endless_process_none :
    ∀ (fuel : Nat) (d : String) (s : RunState),
      (∀ p ∈ s.processed, p.length < (d ++ "/" ++ "a.xml").length) →
      process endlessWorld true fuel (d ++ "/" ++ "a.xml") s = none
  | 0, _, _, _ => rfl
  | fuel + 1, d, s, hs => by
    have hmem : d ++ "/" ++ "a.xml" ∉ s.processed := fun h => Nat.lt_irrefl _ (hs _ h)
    have hu : ∀ c, endlessWorld.Unmarshal c = .ok (includeDoc ["x/a.xml"]) := fun _ => rfl
    have hinc : (includeDoc ["x/a.xml"]).Includes = ["x/a.xml"] := rfl
    rw [process]
    simp only [if_neg hmem, endless_getContent, hu, hinc, forIncludes]
    rw [endless_child, endless_process_none fuel (d ++ "/x")]
    intro p hp
    simp only [List.mem_append, List.mem_singleton] at hp
    have hlen : (d ++ "/" ++ "a.xml").length < (d ++ "/x" ++ "/" ++ "a.xml").length := by
      simp only [String.length_append]
      have : ("/x" : String).length = 2 := by decide
      omega
    rcases hp with hp | hp
    · exact Nat.lt_trans (hs p hp) hlen
    · rw [hp]; exact hlen

/-! ## The claims about errors and termination -/

/-- C11, refuted as stated: on `endlessWorld` every address fetches and parses, yet
resolution from `http://h/a.xml` returns at no depth. -/
theorem resolution_may_not_return :
    ¬ ∀ (w : World) (root : String),
      (∀ a, Reach w (w.ParseRequestURI root) root a → Loads w (w.ParseRequestURI root) a) →
        ∃ fuel s, process w (w.ParseRequestURI root) fuel root RunState.init = some (s, none) := by
  intro hall
  obtain ⟨fuel, s, h⟩ := hall endlessWorld ("http://h" ++ "/" ++ "a.xml")
    (fun a _ => endless_loads a)
  have hnone := endless_process_none fuel "http://h" RunState.init (by simp [RunState.init])
  have e : endlessWorld.ParseRequestURI ("http://h" ++ "/" ++ "a.xml") = true := rfl
  rw [e, hnone] at h
  cases h

/-- C11, amended: in every run that finishes, if the fetch or the parse of an address
that was fetched fails, the run ends with the error of that address, which is the last
address fetched (all addresses fetched before it loaded, none is fetched after it), and `do`
returns that error and creates no output.  An error the run ends with is always the error
of such an address.  If every fetched address loads, the run ends without error and `do`
goes on to create and write the output.  And the run does finish when the addresses
reachable from the root are finitely many, those of a list `L`. -/
theorem errors_are_fatal (w : World) (Create : String → Option String) (outfile root : String)
    (hgo : HasSuffix outfile ".go" = true) :
    (∀ fuel s e, process w (w.ParseRequestURI root) fuel root RunState.init = some (s, e) →
      (∀ a ∈ s.fetched, ¬ Loads w (w.ParseRequestURI root) a →
        ∃ err, e = some err ∧ FailsWith w (w.ParseRequestURI root) a err ∧
          (∃ front, s.fetched = front ++ [a] ∧
            ∀ x ∈ front, Loads w (w.ParseRequestURI root) x) ∧
          do_ w Create fuel outfile root = some ⟨some err, s.fetched, none⟩) ∧
      (∀ err, e = some err →
        (∃ front last, s.fetched = front ++ [last] ∧
          (∀ x ∈ front, Loads w (w.ParseRequestURI root) x) ∧
          FailsWith w (w.ParseRequestURI root) last err) ∧
        do_ w Create fuel outfile root = some ⟨some err, s.fetched, none⟩) ∧
      ((∀ a ∈ s.fetched, Loads w (w.ParseRequestURI root) a) →
        e = none ∧
        do_ w Create fuel outfile root = some
          (match Create outfile with
           | some cerr => ⟨some cerr, s.fetched, none⟩
           | none =>
             ⟨none, s.fetched, some (tplExecute (TrimSuffix (Split root).2 ".xml") s.defs)⟩))) ∧
    (∀ L : List String, (∀ a, Reach w (w.ParseRequestURI root) root a → a ∈ L) →
      ∃ x, ∀ k, process w (w.ParseRequestURI root) (L.length + 1 + k) root RunState.init =
        some x) := by
  refine ⟨?_, fun L hfin => process_terminates_init w _ root L hfin⟩
  intro fuel s e h
  obtain ⟨pre, hf, _, hend, _⟩ := process_outcome w _ fuel root _ s e h
  have hf2 : s.fetched = pre := by simpa [RunState.init] using hf
  have hdo : ∀ err, e = some err →
      do_ w Create fuel outfile root = some ⟨some err, s.fetched, none⟩ := by
    intro err he
    subst he
    simp [do_, hgo, h]
  refine ⟨?_, ?_, ?_⟩
  · intro a ha hfail
    cases e with
    | none => exact absurd (hend a (hf2 ▸ ha)) hfail
    | some err =>
      obtain ⟨front, last, hp, hfront, hlast⟩ := hend
      have hal : a = last := by
        rw [hf2, hp] at ha
        rcases List.mem_append.1 ha with hx | hx
        · exact absurd (hfront a hx) hfail
        · exact List.mem_singleton.1 hx
      subst hal
      exact ⟨err, rfl, hlast, ⟨front, by rw [hf2, hp], hfront⟩, hdo err rfl⟩
  · intro err he
    subst he
    exact ⟨by rw [hf2]; exact hend, hdo err rfl⟩
  · intro hall
    have he : e = none := by
      cases e with
      | none => rfl
      | some err =>
        obtain ⟨front, last, hp, _, hfail⟩ := hend
        obtain ⟨d, hd⟩ := hall last (by rw [hf2, hp]; simp)
        rcases hfail with hc | ⟨c, e2, hc, hu, _⟩
        · simp [parseAt, hc] at hd
        · simp [parseAt, hc, hu] at hd
    subst he
    refine ⟨rfl, ?_⟩
    simp only [do_, hgo, h]
    cases Create outfile <;> simp

/-- Witness of the amended C11: on `brokenWorld` the fetch of `B` fails, `C` is never
fetched, and `do` returns the error of `B` without output. -/
theorem errors_are_fatal_witness :
    process brokenWorld (brokenWorld.ParseRequestURI "A") 3 "A" RunState.init =
      some (brokenEnd, some "unable to open: open B: no such file or directory") ∧
    brokenEnd.fetched = ["A", "B"] ∧
    ∃ err, some "unable to open: open B: no such file or directory" = some err ∧
      FailsWith brokenWorld (brokenWorld.ParseRequestURI "A") "B" err ∧
      (∃ front, brokenEnd.fetched = front ++ ["B"] ∧
        ∀ x ∈ front, Loads brokenWorld (brokenWorld.ParseRequestURI "A") x) ∧
      do_ brokenWorld (fun _ => none) 3 "out.go" "A" = some ⟨some err, brokenEnd.fetched, none⟩ :=
  ⟨by decide, rfl,
    ((errors_are_fatal brokenWorld (fun _ => none) "out.go" "A" (by decide)).1 3 brokenEnd
      (some "unable to open: open B: no such file or directory") (by decide)).1 "B" (by decide)
      (fun h => by
        obtain ⟨d, hd⟩ := h
        have hnone : parseAt brokenWorld (brokenWorld.ParseRequestURI "A") "B" = none := by
          decide
        rw [hnone] at hd
        cases hd)⟩

/-- C17: when the addresses reachable from the root are finitely many (those of a list
`L`), `process` finishes: the depth `L.length + 1` and every larger one give the same
outcome, include cycles or not; and when that outcome is a success every reachable address,
so every document of a cycle, is appended exactly once, `defs` holding its document. -/
theorem processed_set_guards_cycles (w : World) (r : Bool) (root : String) (L : List String)
    (hfin : ∀ a, Reach w r root a → a ∈ L) :
    ∃ x, (∀ k, process w r (L.length + 1 + k) root RunState.init = some x) ∧
      (x.2 = none →
        (∀ a, Reach w r root a → x.1.appended.count a = 1) ∧
        x.1.defs.map some = x.1.appended.map (docAt w r)) := by
  obtain ⟨x, hx⟩ := process_terminates_init w r root L hfin
  refine ⟨x, hx, ?_⟩
  intro he
  obtain ⟨s, e⟩ := x
  simp only at he
  subst he
  obtain ⟨_, hnd, hperm, hreach, hdefs, _⟩ :=
    process_init_summary w r (L.length + 1 + 0) root s (hx 0)
  refine ⟨?_, hdefs⟩
  intro a ha
  exact List.count_eq_one_of_mem (hperm.nodup_iff.1 hnd) (hperm.subset ((hreach a).2 ha))

/-- Witness of C17 on the cycle `A → B → A`, whose reachable addresses are `A` and `B`. -/
theorem processed_set_guards_cycles_witness :
    process cycle false 3 "A" RunState.init = some (cycleEnd, none) ∧
    cycleEnd.appended = ["B", "A"] ∧
    ∃ x, (∀ k, process cycle false ((["A", "B"] : List String).length + 1 + k) "A"
        RunState.init = some x) ∧
      (x.2 = none →
        (∀ a, Reach cycle false "A" a → x.1.appended.count a = 1) ∧
        x.1.defs.map some = x.1.appended.map (docAt cycle false)) :=
  ⟨by decide, by decide,
    processed_set_guards_cycles cycle false "A" ["A", "B"]
      (fun a ha => ((process_init_summary cycle false 3 "A" cycleEnd (by decide)).2.2.2.1 a).2 ha)⟩


/-! ## The output path -/

theorem HasSuffix_iff (s suffix : String) :
    HasSuffix s suffix = true ↔ ∃ p : String, s = p ++ suffix := by
  simp only [HasSuffix, List.isSuffixOf_iff_suffix]
  constructor
  · rintro ⟨t, ht⟩
    exact ⟨⟨t⟩, String.ext (by simp [String.data_append, ht])⟩
  · rintro ⟨p, hp⟩
    exact ⟨p.data, by rw [hp, String.data_append]⟩

/-- C16: for an output destination that does not end with `.go`, `do` returns the error
`output file must end with .go` at once, whatever the depth allowed: no address is fetched
and no output is created.  For a destination that ends with `.go` the check passes and `do`
goes on to resolve the root. -/
theorem do_checks_output_path (w : World) (Create : String → Option String) (fuel : Nat)
    (outfile root : String) :
    ((¬ ∃ p : String, outfile = p ++ ".go") →
      do_ w Create fuel outfile root = some ⟨some "output file must end with .go", [], none⟩) ∧
    ((∃ p : String, outfile = p ++ ".go") →
      do_ w Create fuel outfile root =
        match process w (w.ParseRequestURI root) fuel root RunState.init with
        | none => none
        | some (s, some err) => some ⟨some err, s.fetched, none⟩
        | some (s, none) =>
          match Create outfile with
          | some err => some ⟨some err, s.fetched, none⟩
          | none =>
            some ⟨none, s.fetched,
              some (tplExecute (TrimSuffix (Split root).2 ".xml") s.defs)⟩) := by
  constructor
  · intro h
    have hs : HasSuffix outfile ".go" = false := by
      rw [← Bool.not_eq_true]
      exact fun hh => h ((HasSuffix_iff outfile ".go").1 hh)
    simp [do_, hs]
  · intro h
    have hs : HasSuffix outfile ".go" = true := (HasSuffix_iff outfile ".go").2 h
    simp [do_, hs]

/-- Witness of C16: `out.txt` is rejected before `A` is fetched, `out.go` is not. -/
theorem do_checks_output_path_witness :
    do_ diamond (fun _ => none) 0 "out.txt" "A" =
      some ⟨some "output file must end with .go", [], none⟩ ∧
    (do_ diamond (fun _ => none) 3 "out.go" "A").map (fun res => (res.err, res.fetched)) =
      some (none, ["A", "B", "D", "C"]) :=
  ⟨(do_checks_output_path diamond (fun _ => none) 0 "out.txt" "A").1
      (fun h => by
        have := (HasSuffix_iff "out.txt" ".go").2 h
        revert this
        decide),
    by
      rw [(do_checks_output_path diamond (fun _ => none) 3 "out.go" "A").2 ⟨"out", by decide⟩]
      decide⟩

/-! ## The order of the tags -/

/-- C12, the code at the failing input: for a bounded string that is an extension field
the result depends on the order in which the map `tags` is walked. -/
theorem fieldTypeToGo_depends_on_map_order :
    fieldTypeToGo demoTable false extString = "string `mavlen:\"20\",mavext:\"true\"`" ∧
    fieldTypeToGo demoTable true extString = "string `mavext:\"true\",mavlen:\"20\"`" ∧
    fieldTypeToGo demoTable false extString ≠ fieldTypeToGo demoTable true extString := by
  decide

theorem fieldTypeToGo_eq_assemble (table : String → Option String) (order : Bool)
    (f : MavlinkField) :
    fieldTypeToGo table order f =
      assemble order (typeParts table f.Typ).1 (typeParts table f.Typ).2.2
        (if f.Extension = true then (typeParts table f.Typ).2.1 ++ [("mavext", "true")]
         else (typeParts table f.Typ).2.1) := rfl

theorem typeParts_tags_length (table : String → Option String) (raw : String) :
    (typeParts table raw).2.1.length ≤ 1 := by
  unfold typeParts
  simp only
  split
  · split_ifs
    · simp
    · simp
  · simp

theorem assemble_order (arrayLen typ : String) (tags : List (String × String))
    (h : tags.length ≤ 1) : assemble false arrayLen typ tags = assemble true arrayLen typ tags := by
  have hr : rangeMap false tags = rangeMap true tags := by
    match tags, h with
    | [], _ => rfl
    | [_], _ => rfl
  unfold assemble
  simp only [hr]

/-- With at most one tag the order does not matter: whenever the field is no extension,
or its type is not a bounded string, both orders give the same result. -/
theorem fieldTypeToGo_order_irrelevant (table : String → Option String) (f : MavlinkField)
    (h : f.Extension = false ∨ (typeParts table f.Typ).2.1 = []) :
    fieldTypeToGo table false f = fieldTypeToGo table true f := by
  rw [fieldTypeToGo_eq_assemble, fieldTypeToGo_eq_assemble]
  apply assemble_order
  rcases h with h | h
  · simp only [h, Bool.false_eq_true, if_false]
    exact typeParts_tags_length table f.Typ
  · rw [h]
    split_ifs <;> simp

/-! ## The extension flag in the type mapping -/

theorem typeParts_tags (table : String → Option String) (raw : String) :
    ("mavext", "true") ∉ (typeParts table raw).2.1 := by
  unfold typeParts
  simp only
  split
  · split_ifs
    · simp
    · simp
  · simp

/-! ## The pattern: what a match says about the string -/

theorem matchLenSuffix_some (l ds : List Char) (h : matchLenSuffix l = some ds) :
    l = '[' :: (ds ++ [']']) ∧ ds ≠ [] ∧ ∀ c ∈ ds, c.isDigit = true := by
  unfold matchLenSuffix at h
  split at h
  · rename_i t
    simp only at h
    split_ifs at h with hc
    simp only [Option.some.injEq] at h
    refine ⟨?_, by rw [← h]; exact hc.1, ?_⟩
    · have := List.takeWhile_append_dropWhile Char.isDigit t
      rw [hc.2, h] at this
      rw [this]
    · intro c hc2
      rw [← h] at hc2
      exact (List.mem_takeWhile_imp hc2)
  · cases h

theorem matchBase_some :
    ∀ (l acc b ds : List Char), matchBase acc l = some (b, ds) →
      ∃ x, b = acc.reverse ++ x ∧ l = x ++ '[' :: (ds ++ [']']) ∧ ds ≠ [] ∧
        ∀ c ∈ ds, c.isDigit = true
  | [], acc, b, ds, h => by simp [matchBase] at h
  | c :: t, acc, b, ds, h => by
    rw [matchBase_cons] at h
    cases hm : matchLenSuffix (c :: t) with
    | some ds2 =>
      simp only [hm, Option.some.injEq, Prod.mk.injEq] at h
      obtain ⟨hl, hne, hd⟩ := matchLenSuffix_some _ _ hm
      refine ⟨[], by simp [h.1], ?_, ?_, ?_⟩
      · rw [← h.2]; simpa using hl
      · rw [← h.2]; exact hne
      · rw [← h.2]; exact hd
    | none =>
      simp only [hm] at h
      split_ifs at h
      obtain ⟨x, hb, hl, hne, hd⟩ := matchBase_some t (c :: acc) b ds h
      exact ⟨c :: x, by simp [hb], by simp [hl], hne, hd⟩

/-- A match of the pattern splits the string into `matches[1]`, `[`, the digits
`matches[2]` and `]`. -/
theorem FindStringSubmatch_some (typ m1 m2 : String)
    (h : FindStringSubmatch typ = some (m1, m2)) :
    typ = m1 ++ "[" ++ m2 ++ "]" ∧ m2 ≠ "" ∧ ∀ c ∈ m2.data, c.isDigit = true := by
  unfold FindStringSubmatch at h
  split at h
  · cases h
  · rename_i c t hdata
    split_ifs at h
    cases hm : matchBase [c] t with
    | none => simp [hm] at h
    | some m =>
      obtain ⟨b, ds⟩ := m
      simp only [hm, Option.map_some', Option.some.injEq, Prod.mk.injEq] at h
      obtain ⟨x, hb, hl, hne, hd⟩ := matchBase_some t [c] b ds hm
      refine ⟨?_, ?_, ?_⟩
      · apply String.ext
        rw [← h.1, ← h.2]
        simp [String.data_append, hdata, hb, hl]
      · rw [← h.2]
        intro h2
        exact hne (by simpa using congrArg String.data h2)
      · rw [← h.2]
        exact hd

/-! ## Scalars and the legacy alias -/

/-- C15: for a field whose raw type string does not end in `[N]` with `N` a non-empty
string of decimal digits and which (after the alias `uint8_t_mavlink_version` is replaced by
`uint8_t`) is a key of the table with entry `v`, `fieldTypeToGo` returns `v` with no array
prefix and no `mavlen` tag (an extension field has the tag `mavext:"true"` after it); and
the alias maps to what `uint8_t` maps to with the same extension flag. -/
theorem fieldTypeToGo_scalar (table : String → Option String) (order : Bool)
    (f : MavlinkField) (v : String)
    (hno : ∀ base N : String, N ≠ "" → (∀ c ∈ N.data, c.isDigit = true) →
      f.Typ ≠ base ++ "[" ++ N ++ "]")
    (hv : table (if f.Typ = "uint8_t_mavlink_version" then "uint8_t" else f.Typ) = some v) :
    fieldTypeToGo table order f =
      v ++ (if f.Extension = true then " `mavext:\"true\"`" else "") ∧
    fieldTypeToGo table order { f with Typ := "uint8_t_mavlink_version" } =
      fieldTypeToGo table order { f with Typ := "uint8_t" } := by
  constructor
  · have hnone : FindStringSubmatch
        (if f.Typ = "uint8_t_mavlink_version" then "uint8_t" else f.Typ) = none := by
      split_ifs with ha
      · decide
      · cases hm : FindStringSubmatch f.Typ with
        | none => rfl
        | some m =>
          obtain ⟨m1, m2⟩ := m
          obtain ⟨ht, hne, hd⟩ := FindStringSubmatch_some f.Typ m1 m2 hm
          exact absurd ht (hno m1 m2 hne hd)
    unfold fieldTypeToGo
    simp only [hnone, hv]
    cases hext : f.Extension <;> cases order <;>
      simp [rangeMap, String.intercalate, String.intercalate.go]
  · rfl

/-- Witness of C15: `uint8_t` maps to the entry of the table, and so does the alias. -/
theorem fieldTypeToGo_scalar_witness :
    fieldTypeToGo demoTable false ⟨false, "uint8_t", "x", "", ""⟩ = "uint8" ∧
    fieldTypeToGo demoTable false ⟨false, "uint8_t_mavlink_version", "x", "", ""⟩ = "uint8" ∧
    fieldTypeToGo demoTable false ⟨false, "uint8_t", "x", "", ""⟩ =
      "uint8" ++ (if (⟨false, "uint8_t", "x", "", ""⟩ : MavlinkField).Extension = true
        then " `mavext:\"true\"`" else "") :=
  ⟨by decide, by decide,
    (fieldTypeToGo_scalar demoTable false ⟨false, "uint8_t", "x", "", ""⟩ "uint8"
      (fun base N _ _ h => by
        have h2 := congrArg (fun s : String => s.data.reverse.head?) h
        have e : ("uint8_t" : String).data.reverse.head? = some 't' := by decide
        simp only [e] at h2
        simp [String.data_append] at h2)
      (by decide)).1⟩


/-! ## The extension flag in the result -/

theorem fieldTypeToGo_of_no_match (table : String → Option String) (order : Bool)
    (f : MavlinkField)
    (h : FindStringSubmatch
      (if f.Typ = "uint8_t_mavlink_version" then "uint8_t" else f.Typ) = none) :
    fieldTypeToGo table order f =
      (table (if f.Typ = "uint8_t_mavlink_version" then "uint8_t" else f.Typ)).getD "" ++
        (if f.Extension = true then " `mavext:\"true\"`" else "") := by
  unfold fieldTypeToGo
  simp only [h]
  cases hext : f.Extension <;> cases order <;>
    simp [rangeMap, String.intercalate, String.intercalate.go]

theorem fieldTypeToGo_of_array_match (table : String → Option String) (order : Bool)
    (f : MavlinkField) (m1 m2 : String)
    (h : FindStringSubmatch
      (if f.Typ = "uint8_t_mavlink_version" then "uint8_t" else f.Typ) = some (m1, m2))
    (hc : m1 ≠ "char") :
    fieldTypeToGo table order f =
      "[" ++ m2 ++ "]" ++ (table m1).getD "" ++
        (if f.Extension = true then " `mavext:\"true\"`" else "") := by
  have hm2 : m2 ≠ "" := (FindStringSubmatch_some _ m1 m2 h).2.1
  unfold fieldTypeToGo
  simp only [h, if_neg hc]
  cases hext : f.Extension <;> cases order <;>
    simp [rangeMap, String.intercalate, String.intercalate.go, hm2]

theorem fieldTypeToGo_of_char_match (table : String → Option String) (order : Bool)
    (f : MavlinkField) (m2 : String)
    (h : FindStringSubmatch
      (if f.Typ = "uint8_t_mavlink_version" then "uint8_t" else f.Typ) = some ("char", m2)) :
    fieldTypeToGo table order f =
      (table "char").getD "" ++ (" `" ++
        (if f.Extension = true then
          (if order = true then "mavext:\"true\"" ++ "," ++ ("mavlen:\"" ++ m2 ++ "\"")
           else "mavlen:\"" ++ m2 ++ "\"" ++ "," ++ "mavext:\"true\"")
         else "mavlen:\"" ++ m2 ++ "\"") ++ "`") := by
  unfold fieldTypeToGo
  simp only [h, if_true]
  cases hext : f.Extension <;> cases order <;>
    simp [rangeMap, String.intercalate, String.intercalate.go]

/-- The annotation of a field that is no extension does not hold the tag `mavext`. -/
theorem no_mavext_in_mavlen (m2 : String) (hd : ∀ c ∈ m2.data, c.isDigit = true)
    (pre : String) (hpre : pre = "" ∨ pre = " `" ++ ("mavlen:\"" ++ m2 ++ "\"") ++ "`") :
    ¬ ∃ front back : String, pre = front ++ "mavext:\"true\"" ++ back := by
  rintro ⟨front, back, h⟩
  have hx : 'x' ∈ pre.data := by
    rw [h]
    simp [String.data_append]
  rcases hpre with hpre | hpre
  · rw [hpre] at hx
    simp at hx
  · rw [hpre] at hx
    simp [String.data_append] at hx
    exact absurd (hd _ hx) (by decide)

/-- C14: the result of `fieldTypeToGo` on every field, by the three kinds of raw type (the
alias replaced first).  A scalar (the pattern does not match) gives the table entry, an
array `T[N]` gives `[N]` and the entry of `T`, a bounded string `char[N]` gives the entry
of `char` and the annotation `mavlen:"N"`; in each kind a field with `Extension = true`
has `mavext:"true"` added to the annotation and a field with `Extension = false` has
not, while the entry, the array length and the maximum length are the same for both
values of the flag.  A result with the flag set contains the text `mavext:"true"`; and
what follows the array length and the entry in the result, the annotation, contains
`mavext:"true"` if and only if the flag is set. -/
theorem fieldTypeToGo_extension_flag (table : String → Option String) (order : Bool)
    (f : MavlinkField) :
    (FindStringSubmatch
        (if f.Typ = "uint8_t_mavlink_version" then "uint8_t" else f.Typ) = none →
      fieldTypeToGo table order f =
        (table (if f.Typ = "uint8_t_mavlink_version" then "uint8_t" else f.Typ)).getD "" ++
          (if f.Extension = true then " `mavext:\"true\"`" else "")) ∧
    (∀ m1 m2 : String,
      FindStringSubmatch
        (if f.Typ = "uint8_t_mavlink_version" then "uint8_t" else f.Typ) = some (m1, m2) →
      (if f.Typ = "uint8_t_mavlink_version" then "uint8_t" else f.Typ) = m1 ++ "[" ++ m2 ++ "]" ∧
      m2 ≠ "" ∧ (∀ c ∈ m2.data, c.isDigit = true) ∧
      (m1 ≠ "char" →
        fieldTypeToGo table order f =
          "[" ++ m2 ++ "]" ++ (table m1).getD "" ++
            (if f.Extension = true then " `mavext:\"true\"`" else "")) ∧
      (m1 = "char" →
        fieldTypeToGo table order f =
          (table "char").getD "" ++ (" `" ++
            (if f.Extension = true then
              (if order = true then "mavext:\"true\"" ++ "," ++ ("mavlen:\"" ++ m2 ++ "\"")
               else "mavlen:\"" ++ m2 ++ "\"" ++ "," ++ "mavext:\"true\"")
             else "mavlen:\"" ++ m2 ++ "\"") ++ "`"))) ∧
    (f.Extension = true →
      ∃ front back : String, fieldTypeToGo table order f = front ++ "mavext:\"true\"" ++ back) ∧
    (∃ annotation : String,
      fieldTypeToGo table order f =
        (match FindStringSubmatch
            (if f.Typ = "uint8_t_mavlink_version" then "uint8_t" else f.Typ) with
          | none =>
            (table (if f.Typ = "uint8_t_mavlink_version" then "uint8_t" else f.Typ)).getD ""
          | some (m1, m2) =>
            if m1 = "char" then (table "char").getD ""
            else "[" ++ m2 ++ "]" ++ (table m1).getD "") ++ annotation ∧
      ((∃ front back : String, annotation = front ++ "mavext:\"true\"" ++ back) ↔
        f.Extension = true)) := by
  refine ⟨fieldTypeToGo_of_no_match table order f, ?_, ?_, ?_⟩
  · intro m1 m2 h
    obtain ⟨ht, hne, hd⟩ := FindStringSubmatch_some _ m1 m2 h
    refine ⟨ht, hne, hd, fieldTypeToGo_of_array_match table order f m1 m2 h, ?_⟩
    intro hc
    subst hc
    exact fieldTypeToGo_of_char_match table order f m2 h
  · intro hext
    cases hm : FindStringSubmatch
        (if f.Typ = "uint8_t_mavlink_version" then "uint8_t" else f.Typ) with
    | none =>
      refine ⟨(table (if f.Typ = "uint8_t_mavlink_version" then "uint8_t" else f.Typ)).getD ""
        ++ " `", "`", ?_⟩
      rw [fieldTypeToGo_of_no_match table order f hm, if_pos hext]
      apply String.ext
      simp [String.data_append]
    | some m =>
      obtain ⟨m1, m2⟩ := m
      by_cases hc : m1 = "char"
      · subst hc
        rw [fieldTypeToGo_of_char_match table order f m2 hm, if_pos hext]
        cases order
        · refine ⟨(table "char").getD "" ++ " `" ++ "mavlen:\"" ++ m2 ++ "\"" ++ ",", "`", ?_⟩
          apply String.ext
          simp [String.data_append]
        · refine ⟨(table "char").getD "" ++ " `", "," ++ ("mavlen:\"" ++ m2 ++ "\"") ++ "`", ?_⟩
          apply String.ext
          simp [String.data_append]
      · refine ⟨"[" ++ m2 ++ "]" ++ (table m1).getD "" ++ " `", "`", ?_⟩
        rw [fieldTypeToGo_of_array_match table order f m1 m2 hm hc, if_pos hext]
        apply String.ext
        simp [String.data_append]
  · have hplain : ∀ ext : Bool,
        ((∃ front back : String,
          (if ext = true then " `mavext:\"true\"`" else "") =
            front ++ "mavext:\"true\"" ++ back) ↔ ext = true) := by
      intro ext
      cases ext
      · simp only [Bool.false_eq_true, if_false, iff_false]
        exact no_mavext_in_mavlen "" (by simp) "" (Or.inl rfl)
      · simp only [if_true, iff_true]
        exact ⟨" `", "`", by decide⟩
    cases hm : FindStringSubmatch
        (if f.Typ = "uint8_t_mavlink_version" then "uint8_t" else f.Typ) with
    | none =>
      exact ⟨_, fieldTypeToGo_of_no_match table order f hm, hplain f.Extension⟩
    | some m =>
      obtain ⟨m1, m2⟩ := m
      by_cases hc : m1 = "char"
      · subst hc
        refine ⟨_, by
          rw [fieldTypeToGo_of_char_match table order f m2 hm]
          simp only [if_true]
          rfl, ?_⟩
        cases hext : f.Extension
        · simp only [Bool.false_eq_true, if_false, iff_false]
          exact no_mavext_in_mavlen m2 (FindStringSubmatch_some _ _ m2 hm).2.2 _ (Or.inr rfl)
        · simp only [if_true, iff_true]
          cases order
          · refine ⟨" `" ++ "mavlen:\"" ++ m2 ++ "\"" ++ ",", "`", ?_⟩
            apply String.ext
            simp [String.data_append]
          · refine ⟨" `", "," ++ ("mavlen:\"" ++ m2 ++ "\"") ++ "`", ?_⟩
            apply String.ext
            simp [String.data_append]
      · refine ⟨_, by
          rw [fieldTypeToGo_of_array_match table order f m1 m2 hm hc]
          simp only [if_neg hc], hplain f.Extension⟩

/-- Witness of C14 on the bounded string `char[20]` with and without the flag, and on an
extension array `float[5]`. -/
theorem fieldTypeToGo_extension_flag_witness :
    fieldTypeToGo demoTable false extString = "string `mavlen:\"20\",mavext:\"true\"`" ∧
    fieldTypeToGo demoTable false { extString with Extension := false } =
      "string `mavlen:\"20\"`" ∧
    fieldTypeToGo demoTable false ⟨true, "float[5]", "x", "", ""⟩ =
      "[5]float32 `mavext:\"true\"`" ∧
    fieldTypeToGo demoTable false ⟨false, "float[5]", "x", "", ""⟩ = "[5]float32" ∧
    (∃ front back : String,
      fieldTypeToGo demoTable false extString = front ++ "mavext:\"true\"" ++ back) :=
  ⟨by decide, by decide, by decide, by decide,
    (fieldTypeToGo_extension_flag demoTable false extString).2.2.1 rfl⟩

/-! ## `strconv.Atoi` -/

theorem foldl_dec_ge (ds : List Char) :
    ∀ n : Nat, n ≤ ds.foldl (fun n c => n * 10 + (c.toNat - 48)) n := by
  induction ds with
  | nil => intro n; exact Nat.le_refl _
  | cons c ds ih =>
    intro n
    simp only [List.foldl_cons]
    have := ih (n * 10 + (c.toNat - 48))
    omega

/-- The loop of `ParseUint` over digits that stay within 64 bits reads their value and
goes on with what follows. -/
theorem parseUintLoop_digits (rest : List Char) :
    ∀ (ds : List Char) (n : Nat), (∀ c ∈ ds, c.isDigit = true) →
      ds.foldl (fun n c => n * 10 + (c.toNat - 48)) n ≤ 2 ^ 64 - 1 →
      parseUintLoop n (ds ++ rest) =
        parseUintLoop (ds.foldl (fun n c => n * 10 + (c.toNat - 48)) n) rest
  | [], n, _, _ => rfl
  | c :: ds, n, hd, hle => by
    have hc : c.isDigit = true := hd c (List.mem_cons_self _ _)
    simp only [List.foldl_cons] at hle ⊢
    have h1 := foldl_dec_ge ds (n * 10 + (c.toNat - 48))
    have h2 : ¬ (n * 10 + (c.toNat - 48) > 2 ^ 64 - 1) := by omega
    simp only [List.cons_append, parseUintLoop, hc, Bool.true_eq_false, if_false, h2]
    exact parseUintLoop_digits rest ds _ (fun x hx => hd x (List.mem_cons_of_mem _ hx)) hle

/-- The loop of `ParseUint` over digits whose value leaves 64 bits stops with a range
error, whatever follows. -/
theorem parseUintLoop_overflow (rest : List Char) :
    ∀ (ds : List Char) (n : Nat), (∀ c ∈ ds, c.isDigit = true) → n ≤ 2 ^ 64 - 1 →
      2 ^ 64 - 1 < ds.foldl (fun n c => n * 10 + (c.toNat - 48)) n →
      parseUintLoop n (ds ++ rest) = (2 ^ 64 - 1, some .Range)
  | [], n, _, hn, hlt => by
    simp only [List.foldl_nil] at hlt
    omega
  | c :: ds, n, hd, hn, hlt => by
    have hc : c.isDigit = true := hd c (List.mem_cons_self _ _)
    simp only [List.foldl_cons] at hlt
    simp only [List.cons_append, parseUintLoop, hc, Bool.true_eq_false, if_false]
    by_cases h2 : n * 10 + (c.toNat - 48) > 2 ^ 64 - 1
    · rw [if_pos h2]
    · rw [if_neg h2]
      exact parseUintLoop_overflow rest ds _ (fun x hx => hd x (List.mem_cons_of_mem _ hx))
        (by omega) hlt

theorem takeWhile_dropWhile_digit (l : List Char) :
    (∀ c ∈ l.takeWhile Char.isDigit, c.isDigit = true) ∧
    (l.dropWhile Char.isDigit = [] ∨
      ∃ c rest, l.dropWhile Char.isDigit = c :: rest ∧ c.isDigit = false) := by
  refine ⟨fun c hc => List.mem_takeWhile_imp hc, ?_⟩
  cases h : l.dropWhile Char.isDigit with
  | nil => exact Or.inl rfl
  | cons c rest =>
    refine Or.inr ⟨c, rest, rfl, ?_⟩
    have := List.head_dropWhile_not Char.isDigit l (by rw [h]; simp)
    simpa [h] using this

/-- What `Atoi` returns in terms of the characters after the sign: a syntax error when
they are none or when a byte that is no digit comes before the digits read leave 64 bits;
otherwise the value of the leading digits, clamped to the range of `int`. -/
theorem Atoi_eq (s : String) :
    Atoi s =
      if afterSign s = [] then (0, some .Syntax)
      else if decValue ((afterSign s).takeWhile Char.isDigit) ≤ 2 ^ 64 - 1 then
        if (afterSign s).all Char.isDigit = false then (0, some .Syntax)
        else if s.data.head? = some '-' then
          if decValue (afterSign s) > 2 ^ 63 then (-(2 ^ 63 : Int), some .Range)
          else (-(decValue (afterSign s) : Int), none)
        else
          if decValue (afterSign s) ≥ 2 ^ 63 then ((2 ^ 63 - 1 : Int), some .Range)
          else ((decValue (afterSign s) : Int), none)
      else if s.data.head? = some '-' then (-(2 ^ 63 : Int), some .Range)
      else ((2 ^ 63 - 1 : Int), some .Range) := by
  have hA : Atoi s =
      if afterSign s = [] then (0, some .Syntax)
      else
        match parseUintLoop 0 (afterSign s) with
        | (_, some .Syntax) => (0, some .Syntax)
        | (un, _) =>
          if ¬ (s.data.head? = some '-') ∧ un ≥ 2 ^ 63 then ((2 ^ 63 - 1 : Int), some .Range)
          else if s.data.head? = some '-' ∧ un > 2 ^ 63 then (-(2 ^ 63 : Int), some .Range)
          else if s.data.head? = some '-' then (-(un : Int), none)
          else ((un : Int), none) := rfl
  rw [hA]
  by_cases hnil : afterSign s = []
  · simp [hnil]
  · simp only [if_neg hnil]
    obtain ⟨hpre, hrest⟩ := takeWhile_dropWhile_digit (afterSign s)
    have hsplit := List.takeWhile_append_dropWhile Char.isDigit (afterSign s)
    by_cases hle : decValue ((afterSign s).takeWhile Char.isDigit) ≤ 2 ^ 64 - 1
    · simp only [if_pos hle]
      have hloop := parseUintLoop_digits ((afterSign s).dropWhile Char.isDigit)
        ((afterSign s).takeWhile Char.isDigit) 0 hpre hle
      rw [hsplit] at hloop
      rcases hrest with hrest | ⟨c, rest, hrest, hc⟩
      · have hall : (afterSign s).all Char.isDigit = true := by
          rw [← hsplit, hrest, List.append_nil]
          exact List.all_eq_true.2 hpre
        have hval : (afterSign s).takeWhile Char.isDigit = afterSign s := by
          rw [hrest, List.append_nil] at hsplit
          exact hsplit
        rw [hrest] at hloop
        rw [hval] at hloop hle
        simp only [parseUintLoop] at hloop
        change parseUintLoop 0 (afterSign s) = (decValue (afterSign s), none) at hloop
        rw [hloop, hall]
        simp only [Bool.true_eq_false, if_false]
        by_cases hneg : s.data.head? = some '-'
        · by_cases hgt : decValue (afterSign s) > 2 ^ 63
          · simp [hneg, hgt]
          · simp [hneg, hgt]
        · by_cases hge : decValue (afterSign s) ≥ 2 ^ 63
          · simp [hneg, hge]
          · simp [hneg, hge]
      · have hall : (afterSign s).all Char.isDigit = false := by
          rw [← Bool.not_eq_true, List.all_eq_true]
          intro h
          have hmem : c ∈ afterSign s := by
            rw [← hsplit, hrest]
            simp
          rw [h c hmem] at hc
          cases hc
        rw [hrest] at hloop
        simp only [parseUintLoop, hc, if_true] at hloop
        rw [hloop, hall]
        simp
    · simp only [if_neg hle]
      have hloop := parseUintLoop_overflow ((afterSign s).dropWhile Char.isDigit)
        ((afterSign s).takeWhile Char.isDigit) 0 hpre (by omega) (by
          have : decValue ((afterSign s).takeWhile Char.isDigit) > 2 ^ 64 - 1 := by omega
          exact this)
      rw [hsplit] at hloop
      rw [hloop]
      by_cases hneg : s.data.head? = some '-'
      · simp [hneg]
      · simp [hneg]


/-! ## The decimal representation of a number -/

theorem digitChar_digit : ∀ k : Nat, k < 10 →
    (Nat.digitChar k).isDigit = true ∧ (Nat.digitChar k).toNat - 48 = k := by
  decide

theorem toDigitsCore_value :
    ∀ (fuel n : Nat) (acc : List Char), n < fuel →
      ∃ l : List Char, l ≠ [] ∧ (∀ c ∈ l, c.isDigit = true) ∧
        Nat.toDigitsCore 10 fuel n acc = l ++ acc ∧
        ∀ m : Nat, l.foldl (fun n c => n * 10 + (c.toNat - 48)) m = m * 10 ^ l.length + n
  | 0, n, acc, h => by omega
  | fuel + 1, n, acc, h => by
    obtain ⟨hdig, hval⟩ := digitChar_digit (n % 10) (Nat.mod_lt _ (by decide))
    simp only [Nat.toDigitsCore]
    by_cases h0 : n / 10 = 0
    · rw [if_pos h0]
      refine ⟨[Nat.digitChar (n % 10)], by simp, ?_, rfl, ?_⟩
      · intro c hc
        rw [List.mem_singleton.1 hc]
        exact hdig
      · intro m
        simp only [List.foldl_cons, List.foldl_nil, List.length_singleton, pow_one, hval]
        omega
    · rw [if_neg h0]
      have hlt : n / 10 < fuel := by omega
      let d : Char := Nat.digitChar (n % 10)
      obtain ⟨l, _, hd, hl, hv⟩ := toDigitsCore_value fuel (n / 10) (d :: acc) hlt
      refine ⟨l ++ [Nat.digitChar (n % 10)], by simp, ?_, by simp [hl], ?_⟩
      · intro c hc
        rcases List.mem_append.1 hc with hc | hc
        · exact hd c hc
        · rw [List.mem_singleton.1 hc]
          exact hdig
      · intro m
        simp only [List.foldl_append, List.foldl_cons, List.foldl_nil, hv, hval,
          List.length_append, List.length_singleton, pow_succ]
        have := Nat.div_add_mod n 10
        nlinarith [this]

/-- The decimal representation `toString n` is a decimal integer of value `n`. -/
theorem toString_decimal (n : Nat) :
    isDecimalInt (toString n) = true ∧ decimalValue (toString n) = (n : Int) := by
  obtain ⟨l, hne, hd, hl, hv⟩ := toDigitsCore_value (n + 1) n [] (by omega)
  have hdata : (toString n).data = l := by
    show Nat.toDigits 10 n = l
    rw [Nat.toDigits, hl, List.append_nil]
  have hhead : ∀ c, l.head? = some c → c.isDigit = true := by
    intro c hc
    exact hd c (List.mem_of_mem_head? hc)
  have hm : l.head? ≠ some '-' := fun h => by
    have := hhead _ h
    revert this
    decide
  have hp : l.head? ≠ some '+' := fun h => by
    have := hhead _ h
    revert this
    decide
  have hafter : afterSign (toString n) = l := by
    simp only [afterSign, hdata, hm, hp, or_self, if_false]
  constructor
  · simp only [isDecimalInt, hafter]
    simp only [Bool.and_eq_true, decide_eq_true_eq, List.all_eq_true]
    exact ⟨hne, hd⟩
  · have := hv 0
    simp only [decimalValue, hafter, hdata, hm, if_false, decValue]
    rw [this]
    simp


/-! ## The message id -/

theorem unmarshalAttrs_append (pre post : List Attr) :
    ∀ m : MavlinkMessage,
      unmarshalAttrs m (pre ++ post) = unmarshalAttrs (unmarshalAttrs m pre) post := by
  induction pre with
  | nil => intro m; rfl
  | cons a pre ih =>
    intro m
    simp only [List.cons_append, unmarshalAttrs]
    exact ih _

/-- The `Id` after the attribute loop is the conversion of the last `id` attribute. -/
theorem unmarshalAttrs_last_id (m0 : MavlinkMessage) (pre post : List Attr) (val : String)
    (hpost : ∀ a ∈ post, a.Local ≠ "id") :
    (unmarshalAttrs m0 (pre ++ ⟨"id", val⟩ :: post)).Id = toUint32 (Atoi val).1 := by
  rw [unmarshalAttrs_append]
  simp only [unmarshalAttrs, if_true]
  rw [unmarshalAttrs_Id post hpost]

/-- The value `Atoi` gives a decimal integer within the range of `int`. -/
theorem Atoi_decimal (val : String) (hdec : isDecimalInt val = true)
    (hlo : -(2 ^ 63 : Int) ≤ decimalValue val) (hhi : decimalValue val < 2 ^ 63) :
    Atoi val = (decimalValue val, none) := by
  simp only [isDecimalInt, Bool.and_eq_true, decide_eq_true_eq] at hdec
  obtain ⟨hne, hall⟩ := hdec
  have htake : (afterSign val).takeWhile Char.isDigit = afterSign val := by
    rw [List.takeWhile_eq_self_iff]
    exact List.all_eq_true.1 hall
  rw [Atoi_eq, if_neg hne, htake, hall]
  simp only [decimalValue] at hlo hhi ⊢
  by_cases hneg : val.data.head? = some '-'
  · simp only [hneg, if_true] at hlo hhi ⊢
    have h1 : decValue (afterSign val) ≤ 2 ^ 64 - 1 := by omega
    have h2 : ¬ decValue (afterSign val) > 2 ^ 63 := by omega
    rw [if_pos h1, if_neg h2]
    rfl
  · simp only [hneg, if_false] at hlo hhi ⊢
    have h1 : decValue (afterSign val) ≤ 2 ^ 64 - 1 := by omega
    have h2 : ¬ decValue (afterSign val) ≥ 2 ^ 63 := by omega
    rw [if_pos h1, if_neg h2]
    rfl

theorem toUint32_small (n : Nat) (hn : n < 2 ^ 32) : toUint32 (n : Int) = n := by
  simp only [toUint32]
  omega

/-- The `Id` parsed from a start element whose last `id` attribute is a decimal integer of
value `n < 2 ^ 32`. -/
theorem UnmarshalXML_decimal_id (m0 : MavlinkMessage) (pre post : List Attr) (val : String)
    (body : List Step) (n : Nat) (m : MavlinkMessage)
    (hdec : isDecimalInt val = true) (hval : decimalValue val = (n : Int)) (hn : n < 2 ^ 32)
    (hpost : ∀ a ∈ post, a.Local ≠ "id")
    (h : UnmarshalXML m0 (pre ++ ⟨"id", val⟩ :: post) body = .ok m) : m.Id = n := by
  rw [(unmarshalBody_Id_Name body false _ m h).1, unmarshalAttrs_last_id m0 pre post val hpost,
    Atoi_decimal val hdec (by rw [hval]; omega) (by rw [hval]; omega), hval]
  exact toUint32_small n hn

/-- C18, refuted as stated: `99999999999999999999x` is no decimal integer, yet the `Id`
parsed from it is 4294967295, not 0. -/
theorem invalid_id_is_not_always_zero :
    ¬ ∀ (val : String) (m : MavlinkMessage), isDecimalInt val = false →
      UnmarshalXML MavlinkMessage.zero [⟨"id", val⟩] [] = .ok m → m.Id = 0 := by
  intro hall
  have h := hall "99999999999999999999x" { MavlinkMessage.zero with Id := 4294967295 }
    (by decide) rfl
  revert h
  decide

/-- C18, amended: the conversion of the `id` attribute never fails (`UnmarshalXML` fails on
the same bodies with or without it).  For a decimal integer `v` within the range of `int`
the parsed `Id` is `v` modulo `2 ^ 32`.  For a value that is no decimal integer the parsed
`Id` is 0 as long as its leading digits (after the sign) do not exceed `2 ^ 64 - 1`; when
they do, `Atoi` stops on the range error with the clamped value and the parsed `Id` is
4294967295 (0 under a minus sign). -/
theorem message_id_conversion (m0 : MavlinkMessage) (val : String) (body : List Step) :
    (∀ e, UnmarshalXML m0 [⟨"id", val⟩] body = .error e ↔
      UnmarshalXML m0 [] body = .error e) ∧
    (isDecimalInt val = true → -(2 ^ 63 : Int) ≤ decimalValue val → decimalValue val < 2 ^ 63 →
      (unmarshalAttrs m0 [⟨"id", val⟩]).Id = (decimalValue val % 2 ^ 32).toNat) ∧
    (isDecimalInt val = false →
      decValue ((afterSign val).takeWhile Char.isDigit) ≤ 2 ^ 64 - 1 →
      (unmarshalAttrs m0 [⟨"id", val⟩]).Id = 0) ∧
    (isDecimalInt val = false →
      2 ^ 64 - 1 < decValue ((afterSign val).takeWhile Char.isDigit) →
      (unmarshalAttrs m0 [⟨"id", val⟩]).Id =
        if val.data.head? = some '-' then 0 else 4294967295) := by
  have hid : (unmarshalAttrs m0 [⟨"id", val⟩]).Id = toUint32 (Atoi val).1 :=
    unmarshalAttrs_last_id m0 [] [] val (by simp)
  refine ⟨fun e => ⟨unmarshalBody_error_indep body false _ _ e,
    unmarshalBody_error_indep body false _ _ e⟩, ?_, ?_, ?_⟩
  · intro hdec hlo hhi
    rw [hid, Atoi_decimal val hdec hlo hhi]
    rfl
  · intro hdec hle
    rw [hid, Atoi_eq]
    by_cases hnil : afterSign val = []
    · rw [if_pos hnil]; rfl
    · have hall : (afterSign val).all Char.isDigit = false := by
        simp only [isDecimalInt, Bool.and_eq_false_iff, decide_eq_false_iff_not] at hdec
        rcases hdec with hdec | hdec
        · exact absurd hdec (not_not.2 hnil)
        · exact hdec
      rw [if_neg hnil, if_pos hle, hall]
      rfl
  · intro _ hgt
    rw [hid, Atoi_eq]
    have hnil : afterSign val ≠ [] := by
      intro h
      rw [h] at hgt
      simp [decValue] at hgt
    rw [if_neg hnil, if_neg (by omega)]
    by_cases hneg : val.data.head? = some '-'
    · simp only [hneg, if_true]; decide
    · simp only [hneg, if_false]; decide

/-- Witness of the amended C18: `-1` gives the `Id` 4294967295, `abc` the `Id` 0. -/
theorem message_id_conversion_witness :
    (unmarshalAttrs MavlinkMessage.zero [⟨"id", "-1"⟩]).Id = 4294967295 ∧
    (unmarshalAttrs MavlinkMessage.zero [⟨"id", "abc"⟩]).Id = 0 ∧
    (unmarshalAttrs MavlinkMessage.zero [⟨"id", "-1"⟩]).Id =
      (decimalValue "-1" % 2 ^ 32).toNat :=
  ⟨by decide,
    (message_id_conversion MavlinkMessage.zero "abc" []).2.2.1 (by decide) (by decide),
    (message_id_conversion MavlinkMessage.zero "-1" []).2.1 (by decide) (by decide)
      (by decide)⟩


/-! ## The emitted text -/

theorem join_cons_text (x : String) (xs : List String) :
    String.join (x :: xs) = x ++ String.join xs := by
  apply String.ext
  simp [String.data_join, String.data_append]

theorem join_append_text (a b : List String) :
    String.join (a ++ b) = String.join a ++ String.join b := by
  apply String.ext
  simp [String.data_join, String.data_append]

theorem join_nil_text : String.join [] = "" := rfl

theorem join_mem_text {α : Type} (g : α → String) (x : α) (l : List α) (h : x ∈ l) :
    ∃ front back : String, String.join (l.map g) = front ++ g x ++ back := by
  obtain ⟨l1, l2, hl⟩ := List.append_of_mem h
  refine ⟨String.join (l1.map g), String.join (l2.map g), ?_⟩
  rw [hl, List.map_append, join_append_text, List.map_cons, join_cons_text, String.append_assoc]

theorem render_members (fs : List MavlinkField) :
    String.join ((fs.map (fun f => Chunk.member f.Name f.Typ)).map Chunk.render) =
      String.join (fs.map memberLine) := by
  rw [List.map_map]
  rfl

theorem render_message (m : MavlinkMessage) :
    String.join ((messageChunks m).map Chunk.render) = recordText m := by
  simp only [messageChunks, List.map_append, join_append_text, render_members, List.map_cons,
    List.map_nil, join_cons_text, join_nil_text]
  apply String.ext
  simp [recordText, Chunk.render, String.data_append]

theorem render_messages (ms : List MavlinkMessage) :
    String.join ((ms.flatMap messageChunks).map Chunk.render) =
      String.join (ms.map recordText) := by
  induction ms with
  | nil => rfl
  | cons m ms ih =>
    rw [List.flatMap_cons, List.map_append, join_append_text, ih, render_message,
      List.map_cons, join_cons_text]

theorem render_declChunks (defs : List MavlinkDefinition) :
    String.join ((declChunks defs).map Chunk.render) = String.join (defs.map docText) := by
  induction defs with
  | nil => rfl
  | cons d defs ih =>
    have e : declChunks (d :: defs) =
        (Chunk.defComment d.Name :: d.Messages.flatMap messageChunks) ++ declChunks defs := by
      simp [declChunks]
    rw [e, List.map_append, join_append_text, ih, List.map_cons, join_cons_text,
      render_messages, List.map_cons, join_cons_text]
    rfl

theorem render_registryEntries (ms : List MavlinkMessage) :
    String.join ((ms.map (fun m => Chunk.registryEntry m.Name)).map Chunk.render) =
      String.join (ms.map entryLine) := by
  rw [List.map_map]
  rfl

theorem render_registryChunks (defs : List MavlinkDefinition) :
    String.join ((registryChunks defs).map Chunk.render) =
      String.join (defs.map registryDocText) := by
  induction defs with
  | nil => rfl
  | cons d defs ih =>
    have e : registryChunks (d :: defs) =
        (Chunk.registryComment d.Name :: d.Messages.map (fun m => Chunk.registryEntry m.Name))
          ++ registryChunks defs := by
      simp [registryChunks]
    rw [e, List.map_append, join_append_text, ih, List.map_cons, join_cons_text,
      render_registryEntries, List.map_cons, join_cons_text]
    rfl

/-- The whole text `tpl.Execute` writes: the header, the declarations of every document,
then the registry. -/
theorem tplExecute_text (name : String) (defs : List MavlinkDefinition) :
    tplExecute name defs =
      (Chunk.header name).render ++ String.join (defs.map docText)
        ++ "\n\nvar Dialect = []gomavlib.Message\x7b" ++ String.join (defs.map registryDocText)
        ++ "\n\x7d\n" := by
  simp only [tplExecute, tplChunks, List.map_append, join_append_text, render_declChunks,
    render_registryChunks, List.map_cons, List.map_nil, join_cons_text, join_nil_text]
  apply String.ext
  simp [Chunk.render, String.data_append]

/-- C8: for every list of resolved documents, the text `tpl.Execute` writes is the header,
then for each document in resolution order its comment line and, for each of its messages in
document order, the record type `Message<Name>` with its accessor, then the registry
`var Dialect`, which holds for each document in resolution order its comment line and, for
each of its messages in document order, exactly one entry line (`&Message<Name>`, an empty pair of
braces and a comma), and nothing else.  So the registry entries are the messages of the documents in the two-level
order in which the record types are declared, one entry per message: as many entries as the
documents have messages. -/
theorem registry_lists_every_message (name : String) (defs : List MavlinkDefinition) :
    tplExecute name defs =
      "\n// autogenerated with dialgen. do not edit.\n\npackage " ++ name
        ++ "\n\nimport (\n\t\"github.com/gswly/gomavlib\"\n)\n"
        ++ String.join (defs.map fun d =>
            "\n// " ++ d.Name ++ "\n" ++ String.join (d.Messages.map fun m =>
              "\ntype Message" ++ m.Name ++ " struct \x7b"
                ++ String.join (m.Fields.map fun f => "\n    " ++ f.Name ++ " " ++ f.Typ)
                ++ "\n\x7d\n"
                ++ ("\nfunc (*Message" ++ m.Name ++ ") GetId() uint32 \x7b\n    return "
                  ++ toString m.Id ++ "\n\x7d\n")))
        ++ "\n\nvar Dialect = []gomavlib.Message\x7b"
        ++ String.join (defs.map fun d =>
            "\n    // " ++ d.Name ++ String.join (d.Messages.map fun m =>
              "\n    &Message" ++ m.Name ++ "\x7b\x7d,"))
        ++ "\n\x7d\n" ∧
    registryEntries (tplChunks name defs) =
      defs.flatMap (fun d => d.Messages.map (fun m => m.Name)) ∧
    (registryEntries (tplChunks name defs)).length = (defs.map (fun d => d.Messages.length)).sum ∧
    registryEntries (tplChunks name defs) = declaredTypes (tplChunks name defs) := by
  refine ⟨?_, tplChunks_names name defs⟩
  rw [tplExecute_text]
  rfl

/-- The text of a message of a document of `defs` is part of the output. -/
theorem tplExecute_contains_record (name : String) (defs : List MavlinkDefinition)
    (d : MavlinkDefinition) (m : MavlinkMessage) (hd : d ∈ defs) (hm : m ∈ d.Messages) :
    ∃ front back : String, tplExecute name defs = front ++ recordText m ++ back := by
  obtain ⟨f1, b1, h1⟩ := join_mem_text docText d defs hd
  obtain ⟨f2, b2, h2⟩ := join_mem_text recordText m d.Messages hm
  refine ⟨(Chunk.header name).render ++ f1 ++ ("\n// " ++ d.Name ++ "\n") ++ f2,
    b2 ++ b1 ++ "\n\nvar Dialect = []gomavlib.Message\x7b"
      ++ String.join (defs.map registryDocText) ++ "\n\x7d\n", ?_⟩
  rw [tplExecute_text, h1]
  simp only [docText, h2, String.append_assoc]


/-! ## The text `do` writes -/

/-- A run of `do` that wrote its output resolved the root without error and wrote what the
template gives for the resolved documents. -/
theorem do_success (w : World) (Create : String → Option String) (fuel : Nat)
    (outfile root : String) (fetched : List String) (text : String)
    (h : do_ w Create fuel outfile root = some ⟨none, fetched, some text⟩) :
    ∃ s, process w (w.ParseRequestURI root) fuel root RunState.init = some (s, none) ∧
      fetched = s.fetched ∧ text = tplExecute (TrimSuffix (Split root).2 ".xml") s.defs := by
  unfold do_ at h
  split_ifs at h
  · simp at h
  · simp only at h
    split at h
    · cases h
    · simp at h
    · rename_i s hp
      split at h
      · simp at h
      · simp only [Option.some.injEq, DoResult.mk.injEq, true_and] at h
        exact ⟨s, hp, h.1.symm, h.2.symm⟩

/-- In the output of a successful run, the message at index `i` of the document at a
reachable address appears with its name and fields converted. -/
theorem do_contains_record (w : World) (Create : String → Option String) (fuel : Nat)
    (outfile root : String) (fetched : List String) (text : String) (a : String)
    (d : MavlinkDefinition) (i : Nat) (m : MavlinkMessage)
    (hdo : do_ w Create fuel outfile root = some ⟨none, fetched, some text⟩)
    (ha : Reach w (w.ParseRequestURI root) root a)
    (hd : parseAt w (w.ParseRequestURI root) a = some d) (hi : d.Messages[i]? = some m) :
    ∃ front back : String, text = front ++
      recordText { m with Name := w.MsgNameXmlToGo m.Name,
                          Fields := convertFields w (w.rangeOrder a i) 0 m.Fields } ++ back := by
  obtain ⟨s, hp, _, ht⟩ := do_success w Create fuel outfile root fetched text hdo
  obtain ⟨_, _, hperm, hreach, hdefs, _⟩ := process_init_summary w _ fuel root s hp
  have happ : a ∈ s.appended := hperm.subset ((hreach a).2 ha)
  have hmem : docAt w (w.ParseRequestURI root) a ∈ s.defs.map some := by
    rw [hdefs]
    exact List.mem_map_of_mem _ happ
  obtain ⟨d2, hd2, hdoc⟩ := List.mem_map.1 hmem
  simp only [docAt, hd, Option.map_some', Option.some.injEq] at hdoc
  have hm2 : ({ m with Name := w.MsgNameXmlToGo m.Name,
                       Fields := convertFields w (w.rangeOrder a i) 0 m.Fields } :
      MavlinkMessage) ∈ d2.Messages := by
    have hget : (convertMessages w (w.rangeOrder a) 0 d.Messages)[i]? =
        some { m with Name := w.MsgNameXmlToGo m.Name,
                      Fields := convertFields w (w.rangeOrder a i) 0 m.Fields } := by
      rw [convertMessages_getElem?, hi]
      simp
    rw [hdoc]
    exact List.getElem?_mem hget
  rw [ht]
  exact tplExecute_contains_record _ s.defs d2 _ hd2 hm2


/-! ## The claims about the emitted text -/

/-- C9: in the text of a successful run of `do`, let a message decoded by `UnmarshalXML`
(from a fresh receiver) be the `i`-th message of the document at a reachable address.  The
output holds its record type `type Message<Name> struct`, whose member lines between the
opening and the closing brace are one per `field` element of the message body, in the order
of the body: the line at position `k` is the `field` element with `k` `field` elements before
it, with its name converted and its type mapped. -/
theorem field_order_end_to_end (w : World) (Create : String → Option String) (fuel : Nat)
    (outfile root : String) (fetched : List String) (text : String) (a : String)
    (d : MavlinkDefinition) (i : Nat) (start : List Attr) (body : List Step) (m : MavlinkMessage)
    (hdo : do_ w Create fuel outfile root = some ⟨none, fetched, some text⟩)
    (ha : Reach w (w.ParseRequestURI root) root a)
    (hd : parseAt w (w.ParseRequestURI root) a = some d) (hi : d.Messages[i]? = some m)
    (h : UnmarshalXML MavlinkMessage.zero start body = .ok m) :
    ∃ (front back : String) (lines : List String),
      text = front ++ ("\ntype Message" ++ w.MsgNameXmlToGo m.Name ++ " struct \x7b"
        ++ String.join lines ++ "\n\x7d\n") ++ back ∧
      lines.length = (body.filter (Step.isStart "field")).length ∧
      ∀ pre st post, body = pre ++ st :: post → st.isStart "field" = true →
        ∃ inner, st.decode = .ok inner ∧
          lines[(pre.filter (Step.isStart "field")).length]? =
            some ("\n    "
              ++ (convertField w (w.rangeOrder a i (pre.filter (Step.isStart "field")).length)
                (decodedField (pre.any (Step.isStart "extensions")) st.attrs inner)).Name
              ++ " "
              ++ (convertField w (w.rangeOrder a i (pre.filter (Step.isStart "field")).length)
                (decodedField (pre.any (Step.isStart "extensions")) st.attrs inner)).Typ) := by
  obtain ⟨front, back, ht⟩ :=
    do_contains_record w Create fuel outfile root fetched text a d i m hdo ha hd hi
  obtain ⟨new, hf, hl, hsplit, _⟩ := unmarshalBody_fields body false _ m h
  rw [unmarshalAttrs_Fields] at hf
  have hnew : m.Fields = new := by simpa [MavlinkMessage.zero] using hf
  refine ⟨front,
    ("\nfunc (*Message" ++ w.MsgNameXmlToGo m.Name ++ ") GetId() uint32 \x7b\n    return "
      ++ toString m.Id ++ "\n\x7d\n") ++ back,
    (convertFields w (w.rangeOrder a i) 0 m.Fields).map memberLine, ?_, ?_, ?_⟩
  · rw [ht]
    simp only [recordText, String.append_assoc]
  · simp [convertFields_length, hnew, hl]
  · intro pre st post hb hst
    obtain ⟨inner, hdec, hget⟩ := hsplit pre st post hb hst
    refine ⟨inner, hdec, ?_⟩
    simp only [List.getElem?_map, convertFields_getElem?, hnew, hget, Bool.false_or,
      Option.map_some', Nat.zero_add]
    rfl

set_option maxRecDepth 100000 in
/-- Witness of C9: the run on `markedWorld`, whose message is decoded from `markedBody`,
writes `markedOutput`, where the record type has the members `a` and `b` in this order. -/
theorem field_order_end_to_end_witness :
    do_ markedWorld (fun _ => none) 1 "out.go" "A" = some ⟨none, ["A"], some markedOutput⟩ ∧
    UnmarshalXML MavlinkMessage.zero [⟨"id", "7"⟩, ⟨"name", "M"⟩] markedBody = .ok markedMessage ∧
    ∃ (front back : String) (lines : List String),
      markedOutput = front ++ ("\ntype MessageM struct \x7b" ++ String.join lines ++ "\n\x7d\n")
        ++ back ∧
      lines.length = 2 ∧
      lines[0]? = some "\n    a uint8" ∧
      lines[1]? = some "\n    b string `mavlen:\"20\",mavext:\"true\"`" := by
  have hrun : do_ markedWorld (fun _ => none) 1 "out.go" "A" =
      some ⟨none, ["A"], some markedOutput⟩ := rfl
  obtain ⟨front, back, lines, ht, hl, hall⟩ :=
    field_order_end_to_end markedWorld (fun _ => none) 1 "out.go" "A" ["A"] markedOutput "A"
      { MavlinkDefinition.zero with Messages := markedDoc } 0 [⟨"id", "7"⟩, ⟨"name", "M"⟩]
      markedBody markedMessage hrun Relation.ReflTransGen.refl (by decide) rfl rfl
  obtain ⟨i0, hd0, h0⟩ := hall [⟨.Other, .ok ""⟩]
    (startStep "field" [⟨"type", "uint8_t"⟩, ⟨"name", "a"⟩]) _ rfl rfl
  obtain ⟨i1, hd1, h1⟩ := hall
    [⟨.Other, .ok ""⟩, startStep "field" [⟨"type", "uint8_t"⟩, ⟨"name", "a"⟩], ⟨.Other, .ok ""⟩,
      startStep "extensions" [], ⟨.Other, .ok ""⟩]
    (startStep "field" [⟨"type", "char[20]"⟩, ⟨"name", "b"⟩]) _ rfl rfl
  have e0 : i0 = "" := (Except.ok.inj hd0).symm
  have e1 : i1 = "" := (Except.ok.inj hd1).symm
  subst e0 e1
  exact ⟨hrun, rfl, front, back, lines, ht, hl, h0.trans (by decide), h1.trans (by decide)⟩

/-- C13: for a message whose (last) `id` attribute is a decimal integer of value `n` with
`0 ≤ n < 2 ^ 32`, as the decimal representation `toString n` is, the `Id` parsed by
`UnmarshalXML` is `n`; and when the message is the `i`-th message of the document at a
reachable address, the text a successful run of `do` writes holds the record type of the
message followed by its accessor `GetId`, whose body is `return n`. -/
theorem message_id_is_emitted (w : World) (Create : String → Option String) (fuel : Nat)
    (outfile root : String) (fetched : List String) (text : String) (a : String)
    (d : MavlinkDefinition) (i : Nat) (m0 : MavlinkMessage)
    (pre post : List Attr) (val : String) (body : List Step) (n : Nat) (m : MavlinkMessage)
    (hdo : do_ w Create fuel outfile root = some ⟨none, fetched, some text⟩)
    (ha : Reach w (w.ParseRequestURI root) root a)
    (hd : parseAt w (w.ParseRequestURI root) a = some d) (hi : d.Messages[i]? = some m)
    (hdec : isDecimalInt val = true) (hval : decimalValue val = (n : Int)) (hn : n < 2 ^ 32)
    (hpost : ∀ a ∈ post, a.Local ≠ "id")
    (h : UnmarshalXML m0 (pre ++ ⟨"id", val⟩ :: post) body = .ok m) :
    m.Id = n ∧
    (∃ front members back : String,
      text = front
        ++ ("\ntype Message" ++ w.MsgNameXmlToGo m.Name ++ " struct \x7b" ++ members
          ++ "\n\x7d\n"
          ++ ("\nfunc (*Message" ++ w.MsgNameXmlToGo m.Name
            ++ ") GetId() uint32 \x7b\n    return " ++ toString n ++ "\n\x7d\n"))
        ++ back) ∧
    (isDecimalInt (toString n) = true ∧ decimalValue (toString n) = (n : Int)) := by
  have hid : m.Id = n := UnmarshalXML_decimal_id m0 pre post val body n m hdec hval hn hpost h
  obtain ⟨front, back, ht⟩ :=
    do_contains_record w Create fuel outfile root fetched text a d i m hdo ha hd hi
  refine ⟨hid, ⟨front,
    String.join ((convertFields w (w.rangeOrder a i) 0 m.Fields).map memberLine), back, ?_⟩,
    toString_decimal n⟩
  rw [ht, ← hid]
  rfl

set_option maxRecDepth 100000 in
/-- Witness of C13: `id="42000"` on `ICAROUS_HEARTBEAT` gives `Id` 42000, and the run on
`heartbeatWorld` writes `heartbeatOutput`, with an accessor returning 42000. -/
theorem message_id_is_emitted_witness :
    do_ heartbeatWorld (fun _ => none) 1 "dialect.go" "icarous.xml" =
      some ⟨none, ["icarous.xml"], some heartbeatOutput⟩ ∧
    UnmarshalXML MavlinkMessage.zero ([] ++ ⟨"id", "42000"⟩ :: [⟨"name", "ICAROUS_HEARTBEAT"⟩])
      heartbeatBody = .ok heartbeatMessage ∧
    heartbeatMessage.Id = 42000 ∧
    ∃ front members back : String,
      heartbeatOutput = front
        ++ ("\ntype MessageICAROUS_HEARTBEAT struct \x7b" ++ members ++ "\n\x7d\n"
          ++ "\nfunc (*MessageICAROUS_HEARTBEAT) GetId() uint32 \x7b\n    return 42000\n\x7d\n")
        ++ back := by
  have hrun : do_ heartbeatWorld (fun _ => none) 1 "dialect.go" "icarous.xml" =
      some ⟨none, ["icarous.xml"], some heartbeatOutput⟩ := rfl
  obtain ⟨hid, ⟨front, members, back, ht⟩, _⟩ :=
    message_id_is_emitted heartbeatWorld (fun _ => none) 1 "dialect.go" "icarous.xml"
      ["icarous.xml"] heartbeatOutput "icarous.xml"
      { MavlinkDefinition.zero with Messages := [heartbeatMessage] } 0 MavlinkMessage.zero []
      [⟨"name", "ICAROUS_HEARTBEAT"⟩] "42000" heartbeatBody 42000 heartbeatMessage
      hrun Relation.ReflTransGen.refl (by decide) rfl (by decide) (by decide) (by decide)
      (by decide) rfl
  exact ⟨hrun, rfl, hid, front, members, back, ht⟩

/-! ## Evaluations -/

theorem fieldTypeToGo_examples :
    fieldTypeToGo demoTable false ⟨false, "float[5]", "", "", ""⟩ = "[5]float32" ∧
    fieldTypeToGo demoTable false ⟨true, "char[20]", "", "", ""⟩
      = "string `mavlen:\"20\",mavext:\"true\"`" ∧
    fieldTypeToGo demoTable true ⟨true, "char[20]", "", "", ""⟩
      = "string `mavext:\"true\",mavlen:\"20\"`" ∧
    fieldTypeToGo demoTable true ⟨false, "uint8_t_mavlink_version", "", "", ""⟩ = "uint8" ∧
    fieldTypeToGo demoTable true ⟨false, "nope", "", "", ""⟩ = "" := by
  decide

theorem Split_examples :
    Split "a/b/c.xml" = ("a/b/", "c.xml") ∧ Split "c.xml" = ("", "c.xml") := by
  decide

theorem Atoi_examples :
    Atoi "42000" = (42000, none) ∧ Atoi "-1" = (-1, none) ∧ Atoi "+7" = (7, none) ∧
    Atoi "" = (0, some .Syntax) ∧ Atoi "4x" = (0, some .Syntax) ∧ Atoi "-" = (0, some .Syntax) ∧
    Atoi "9223372036854775808" = (9223372036854775807, some .Range) ∧
    Atoi "-9223372036854775808" = (-9223372036854775808, none) ∧
    Atoi "99999999999999999999x" = (9223372036854775807, some .Range) ∧
    toUint32 (Atoi "-1").1 = 4294967295 ∧ toUint32 (Atoi "4294967296").1 = 0 := by
  decide

theorem self_include_example :
    (process selfWorld false 2 "A" RunState.init).map (fun x => (x.1.appended, x.1.fetched, x.2)) =
      some (["A"], ["A"], none) ∧
    (do_ brokenWorld (fun _ => none) 3 "out.go" "A").map (fun res => res.output) = some none ∧
    (do_ endlessWorld (fun _ => none) 5 "out.go" "http://h/a.xml") = none := by
  decide

theorem process_examples :
    process diamond false 3 "A" RunState.init = some (diamondEnd, none) ∧
    process cycle false 3 "A" RunState.init = some (cycleEnd, none) ∧
    process cycle false 2 "A" RunState.init = none := by
  decide

end Dialgen
